import Mathlib

/-!
# Semantic analysis of the anic compiler (`semmer.cpp`): symbol table, resolver, imports

A shallow embedding of `src/src/semmer.cpp` and `src/src/semmer.h`.

* Symbol-table nodes live in a heap (`Heap`), a list of cells addressed by their index; a
  pointer is a `Nat`, a possibly-null pointer an `Option Nat`, a freed cell holds `none`.
* Parse-tree nodes live in a second heap (`TreeHeap`).
* Every operation returns an `Option`: `none` stands for an execution without a defined
  result (a null or dangling pointer is dereferenced, or the recursion budget `fuel` of
  a recursive walk is used up).  A resolver answer "unresolved" (the C++ `NULL`) is the
  defined result `some none`.
-/

namespace Anic

/-! ## Parse tree -/

/-- Modelled from the spec: the token kinds named in `semmer.cpp` (the `TOKEN_*` constants are
generated outside the sources); only their being distinct is used. -/
inductive TokenType where
  | Identifier | AT | NonEmptyTerms | Block | NodeHeader | Declaration | EQUALS | ERARROW
  | SimpleCondTerm | OpenCondTerm | SimpleTerm | ClosedCondTerm | DynamicTerm | SwitchTerm
  | StaticTerm | Compound | Link | Send | TypedStaticTerm | Delatch | Node | LBRACKET
  | NodeInstantiation | TypedNodeLiteral | PrimOpNode | PrimLiteral | PrefixOp | InfixOp
  | MultiOp | INUM | FNUM | CQUOTE | SQUOTE
  | other (n : Nat)
  deriving DecidableEq, Repr

/-- Modelled from the spec: a lexer token with its kind, literal text and source provenance
(`lexer.h` is not among the sources; these are the fields `semmer.cpp` reads). -/
structure Token where
  tokenType : TokenType
  s : String
  fileName : String
  row : Int
  col : Int
  deriving DecidableEq, Repr

abbrev Ptr := Nat

abbrev TreePtr := Nat

/-- A value of type `Type *`: null, the address of an allocated type node, or the value
`(Type *)0x4` that `getExpType` (line 378) and `getTermType` (line 448) return. -/
inductive TypePtr where
  | null
  | marker
  | cell (a : Nat)
  deriving DecidableEq, Repr

/-- Modelled from the spec: a parse-tree node with its token, its `next`, `back` and `child`
links and the two fields that the semantic analysis fills in, the attached scope `env` and
the attached type `type` (`parser.h` is not among the sources). -/
structure Tree where
  t : Token
  next : Option TreePtr := none
  back : Option TreePtr := none
  child : Option TreePtr := none
  env : Option Ptr := none
  type : TypePtr := TypePtr.null
  deriving DecidableEq, Repr

abbrev TreeHeap := List Tree

/-! ## Symbol table (`semmer.h`) -/

def KIND_BLOCK : Int := 1

def KIND_STD : Int := 2

def KIND_IMPORT : Int := 3

def KIND_STATIC_DECL : Int := 4

def KIND_THROUGH_DECL : Int := 5

def KIND_PARAM : Int := 6

/-- The class `SymbolTable` of `semmer.h`. -/
structure SymbolTable where
  kind : Int
  id : String
  defSite : Option TreePtr
  parent : Option Ptr
  children : List (Option Ptr)
  deriving DecidableEq, Repr

abbrev Heap := List (Option SymbolTable)

/-- Read through a pointer: `none` when the address was never allocated or has been freed. -/
def Heap.deref (h : Heap) (p : Ptr) : Option SymbolTable := (h[p]?).join

/-- Overwrite the cell at `p`. -/
def Heap.write (h : Heap) (p : Ptr) (n : SymbolTable) : Heap := h.set p (some n)

/-- Release the cell at `p`. -/
def Heap.free (h : Heap) (p : Ptr) : Heap := h.set p none

/-- Allocation `new SymbolTable(...)`: the fresh address is the next index. -/
def Heap.alloc (h : Heap) (n : SymbolTable) : Heap × Ptr := (h ++ [some n], h.length)

/-- The constructor `SymbolTable(kind, id, defSite)`, line 13: a leaf without parent. -/
def SymbolTable.mk3 (kind : Int) (id : String) (defSite : Option TreePtr) : SymbolTable :=
  { kind := kind, id := id, defSite := defSite, parent := none, children := [] }

/-! ## Externals and diagnostics -/

/-- Modelled from the spec: what `semmer.cpp` takes from files that are not among the sources,
namely the reserved strings of `constantDefs.h` and the routine `id2String` giving the literal
dotted text of an identifier parse node (`none` when it has no defined result). -/
structure Ext where
  STANDARD_LIBRARY_STRING : String
  BLOCK_NODE_STRING : String
  IMPORT_DECL_STRING : String
  STANDARD_IMPORT_DECL_STRING : String
  id2String : TreeHeap → Option TreePtr → Option String

/-- The texts passed to `printSemmerError` in `semmer.cpp`. -/
inductive SemmerMsg where
  /-- The text "redefinition of 'id'". -/
  | redefinition (id : String)
  /-- The text "-- (previous definition was here)". -/
  | previousDefinition
  /-- The text "name conflict in importing 'id'". -/
  | importConflict (id : String)
  /-- The text "-- (conflicting definition was here)". -/
  | conflictingDefinition
  /-- The text "cannot resolve import 'path'". -/
  | cannotResolveImport (path : String)
  /-- The text "cannot resolve 'qi'". -/
  | cannotResolve (qi : String)
  /-- The text "cannot resolve output type for this term". -/
  | cannotResolveOutputType
  /-- The text "-- (input type was ...)". -/
  | inputTypeWas (ty : String)
  deriving DecidableEq, Repr

/-- One call of `printSemmerError(fileName, row, col, text, ...)`. -/
structure ErrLine where
  fileName : String
  row : Int
  col : Int
  msg : SemmerMsg
  deriving DecidableEq, Repr

abbrev Log := List ErrLine

/-- Modelled from the spec: the macro `printSemmerError` (defined outside the sources) reports a
line and processing continues; a run is a failure exactly when some line was reported. -/
def printSemmerError (log : Log) (fileName : String) (row col : Int) (msg : SemmerMsg) : Log :=
  log ++ [{ fileName := fileName, row := row, col := col, msg := msg }]

/-- The continuation lines, whose text starts with "-- (", that complete the diagnostic
reported by the line before them. -/
def SemmerMsg.isNote : SemmerMsg → Bool
  | .previousDefinition => true
  | .conflictingDefinition => true
  | .inputTypeWas _ => true
  | _ => false

/-- The diagnostics of a log: its lines that are not continuation lines. -/
def diagnostics (log : Log) : List ErrLine := log.filter (fun l => !l.msg.isNote)

/-- The provenance reported for a definition site: the site's token, or the made-up standard
library position (row 0, column 0) when there is no site (lines 50-65 and 333-340). -/
def defToken (K : Ext) (tr : TreeHeap) : Option TreePtr → Option (String × Int × Int)
  | none => some (K.STANDARD_LIBRARY_STRING, 0, 0)
  | some d => (tr[d]?).map (fun n => (n.t.fileName, n.t.row, n.t.col))

/-! ## Qualified identifiers -/

/-- Splitting of a character list at every dot. -/
def chopChars : List Char → List (List Char)
  | [] => [[]]
  | c :: cs =>
    if c = '.' then [] :: chopChars cs
    else match chopChars cs with
      | [] => [[c]]
      | w :: ws => (c :: w) :: ws

/-- Modelled from the spec: `qiChop` (defined outside the sources) gives the full ordered list
of the components of a dot-separated path. -/
def qiChop (qi : String) : List String := (chopChars qi.data).map String.mk

/-- Modelled from the spec: `idTip` (defined outside the sources) gives the first component of
a dot-separated path. -/
def idTip (qi : String) : String := (qiChop qi).headD ""

/-! ## Destructor, deep copy, concatenation (lines 19-82) -/

/-- The destructor, lines 19-24, followed by the release of the node: every child is deleted
first (`delete` of a null child does nothing). -/
def deleteFuel : Nat → Heap → Ptr → Option Heap
  | 0, _, _ => none
  | f + 1, h, p => do
    let n ← h.deref p
    let h1 ← n.children.foldlM
      (fun hh c => match c with
        | none => some hh
        | some q => deleteFuel f hh q) h
    some (h1.free p)

/-- The statement `delete st`.  In a defined execution the nodes under destruction are
pairwise distinct live cells, so a budget of one more than the number of cells is never
used up. -/
def deleteST (h : Heap) (p : Ptr) : Option Heap := deleteFuel (h.length + 1) h p

/-- The node made by `new SymbolTable(st)` before the copy constructor assigns to it. -/
def blankNode : SymbolTable :=
  { kind := 0, id := "", defSite := none, parent := none, children := [] }

/-- The loop of `operator=`, lines 32-39, with the copy of one child given by `copy`. -/
def copyChildren (copy : Heap → Ptr → Ptr → Option Heap) (dst : Ptr) :
    List (Option Ptr) → Heap → Option Heap
  | [], h => some h
  | none :: _, _ => none
  | some c :: rest, h => do
    let p := h.length
    let h1 ← copy (h ++ [some blankNode]) p c
    let ch ← h1.deref p
    let h2 := h1.write p { ch with parent := some dst }
    let d ← h2.deref dst
    let h3 := h2.write dst { d with children := d.children ++ [some p] }
    copyChildren copy dst rest h3

/-- The deep-copy assignment `*dst = *src`, lines 27-41.  Assigning a node with children to
itself appends to the vector that is being iterated and has no defined result. -/
def assignFuel : Nat → Heap → Ptr → Ptr → Option Heap
  | 0, _, _, _ => none
  | f + 1, h, dst, src => do
    let s ← h.deref src
    let d ← h.deref dst
    if dst = src ∧ s.children ≠ [] then none
    else
      let h1 := h.write dst
        { d with kind := s.kind, id := s.id, defSite := s.defSite, parent := s.parent }
      copyChildren (assignFuel f) dst s.children h1

/-- The per-symbol loop of `operator*=`, lines 48-71: the first child with the given id. -/
def findConflict (h : Heap) (id : String) : List (Option Ptr) → Option (Option SymbolTable)
  | [] => some none
  | none :: _ => none
  | some c :: rest =>
    match h.deref c with
    | none => none
    | some n => if n.id = id then some (some n) else findConflict h id rest

/-- The concatenation `*self *= st`, lines 44-82.  The result is the new heap, the new log
and the node returned by reference. -/
def concat (K : Ext) (tr : TreeHeap) (h : Heap) (log : Log) (self : Ptr) (st : Option Ptr) :
    Option (Heap × Log × Ptr) := do
  let t ← h.deref self
  let conflict ← (match st with
    | none => some none
    | some p => do
      let s ← h.deref p
      if s.id.get 0 != '_' then
        (findConflict h s.id t.children).map (fun r => r.map (fun prev => (p, s, prev)))
      else some none)
  match conflict with
  | some (p, s, prev) => do
    let cur ← defToken K tr s.defSite
    let prv ← defToken K tr prev.defSite
    let log1 := printSemmerError log cur.1 cur.2.1 cur.2.2 (.redefinition s.id)
    let log2 := printSemmerError log1 prv.1 prv.2.1 prv.2.2 .previousDefinition
    let h1 ← deleteST h p
    some (h1, log2, self)
  | none =>
    let h1 := h.write self { t with children := t.children ++ [st] }
    match st with
    | none => some (h1, log, self)
    | some p => do
      let s ← h1.deref p
      some (h1.write p { s with parent := some self }, log, p)

/-! ## Resolver `bindId` (lines 229-307) -/

/-- The inner loop, lines 260-265, over the children of a block-kind child. -/
def blockScan (h : Heap) (name : String) : List (Option Ptr) → Option (Option Ptr)
  | [] => some none
  | none :: _ => none
  | some b :: rest =>
    match h.deref b with
    | none => none
    | some n =>
      if n.id.get 0 != '_' ∧ n.id = name then some (some b) else blockScan h name rest

/-- The static match loop, lines 252-268, over the children of `stCur` (of kind `curKind`). -/
def staticMatch (h : Heap) (curKind : Int) (name : String) :
    List (Option Ptr) → Option (Option Ptr)
  | [] => some none
  | none :: _ => none
  | some c :: rest =>
    match h.deref c with
    | none => none
    | some n =>
      if n.id = name then some (some c)
      else if curKind ≠ KIND_BLOCK ∧ n.kind = KIND_BLOCK then
        match blockScan h name n.children with
        | none => none
        | some (some m) => some (some m)
        | some none => staticMatch h curKind name rest
      else staticMatch h curKind name rest

/-- The verification loop, lines 248-290, started at node `cur` with index `i` and the
components from index `i` on; the result is the final `stCur` and the final index. -/
def verify (h : Heap) : Ptr → Nat → List String → Option (Ptr × Nat)
  | cur, i, [] => some (cur, i)
  | cur, i, c :: cs => do
    let n ← h.deref cur
    match ← staticMatch h n.kind c n.children with
    | some m => verify h m (i + 1) cs
    | none => some (cur, i)

/-- The latch-point loop, lines 241-298: the first child whose id is the tip decides. -/
def latchScan (h : Heap) (qi tip : String) : List (Option Ptr) → Option (Option Ptr)
  | [] => some none
  | none :: _ => none
  | some l :: rest =>
    match h.deref l with
    | none => none
    | some n =>
      if n.id = tip then
        match verify h l 1 ((qiChop qi).drop 1) with
        | none => none
        | some (cur, i) => if i = (qiChop qi).length then some (some cur) else some none
      else latchScan h qi tip rest

/-- The loop of lines 302-305: from `p` up to the first node of kind block. -/
def climb (h : Heap) : Nat → Option Ptr → Option (Option Ptr)
  | _, none => some none
  | 0, some _ => none
  | f + 1, some p =>
    match h.deref p with
    | none => none
    | some n => if n.kind ≠ KIND_BLOCK then climb h f n.parent else some (some p)

/-- The resolver `bindId(qi, env)`, lines 229-307. -/
def bindIdFuel (h : Heap) (qi : String) : Nat → Option Ptr → Option (Option Ptr)
  | _, none => some none
  | 0, some _ => none
  | f + 1, some env => do
    let e ← h.deref env
    match ← latchScan h qi (idTip qi) e.children with
    | some r => some (some r)
    | none => do
      let up ← climb h f e.parent
      bindIdFuel h qi f up

/-- The call `bindId(qi, env)` returns `r` (`none` for `NULL`). -/
def Resolves (h : Heap) (qi : String) (env : Option Ptr) (r : Option Ptr) : Prop :=
  ∃ fuel, bindIdFuel h qi fuel env = some r

/-! ## Import substitution `subImportDecls` (lines 309-356) -/

/-- The per-parent's-children loop, lines 329-347: the first child that is not system-level
and has the given id. -/
def importConflict (h : Heap) (tip : String) : List (Option Ptr) → Option (Option SymbolTable)
  | [] => some none
  | none :: _ => none
  | some c :: rest =>
    match h.deref c with
    | none => none
    | some n =>
      if n.id.get 0 != '_' ∧ n.id = tip then some (some n) else importConflict h tip rest

/-- Lines 323-353 for one import `imp` with path text `importPath`: resolve, check for a name
conflict among the siblings, then splice a deep copy over the placeholder. -/
def substituteImport (K : Ext) (tr : TreeHeap) (fuel : Nat) (h : Heap) (log : Log) (imp : Ptr)
    (importPath : String) : Option (Heap × Log) := do
  let n ← h.deref imp
  let ds ← n.defSite
  let dn ← tr[ds]?
  let binding ← bindIdFuel h importPath fuel (some imp)
  match binding with
  | some b => do
    let bn ← h.deref b
    let importPathTip := bn.id
    let par ← n.parent
    let pn ← h.deref par
    match ← importConflict h importPathTip pn.children with
    | some prev => do
      let c ← dn.child
      let cn ← tr[c]?
      let idt ← cn.next
      let idn ← tr[idt]?
      let ic ← idn.child
      let icn ← tr[ic]?
      let prv ← defToken K tr prev.defSite
      let log1 := printSemmerError log icn.t.fileName icn.t.row icn.t.col
        (.importConflict importPathTip)
      let log2 := printSemmerError log1 prv.1 prv.2.1 prv.2.2 .conflictingDefinition
      some (h, log2)
    | none => do
      let h1 ← assignFuel fuel h imp b
      some (h1, log)
  | none =>
    some (h, printSemmerError log dn.t.fileName dn.t.row dn.t.col
      (.cannotResolveImport importPath))

/-- Line 314: the path text of the import `imp`, read through its definition site as
`id2String(imp->defSite->child->next)`. -/
def importPathOf (K : Ext) (tr : TreeHeap) (h : Heap) (imp : Ptr) : Option String := do
  let n ← h.deref imp
  let ds ← n.defSite
  let dn ← tr[ds]?
  let c ← dn.child
  let cn ← tr[c]?
  K.id2String tr cn.next

/-- The per-import loop of `subImportDecls`, lines 312-355, started with the flag
`stdExplicitlyImported` at the given value. -/
def subImportLoop (K : Ext) (tr : TreeHeap) (fuel : Nat) :
    Bool → List Ptr → Heap → Log → Option (Heap × Log)
  | _, [], h, log => some (h, log)
  | stdExplicitlyImported, imp :: rest, h, log => do
    let importPath ← importPathOf K tr h imp
    if importPath = "std" ∧ stdExplicitlyImported = false then do
      let n ← h.deref imp
      subImportLoop K tr fuel true rest
        (h.write imp { n with id := K.STANDARD_IMPORT_DECL_STRING }) log
    else do
      let r ← substituteImport K tr fuel h log imp importPath
      subImportLoop K tr fuel stdExplicitlyImported rest r.1 r.2

/-- The pass `subImportDecls(importList)`, lines 309-356. -/
def subImportDecls (K : Ext) (tr : TreeHeap) (fuel : Nat) (importList : List Ptr) (h : Heap)
    (log : Log) : Option (Heap × Log) :=
  subImportLoop K tr fuel false importList h log

/-! ## Default definitions (lines 98-143) -/

/-- The statement `*self *= new SymbolTable(kind, id, defSite)`. -/
def concatNew (K : Ext) (tr : TreeHeap) (h : Heap) (log : Log) (self : Ptr) (kind : Int)
    (id : String) (defSite : Option TreePtr) : Option (Heap × Log × Ptr) :=
  let a := h.alloc (SymbolTable.mk3 kind id defSite)
  concat K tr a.1 log self (some a.2)

/-- The routine `catStdNodes`, lines 98-105. -/
def catStdNodes (K : Ext) (tr : TreeHeap) (h : Heap) (log : Log) (stRoot : Ptr) :
    Option (Heap × Log) := do
  let r ← concatNew K tr h log stRoot KIND_STD "node" none
  let r ← concatNew K tr r.1 r.2.1 stRoot KIND_STD "int" none
  let r ← concatNew K tr r.1 r.2.1 stRoot KIND_STD "float" none
  let r ← concatNew K tr r.1 r.2.1 stRoot KIND_STD "bool" none
  let r ← concatNew K tr r.1 r.2.1 stRoot KIND_STD "char" none
  let r ← concatNew K tr r.1 r.2.1 stRoot KIND_STD "string" none
  some (r.1, r.2.1)

/-- The routine `catStdLib`, lines 107-132. -/
def catStdLib (K : Ext) (tr : TreeHeap) (h : Heap) (log : Log) (stRoot : Ptr) :
    Option (Heap × Log) := do
  let a := h.alloc (SymbolTable.mk3 KIND_STD K.STANDARD_LIBRARY_STRING none)
  let stdLib := a.2
  let r ← concatNew K tr a.1 log stdLib KIND_STD "in" none
  let r ← concatNew K tr r.1 r.2.1 stdLib KIND_STD "out" none
  let r ← concatNew K tr r.1 r.2.1 stdLib KIND_STD "err" none
  let r ← concatNew K tr r.1 r.2.1 stdLib KIND_STD "rand" none
  let r ← concatNew K tr r.1 r.2.1 stdLib KIND_STD "delay" none
  let r ← concatNew K tr r.1 r.2.1 stdLib KIND_STD "stack" none
  let r ← concatNew K tr r.1 r.2.1 stdLib KIND_STD "map" none
  let r ← concatNew K tr r.1 r.2.1 stdLib KIND_STD "filter" none
  let r ← concatNew K tr r.1 r.2.1 stdLib KIND_STD "sort" none
  let r ← concatNew K tr r.1 r.2.1 stdLib KIND_STD "gen" none
  let r ← concat K tr r.1 r.2.1 stRoot (some stdLib)
  some (r.1, r.2.1)

/-- The routine `genDefaultDefs`, lines 134-143: the new heap and log and the root. -/
def genDefaultDefs (K : Ext) (tr : TreeHeap) (h : Heap) (log : Log) :
    Option (Heap × Log × Ptr) := do
  let a := h.alloc (SymbolTable.mk3 KIND_BLOCK K.BLOCK_NODE_STRING none)
  let stRoot := a.2
  let r ← catStdNodes K tr a.1 log stRoot
  let r ← catStdLib K tr r.1 r.2 stRoot
  some (r.1, r.2, stRoot)

/-! ## Parse-tree decoration `extractNodes` (lines 146-225) -/

/-- The state that `extractNodes` works on: the parse tree, the symbol heap, the log and the
three worklists. -/
structure Decor where
  tr : TreeHeap
  st : Heap
  log : Log
  importList : List Ptr
  instanceList : List TreePtr
  netsList : List TreePtr

/-- The per-param loop, lines 176-187, started at the parse node `param`. -/
def paramLoop (K : Ext) (tr : TreeHeap) (blockDef : Ptr) :
    Nat → Option TreePtr → Heap → Log → Option (Heap × Log)
  | 0, _, _, _ => none
  | f + 1, param, h, log => do
    let pp ← param
    let pn ← tr[pp]?
    let c ← pn.child
    let cn ← tr[c]?
    let c2 ← cn.next
    let c2n ← tr[c2]?
    let r ← concatNew K tr h log blockDef KIND_PARAM c2n.t.s (some pp)
    match pn.next with
    | some nx => do
      let nxn ← tr[nx]?
      let nn ← nxn.next
      let nnn ← tr[nn]?
      paramLoop K tr blockDef f nnn.child r.1 r.2.1
    | none => some (r.1, r.2.1)

/-- Lines 172-189: the definitions injected from a node header standing before a block. -/
def injectHeader (K : Ext) (tr : TreeHeap) (fuel : Nat) (blockDef : Ptr) (back : Option TreePtr)
    (h : Heap) (log : Log) : Option (Heap × Log) :=
  match back with
  | none => some (h, log)
  | some nh => do
    let nhn ← tr[nh]?
    if nhn.t.tokenType = TokenType.NodeHeader then do
      let c ← nhn.child
      let cn ← tr[c]?
      let c2 ← cn.next
      let c2n ← tr[c2]?
      match c2n.child with
      | none => some (h, log)
      | some pl => do
        let pln ← tr[pl]?
        paramLoop K tr blockDef fuel pln.child h log
    else some (h, log)

/-- The walk `extractNodes(parseme, st, importList, instanceList, netsList, netsHandled)`,
lines 146-225. -/
def extractNodes (K : Ext) : Nat → Option TreePtr → Ptr → Bool → Decor → Option Decor
  | _, none, _, _, s => some s
  | 0, some _, _, _, _ => none
  | f + 1, some pm, st, netsHandled, s0 => do
    let n ← s0.tr[pm]?
    let s := { s0 with tr := s0.tr.set pm { n with env := some st } }
    if n.t.tokenType = TokenType.Identifier then do
      let isImport ← (match n.back with
        | none => some false
        | some b => (s.tr[b]?).map (fun bn => decide (bn.t.tokenType = TokenType.AT)))
      if isImport = false then
        some { s with instanceList := s.instanceList ++ [pm] }
      else
        extractNodes K f n.next st netsHandled s
    else if n.t.tokenType = TokenType.NonEmptyTerms ∧ netsHandled = false then
      extractNodes K f n.child st true { s with netsList := s.netsList ++ [pm] }
    else if n.t.tokenType = TokenType.Block then do
      let a := s.st.alloc (SymbolTable.mk3 KIND_BLOCK K.BLOCK_NODE_STRING (some pm))
      let blockDef := a.2
      let r ← injectHeader K s.tr f blockDef n.back a.1 s.log
      let r ← concat K s.tr r.1 r.2 st (some blockDef)
      extractNodes K f n.child blockDef netsHandled { s with st := r.1, log := r.2.1 }
    else if n.t.tokenType = TokenType.Declaration then do
      let c ← n.child
      let cn ← s.tr[c]?
      let c2 ← cn.next
      let c2n ← s.tr[c2]?
      if c2n.t.tokenType = TokenType.EQUALS then do
        let a := s.st.alloc (SymbolTable.mk3 KIND_STATIC_DECL cn.t.s (some pm))
        let r ← concat K s.tr a.1 s.log st (some a.2)
        extractNodes K f n.child a.2 netsHandled { s with st := r.1, log := r.2.1 }
      else if c2n.t.tokenType = TokenType.ERARROW then do
        let a := s.st.alloc (SymbolTable.mk3 KIND_THROUGH_DECL cn.t.s (some pm))
        let r ← concat K s.tr a.1 s.log st (some a.2)
        extractNodes K f n.child a.2 netsHandled { s with st := r.1, log := r.2.1 }
      else if c2n.t.tokenType = TokenType.Identifier then do
        let a := s.st.alloc (SymbolTable.mk3 KIND_IMPORT K.IMPORT_DECL_STRING (some pm))
        let r ← concat K s.tr a.1 s.log st (some a.2)
        extractNodes K f n.child a.2 netsHandled
          { s with st := r.1, log := r.2.1, importList := s.importList ++ [a.2] }
      else some s
    else do
      let s1 ← extractNodes K f n.child st netsHandled s
      extractNodes K f n.next st netsHandled s1

/-- The first two passes of `sem`, lines 486-492, run on a parse tree from an empty symbol
heap: default definitions and decoration.  The result is the decorated state and the root of
the symbol tree. -/
def semDecorate (K : Ext) (fuel : Nat) (tr : TreeHeap) (rootParseme : Option TreePtr) :
    Option (Decor × Ptr) := do
  let g ← genDefaultDefs K tr [] []
  let s ← extractNodes K fuel rootParseme g.2.2 false
    { tr := tr, st := g.1, log := g.2.1, importList := [], instanceList := [], netsList := [] }
  some (s, g.2.2)

/-- The first three passes of `sem`, lines 486-495: default definitions, decoration, import
substitution. -/
def semSymbols (K : Ext) (fuel : Nat) (tr : TreeHeap) (rootParseme : Option TreePtr) :
    Option (Decor × Ptr) := do
  let d ← semDecorate K fuel tr rootParseme
  let r ← subImportDecls K d.1.tr fuel d.1.importList d.1.st d.1.log
  some ({ d.1 with st := r.1, log := r.2 }, d.2)

/-! ## Predicates used in the statements -/

/-- All children are present, live and carry an id other than `id`. -/
def NoChildNamed (h : Heap) (id : String) (cs : List (Option Ptr)) : Prop :=
  ∀ c ∈ cs, ∃ q n, c = some q ∧ h.deref q = some n ∧ n.id ≠ id

/-- The first node of kind block at or above a possibly-null node, following the parent
pointers: `none` when the chain ends without meeting one. -/
inductive FirstBlockFrom (h : Heap) : Option Ptr → Option Ptr → Prop where
  | null : FirstBlockFrom h none none
  | here (p : Ptr) (n : SymbolTable) :
      h.deref p = some n → n.kind = KIND_BLOCK → FirstBlockFrom h (some p) (some p)
  | up (p : Ptr) (n : SymbolTable) (a : Option Ptr) :
      h.deref p = some n → n.kind ≠ KIND_BLOCK → FirstBlockFrom h n.parent a →
      FirstBlockFrom h (some p) a

/-- All pointers of the list are present and live. -/
def AllLive (h : Heap) (cs : List (Option Ptr)) : Prop :=
  ∀ c ∈ cs, ∃ q n, c = some q ∧ h.deref q = some n

/-- The latch-point loop over the children `cs` ends without a binding for the path `qi`:
no child has the tip as id, or the first child that has it does not verify the remaining
components. -/
def LatchFails (h : Heap) (qi : String) (cs : List (Option Ptr)) : Prop :=
  NoChildNamed h (idTip qi) cs ∨
  ∃ pre l post ln cur i, cs = pre ++ some l :: post ∧ NoChildNamed h (idTip qi) pre ∧
    h.deref l = some ln ∧ ln.id = idTip qi ∧
    verify h l 1 ((qiChop qi).drop 1) = some (cur, i) ∧ i ≠ (qiChop qi).length

/-! ## Concrete data used by the witnesses and counterexamples -/

/-- A token at a fixed position of the file `a.anic`. -/
def tok (ty : TokenType) (s : String) : Token :=
  { tokenType := ty, s := s, fileName := "a.anic", row := 1, col := 1 }

/-- An instance of the externals: the text of an identifier node is the text of its token. -/
def extW : Ext :=
  { STANDARD_LIBRARY_STRING := "std", BLOCK_NODE_STRING := "_block",
    IMPORT_DECL_STRING := "_import", STANDARD_IMPORT_DECL_STRING := "_stdImport",
    id2String := fun tr p => p.bind (fun q => (tr[q]?).map (fun n => n.t.s)) }

/-- A root block without children. -/
def heapC1 : Heap := [some (SymbolTable.mk3 KIND_BLOCK "_block" none)]

/-- A root block with one child `_a`, and a second, not yet inserted node `_a`. -/
def heapC2 : Heap :=
  [some { kind := KIND_BLOCK, id := "_block", defSite := none, parent := none,
          children := [some 1] },
   some { kind := KIND_STD, id := "_a", defSite := none, parent := some 0, children := [] },
   some (SymbolTable.mk3 KIND_STD "_a" none)]

/-- A shorthand for a symbol-table cell. -/
def cell (kind : Int) (id : String) (parent : Option Ptr) (children : List (Option Ptr)) :
    Option SymbolTable :=
  some { kind := kind, id := id, defSite := none, parent := parent, children := children }

/-- A root block 0 holding `x` (1) and the block 2; the block 2 holds the declaration `d` (3),
which holds the block 4. -/
def heapC4 : Heap :=
  [cell KIND_BLOCK "_block" none [some 1, some 2],
   cell KIND_STD "x" (some 0) [],
   cell KIND_BLOCK "_block" (some 0) [some 3],
   cell KIND_STATIC_DECL "d" (some 2) [some 4],
   cell KIND_BLOCK "_block" (some 3) []]

/-- A root block 0 holding the declaration `d` (1), whose block 2 holds `c` (3) and `_c` (4);
the root also holds the block `e` (5), whose block 6 holds `c` (7). -/
def heapC5 : Heap :=
  [cell KIND_BLOCK "_block" none [some 1, some 5],
   cell KIND_STATIC_DECL "d" (some 0) [some 2],
   cell KIND_BLOCK "_block" (some 1) [some 3, some 4],
   cell KIND_STATIC_DECL "c" (some 2) [],
   cell KIND_STATIC_DECL "_c" (some 2) [],
   cell KIND_BLOCK "e" (some 0) [some 6],
   cell KIND_BLOCK "_block" (some 5) [some 7],
   cell KIND_STATIC_DECL "c" (some 6) []]

/-- The node `p` has `par` as its parent pointer. -/
def ParentIs (h : Heap) (p : Nat) (par : Nat) : Prop :=
  ∃ a, h.deref p = some a ∧ a.parent = some par

/-- The subtree under `q` is a finite tree of live nodes, of height at most `d`, that does not
contain the node `x`. -/
def SubtreeAvoids (h : Heap) (x : Nat) : Nat → Nat → Prop
  | 0, _ => False
  | d + 1, q => q ≠ x ∧ ∃ b, h.deref q = some b ∧
      ∀ c ∈ b.children, ∃ y, c = some y ∧ SubtreeAvoids h x d y

/-- The node `p` of the heap `h1` is a deep copy of the node `q` of the heap `h`, made of the
cells from `lo` up to `hi`: both have the same kind, id and definition site, and their
children are, in the same number and order, deep copies whose parent is `p`.  The number
bounds the height. -/
def DeepCopy (h1 h : Heap) (lo hi : Nat) : Nat → Nat → Nat → Prop
  | 0, _, _ => False
  | d + 1, p, q => lo ≤ p ∧ p < hi ∧ ∃ a b, h1.deref p = some a ∧ h.deref q = some b ∧
      a.kind = b.kind ∧ a.id = b.id ∧ a.defSite = b.defSite ∧
      List.Forall₂ (fun c1 c => ∃ p1 q1, c1 = some p1 ∧ c = some q1 ∧
        DeepCopy h1 h lo hi d p1 q1 ∧ ParentIs h1 p1 p) a.children b.children

/-- The children `cs1` of the node `p` of `h1` are deep copies, with parent `p`, of the
children `cs` in `h`. -/
def CopiedChildren (h1 h : Heap) (lo hi d : Nat) (p : Nat) (cs1 cs : List (Option Ptr)) :
    Prop :=
  List.Forall₂ (fun c1 c => ∃ p1 q1, c1 = some p1 ∧ c = some q1 ∧
    DeepCopy h1 h lo hi d p1 q1 ∧ ParentIs h1 p1 p) cs1 cs

/-- No child carries the id `id` unless that id begins with an underscore (all children being
present and live): the condition under which the loop of lines 329-347 finds no conflict. -/
def NoImportClash (h : Heap) (id : String) (cs : List (Option Ptr)) : Prop :=
  ∀ c ∈ cs, ∃ q n, c = some q ∧ h.deref q = some n ∧ ¬ (n.id.get 0 ≠ '_' ∧ n.id = id)

/-- The contract of the deep-copy assignment run with budget `f` on sources of height at most
`d + 1`: the cells allocated before stay as they are except `dst`, which takes the kind, id,
definition site and parent of the source and gets, appended to its children, deep copies of
the children of the source made of fresh cells. -/
def AssignSpec (f d : Nat) : Prop :=
  ∀ (h : Heap) (dst src : Nat) (dn : SymbolTable),
    SubtreeAvoids h dst (d + 1) src → h.deref dst = some dn →
    ∃ h1 bn news, assignFuel f h dst src = some h1 ∧ h.length ≤ h1.length ∧
      (∀ r, r < h.length → r ≠ dst → h1.deref r = h.deref r) ∧
      h.deref src = some bn ∧
      h1.deref dst = some { kind := bn.kind, id := bn.id, defSite := bn.defSite,
                            parent := bn.parent, children := dn.children ++ news } ∧
      CopiedChildren h1 h h.length h1.length d dst news bn.children

/-! ## Import substitution without the standard-import special case -/

/-- The per-import loop in which no import is special-cased: every import is resolved from
the import node, checked for a name conflict and spliced (`substituteImport`). -/
def ordinaryLoop (K : Ext) (tr : TreeHeap) (fuel : Nat) :
    List Ptr → Heap → Log → Option (Heap × Log)
  | [], h, log => some (h, log)
  | imp :: rest, h, log => do
    let importPath ← importPathOf K tr h imp
    let r ← substituteImport K tr fuel h log imp importPath
    ordinaryLoop K tr fuel rest r.1 r.2

/-! ## A run of the import loop over entries whose path does not resolve -/

/-- The parse tree of an import declaration `@path`: the declaration 0, the token `@` (1),
the identifier node 2 and its first token 3. -/
def trImport (path first : String) : TreeHeap :=
  [{ t := tok .Declaration "", child := some 1 },
   { t := tok .AT "@", next := some 2 },
   { t := tok .Identifier path, back := some 1, child := some 3 },
   { t := tok (.other 0) first }]

/-- The parse tree of the program `foo = { @foo }`: a program node 0; the declaration 1 of
`foo` (name token 2, `=` token 3); its block 4 whose pipe 5 holds the import declaration 6
(`@` token 7, identifier node 8, its token 9). -/
def trSelf : TreeHeap :=
  [{ t := tok (.other 1) "", child := some 1 },
   { t := tok .Declaration "", child := some 2 },
   { t := tok (.other 0) "foo", next := some 3 },
   { t := tok .EQUALS "=", next := some 4 },
   { t := tok .Block "", child := some 5 },
   { t := tok (.other 2) "", child := some 6 },
   { t := tok .Declaration "", child := some 7 },
   { t := tok .AT "@", next := some 8 },
   { t := tok .Identifier "foo", back := some 7, child := some 9 },
   { t := tok (.other 0) "foo" }]

/-- The parse tree of the program `{ @std }`: the block 0 whose pipe 1 holds the import
declaration 2 (`@` token 3, identifier node 4, its token 5). -/
def trBlockStd : TreeHeap :=
  [{ t := tok .Block "", child := some 1 },
   { t := tok (.other 2) "", child := some 2 },
   { t := tok .Declaration "", child := some 3 },
   { t := tok .AT "@", next := some 4 },
   { t := tok .Identifier "std", back := some 3, child := some 5 },
   { t := tok (.other 0) "std" }]

/-- The symbol heap of the default definitions: the root block 0, the six type names 1-6,
the standard library 7 and its ten symbols 8-17. -/
def heapDefault : Heap :=
  [cell KIND_BLOCK "_block" none
     [some 1, some 2, some 3, some 4, some 5, some 6, some 7],
   cell KIND_STD "node" (some 0) [],
   cell KIND_STD "int" (some 0) [],
   cell KIND_STD "float" (some 0) [],
   cell KIND_STD "bool" (some 0) [],
   cell KIND_STD "char" (some 0) [],
   cell KIND_STD "string" (some 0) [],
   cell KIND_STD "std" (some 0)
     [some 8, some 9, some 10, some 11, some 12, some 13, some 14, some 15, some 16, some 17],
   cell KIND_STD "in" (some 7) [],
   cell KIND_STD "out" (some 7) [],
   cell KIND_STD "err" (some 7) [],
   cell KIND_STD "rand" (some 7) [],
   cell KIND_STD "delay" (some 7) [],
   cell KIND_STD "stack" (some 7) [],
   cell KIND_STD "map" (some 7) [],
   cell KIND_STD "filter" (some 7) [],
   cell KIND_STD "sort" (some 7) [],
   cell KIND_STD "gen" (some 7) []]

/-- A cell with a definition site. -/
def cellAt (kind : Int) (id : String) (defSite : TreePtr) (parent : Option Ptr)
    (children : List (Option Ptr)) : Option SymbolTable :=
  some { kind := kind, id := id, defSite := some defSite, parent := parent,
         children := children }

/-- The symbol heap after decoration of `foo = { @foo }`: the declaration `foo` (18), its
block 19 and, in the block, the import placeholder 20. -/
def heapSelf : Heap :=
  (heapDefault.set 0 (cell KIND_BLOCK "_block" none
     [some 1, some 2, some 3, some 4, some 5, some 6, some 7, some 18])) ++
  [cellAt KIND_STATIC_DECL "foo" 1 (some 0) [some 19],
   cellAt KIND_BLOCK "_block" 4 (some 18) [some 20],
   cellAt KIND_IMPORT "_import" 6 (some 19) []]

/-- The symbol heap after decoration of `{ @std }`: the block 18 and, in the block,
the import placeholder 19. -/
def heapBlockStd : Heap :=
  (heapDefault.set 0 (cell KIND_BLOCK "_block" none
     [some 1, some 2, some 3, some 4, some 5, some 6, some 7, some 18])) ++
  [cellAt KIND_BLOCK "_block" 0 (some 0) [some 19],
   cellAt KIND_IMPORT "_import" 2 (some 18) []]

/-- A root block 0 with the declaration `a` (1), which holds `u` (2), and the block 3, which
holds an import placeholder 4 for the path `a` (its definition site is the node 0 of
`trImport`); the placeholder has a child, the block 5. -/
def heapC7a : Heap :=
  [cell KIND_BLOCK "_block" none [some 1, some 3],
   cell KIND_STATIC_DECL "a" (some 0) [some 2],
   cell KIND_STATIC_DECL "u" (some 1) [],
   cell KIND_BLOCK "_block" (some 0) [some 4],
   cellAt KIND_IMPORT "_import" 0 (some 3) [some 5],
   cell KIND_BLOCK "_block" (some 4) []]

/-- The heap `heapC7a` with a placeholder that has no children. -/
def heapC7w : Heap :=
  [cell KIND_BLOCK "_block" none [some 1, some 3],
   cell KIND_STATIC_DECL "a" (some 0) [some 2],
   cell KIND_STATIC_DECL "u" (some 1) [],
   cell KIND_BLOCK "_block" (some 0) [some 4],
   cellAt KIND_IMPORT "_import" 0 (some 3) []]

/-- The default definitions with one import placeholder 18 in the root block, as decoration
leaves them for a program that consists of one import declaration. -/
def heapImp : Heap :=
  (heapDefault.set 0 (cell KIND_BLOCK "_block" none
     [some 1, some 2, some 3, some 4, some 5, some 6, some 7, some 18])) ++
  [cellAt KIND_IMPORT "_import" 0 (some 0) []]

/-! ## Types (`semmer.h`, lines 38-73) -/

def USR : Int := 0

def STD_NULL : Int := 1

def STD_NODE : Int := 2

def STD_INT : Int := 3

def STD_FLOAT : Int := 4

def STD_BOOL : Int := 5

def STD_CHAR : Int := 6

def STD_STRING : Int := 7

def STD_PREFIX_OP : Int := 8

def STD_INFIX_OP : Int := 9

def STD_MULTI_OP : Int := 10

def SUFFIX_NONE : Int := 0

def SUFFIX_LATCH : Int := -1

/-- The class `Type` of `semmer.h`. -/
structure SemType where
  kind : Int
  base : Option TreePtr
  suffix : Int
  next : TypePtr
  deriving DecidableEq, Repr

abbrev TypeHeap := List SemType

/-- The constructor `Type(kind)`, line 88. -/
def SemType.mk1 (kind : Int) : SemType :=
  { kind := kind, base := none, suffix := SUFFIX_NONE, next := TypePtr.null }

/-- The constructor `Type(kind, base)`, line 89. -/
def SemType.mk2 (kind : Int) (base : Option TreePtr) : SemType :=
  { kind := kind, base := base, suffix := SUFFIX_NONE, next := TypePtr.null }

/-- Allocation `new Type(...)`: the new heap and the pointer to the fresh node. -/
def newType (ty : TypeHeap) (t : SemType) : TypeHeap × TypePtr := (ty ++ [t], TypePtr.cell ty.length)

/-! ## Type tracing (lines 373-474) -/

/-- The stub `type2String`, lines 373-375. -/
def type2String (_t : TypePtr) : String := ""

/-- The stub `getExpType`, lines 377-379. -/
def getExpType (_inType : TypePtr) (_exp : Option TreePtr) : TypePtr := TypePtr.marker

/-- Lines 403-424 of `getTermType`, for the child `tc7` of a `Node`: the result pointer and the
type heap. -/
def getNodeType (tr : TreeHeap) (ty : TypeHeap) (tc7 : Tree) : Option (TypePtr × TypeHeap) :=
  if tc7.t.tokenType = TokenType.Identifier then some (TypePtr.marker, ty)
  else if tc7.t.tokenType = TokenType.NodeInstantiation then some (TypePtr.marker, ty)
  else if tc7.t.tokenType = TokenType.TypedNodeLiteral then some (TypePtr.marker, ty)
  else if tc7.t.tokenType = TokenType.PrimOpNode then do
    let tc8p ← tc7.child
    let tc8 ← tr[tc8p]?
    let tc9 := tc8.child
    if tc8.t.tokenType = TokenType.PrefixOp then
      let a := newType ty (SemType.mk2 STD_PREFIX_OP tc9)
      some (a.2, a.1)
    else if tc8.t.tokenType = TokenType.InfixOp then
      let a := newType ty (SemType.mk2 STD_INFIX_OP tc9)
      some (a.2, a.1)
    else if tc8.t.tokenType = TokenType.MultiOp then
      let a := newType ty (SemType.mk2 STD_MULTI_OP tc9)
      some (a.2, a.1)
    else some (TypePtr.marker, ty)
  else if tc7.t.tokenType = TokenType.PrimLiteral then do
    let tc8p ← tc7.child
    let tc8 ← tr[tc8p]?
    if tc8.t.tokenType = TokenType.INUM then
      let a := newType ty (SemType.mk1 STD_INT)
      some (a.2, a.1)
    else if tc8.t.tokenType = TokenType.FNUM then
      let a := newType ty (SemType.mk1 STD_FLOAT)
      some (a.2, a.1)
    else if tc8.t.tokenType = TokenType.CQUOTE then
      let a := newType ty (SemType.mk1 STD_CHAR)
      some (a.2, a.1)
    else if tc8.t.tokenType = TokenType.SQUOTE then
      let a := newType ty (SemType.mk1 STD_STRING)
      some (a.2, a.1)
    else some (TypePtr.marker, ty)
  else some (TypePtr.marker, ty)

/-- Lines 393-434 of `getTermType`, for the child `tc5` of a `StaticTerm`: the result pointer,
the parse tree (the bracket token of an expression gets its type attached) and the type
heap. -/
def getStaticTermType (tr : TreeHeap) (ty : TypeHeap) (inType : TypePtr) (tc5 : Tree) :
    Option (TypePtr × TreeHeap × TypeHeap) :=
  if tc5.t.tokenType = TokenType.TypedStaticTerm then do
    let tc6p ← tc5.child
    let tc6 ← tr[tc6p]?
    if tc6.t.tokenType = TokenType.Node then do
      let tc7p ← tc6.child
      let tc7 ← tr[tc7p]?
      let r ← getNodeType tr ty tc7
      some (r.1, tr, r.2)
    else if tc6.t.tokenType = TokenType.LBRACKET then
      let expType := getExpType inType tc6.next
      some (expType, tr.set tc6p { tc6 with type := expType }, ty)
    else some (TypePtr.marker, tr, ty)
  else if tc5.t.tokenType = TokenType.Delatch then some (TypePtr.marker, tr, ty)
  else if tc5.t.tokenType = TokenType.Block then some (TypePtr.marker, tr, ty)
  else some (TypePtr.marker, tr, ty)

/-- The routine `getTermType(inType, term)`, lines 381-449: the pointer returned, the parse
tree and the type heap.  Every path that creates no type ends in `return (Type *)0x4`. -/
def getTermType (tr : TreeHeap) (ty : TypeHeap) (inType : TypePtr) (term : TreePtr) :
    Option (TypePtr × TreeHeap × TypeHeap) := do
  let tn ← tr[term]?
  let tc1p ← tn.child
  let tc1 ← tr[tc1p]?
  let tc2p ← tc1.child
  let tc2 ← tr[tc2p]?
  if tc2.t.tokenType = TokenType.SimpleCondTerm then some (TypePtr.marker, tr, ty)
  else if tc2.t.tokenType = TokenType.OpenCondTerm then some (TypePtr.marker, tr, ty)
  else if tc2.t.tokenType = TokenType.SimpleTerm then do
    let tc3p ← tc2.child
    let tc3 ← tr[tc3p]?
    if tc3.t.tokenType = TokenType.DynamicTerm then do
      let tc4p ← tc3.child
      let tc4 ← tr[tc4p]?
      if tc4.t.tokenType = TokenType.StaticTerm then do
        let tc5p ← tc4.child
        let tc5 ← tr[tc5p]?
        getStaticTermType tr ty inType tc5
      else if tc4.t.tokenType = TokenType.Compound then some (TypePtr.marker, tr, ty)
      else if tc4.t.tokenType = TokenType.Link then some (TypePtr.marker, tr, ty)
      else if tc4.t.tokenType = TokenType.Send then some (TypePtr.marker, tr, ty)
      else some (TypePtr.marker, tr, ty)
    else if tc3.t.tokenType = TokenType.SwitchTerm then some (TypePtr.marker, tr, ty)
    else some (TypePtr.marker, tr, ty)
  else if tc2.t.tokenType = TokenType.ClosedCondTerm then some (TypePtr.marker, tr, ty)
  else some (TypePtr.marker, tr, ty)

/-- The state of `traceTypes`: the parse tree, the type heap, the log, and a record of the
calls `getTermType(inType, term)` made so far, each with its term and its input type. -/
structure Tracer where
  tr : TreeHeap
  types : TypeHeap
  log : Log
  calls : List (TreePtr × TypePtr)
  deriving DecidableEq, Repr

/-- The loop of lines 459-472 over one chain, from the term `curTerm` on, with the variable
`inType` at the given value. -/
def traceChain : Nat → TypePtr → Option TreePtr → Tracer → Option Tracer
  | _, _, none, s => some s
  | 0, _, some _, _ => none
  | f + 1, inType, some curTerm, s => do
    let r ← getTermType s.tr s.types inType curTerm
    let outType := r.1
    let tr1 := r.2.1
    let s1 : Tracer :=
      { s with tr := tr1, types := r.2.2, calls := s.calls ++ [(curTerm, inType)] }
    let cn ← tr1[curTerm]?
    if outType ≠ TypePtr.null then do
      let tr2 := tr1.set curTerm { cn with type := outType }
      let nx ← cn.next
      let nxn ← tr2[nx]?
      traceChain f inType nxn.child { s1 with tr := tr2 }
    else
      let log1 := printSemmerError s1.log cn.t.fileName cn.t.row cn.t.col
        SemmerMsg.cannotResolveOutputType
      let log2 := printSemmerError log1 cn.t.fileName cn.t.row cn.t.col
        (SemmerMsg.inputTypeWas (type2String inType))
      some { s1 with log := log2 }

/-- The pass `traceTypes(netsList)`, lines 451-474. -/
def traceTypes (fuel : Nat) : List TreePtr → Tracer → Option Tracer
  | [], s => some s
  | net :: rest, s => do
    let a := newType s.types (SemType.mk1 STD_NULL)
    let nullType := a.2
    let nn ← s.tr[net]?
    let curTerm := nn.child
    let inType := nullType
    let s1 ← traceChain fuel inType curTerm { s with types := a.1 }
    traceTypes fuel rest s1

/-! ## Instance binding (lines 358-371) -/

/-- The pass `bindInstances(instanceList)`, lines 358-371, over the symbol heap `h`: the parse
tree and the log. -/
def bindInstances (K : Ext) (h : Heap) (fuel : Nat) :
    List TreePtr → TreeHeap → Log → Option (TreeHeap × Log)
  | [], tr, log => some (tr, log)
  | qi :: rest, tr, log => do
    let qn ← tr[qi]?
    let qiString ← K.id2String tr (some qi)
    let binding ← bindIdFuel h qiString fuel qn.env
    match binding with
    | some b => bindInstances K h fuel rest (tr.set qi { qn with env := some b }) log
    | none => do
      let c ← qn.child
      let cn ← tr[c]?
      bindInstances K h fuel rest tr
        (printSemmerError log cn.t.fileName cn.t.row cn.t.col (SemmerMsg.cannotResolve qiString))

/-! ## The entry point `sem` (lines 477-509) -/

/-- Modelled from the spec: the process-wide error counter `semmerErrorCode`, which nothing in
the sources touches but the reset of line 480 and the macro `printSemmerError`, counts the
lines reported since the reset. -/
def semmerErrorCode (log : Log) : Int := log.length

/-- What `sem` leaves behind: the decorated parse tree, the symbol heap with its root
`stRoot`, the type heap, the log and the record of the calls of `getTermType`. -/
structure SemResult where
  tr : TreeHeap
  st : Heap
  stRoot : Ptr
  types : TypeHeap
  log : Log
  calls : List (TreePtr × TypePtr)

/-- The function `sem(rootParseme, stRoot, verboseOutput, optimizationLevel,
eventuallyGiveUp)`, lines 477-509, called when the lines `prev` have been reported before:
the status returned and the state left behind.  Line 480 resets the error counter, so the
run starts from an empty log; the symbol heap is built afresh by `genDefaultDefs`.  The
narration under `VERBOSE` and the optimization level do not enter the analysis.  The same
function with the globals, the error stream and the standard output as explicit state is
`semRun`. -/
def sem (K : Ext) (fuel : Nat) (tr : TreeHeap) (rootParseme : Option TreePtr)
    (_verboseOutput : Bool) (_optimizationLevel : Int) (_eventuallyGiveUp : Bool)
    (_prev : Log) : Option (Int × SemResult) := do
  let d ← semSymbols K fuel tr rootParseme
  let b ← bindInstances K d.1.st fuel d.1.instanceList d.1.tr d.1.log
  let t ← traceTypes fuel d.1.netsList { tr := b.1, types := [], log := b.2, calls := [] }
  some (if semmerErrorCode t.log ≠ 0 then 1 else 0,
    { tr := t.tr, st := d.1.st, stRoot := d.2, types := t.types, log := t.log,
      calls := t.calls })

/-! ## More concrete programs -/

/-- The six nodes from a term down to its typed static term, at the addresses `b` to `b + 5`:
the term (whose `next` is the given node), its child, then the nodes `SimpleTerm`,
`DynamicTerm`, `StaticTerm`, `TypedStaticTerm`, each the child of the one before. -/
def termSpine (b : Nat) (next : Option TreePtr) : List Tree :=
  [{ t := tok (.other 3) "", child := some (b + 1), next := next },
   { t := tok (.other 4) "", child := some (b + 2) },
   { t := tok .SimpleTerm "", child := some (b + 3) },
   { t := tok .DynamicTerm "", child := some (b + 4) },
   { t := tok .StaticTerm "", child := some (b + 5) },
   { t := tok .TypedStaticTerm "", child := some (b + 6) }]

/-- The nine nodes of a primitive literal term at the addresses `b` to `b + 8`: the spine,
then `Node`, `PrimLiteral` and the literal token. -/
def literalTerm (b : Nat) (next : Option TreePtr) (ty : TokenType) (s : String) : List Tree :=
  termSpine b next ++
  [{ t := tok .Node "", child := some (b + 7) },
   { t := tok .PrimLiteral "", child := some (b + 8) },
   { t := tok ty s }]

/-- The nine nodes of a bracketed expression term at the addresses `b` to `b + 8`: the spine,
then the bracket token, whose `next` is the expression, and the expression with its
token. -/
def bracketTerm (b : Nat) (next : Option TreePtr) : List Tree :=
  termSpine b next ++
  [{ t := tok .LBRACKET "[", next := some (b + 7) },
   { t := tok (.other 6) "", child := some (b + 8) },
   { t := tok (.other 0) "e" }]

/-- The parse tree of the two chains `5 -> [e] -> 7` and `8`.  A program node 0 with the pipes
1 and 2; the chain node 3 with the terms at 4 (`5`), 14 (`[e]`) and 24 (`7`), each followed
by its node `Terms` (13, 23, 33); the chain node 34 with the term at 35 (`8`) and its
node `Terms` (44). -/
def trChains : TreeHeap :=
  [{ t := tok (.other 1) "", child := some 1 },
   { t := tok (.other 2) "", child := some 3, next := some 2 },
   { t := tok (.other 2) "", child := some 34 },
   { t := tok .NonEmptyTerms "", child := some 4 }] ++
  literalTerm 4 (some 13) .INUM "5" ++
  [{ t := tok (.other 5) "", child := some 14 }] ++
  bracketTerm 14 (some 23) ++
  [{ t := tok (.other 5) "", child := some 24 }] ++
  literalTerm 24 (some 33) .INUM "7" ++
  [{ t := tok (.other 5) "" },
   { t := tok .NonEmptyTerms "", child := some 35 }] ++
  literalTerm 35 (some 44) .INUM "8" ++
  [{ t := tok (.other 5) "" }]

/-- The parse tree of the chain `5`: the chain node 0, the term at 1 and its node `Terms`
(10). -/
def trFive : TreeHeap :=
  [{ t := tok .NonEmptyTerms "", child := some 1 }] ++
  literalTerm 1 (some 10) .INUM "5" ++
  [{ t := tok (.other 5) "" }]

/-- The parse tree of the chain `5 -> 6`: the chain node 0, the terms at 1 and 11, each
followed by its node `Terms` (10, 20). -/
def trFiveSix : TreeHeap :=
  [{ t := tok .NonEmptyTerms "", child := some 1 }] ++
  literalTerm 1 (some 10) .INUM "5" ++
  [{ t := tok (.other 5) "", child := some 11 }] ++
  literalTerm 11 (some 20) .INUM "6" ++
  [{ t := tok (.other 5) "" }]

/-- The parse tree of the program `a = 1; a = b`: a program node 0 with the pipes 1 and 2;
the first declaration 3 of `a` (name token 4, `=` token 5); the second declaration 6 of `a`
(name token 7, `=` token 8) with the identifier `b` (9, its token 10) in its body. -/
def trDup : TreeHeap :=
  [{ t := tok (.other 1) "", child := some 1 },
   { t := tok (.other 2) "", child := some 3, next := some 2 },
   { t := tok (.other 2) "", child := some 6 },
   { t := tok .Declaration "", child := some 4 },
   { t := tok (.other 0) "a", next := some 5 },
   { t := tok .EQUALS "=" },
   { t := tok .Declaration "", child := some 7 },
   { t := tok (.other 0) "a", next := some 8 },
   { t := tok .EQUALS "=", next := some 9 },
   { t := tok .Identifier "b", back := some 8, child := some 10 },
   { t := tok (.other 0) "b" }]

/-- A standard entry: kind `KIND_STD`, no definition site. -/
def stdCell (id : String) (parent : Ptr) (children : List (Option Ptr)) : Option SymbolTable :=
  some { kind := KIND_STD, id := id, defSite := none, parent := some parent,
         children := children }

/-- The symbol heap that `genDefaultDefs` builds from an empty heap: the root block 0, the six
type names 1-6, the standard library scope 7 and its ten symbols 8-17. -/
def defaultHeapOf (K : Ext) : Heap :=
  [some { kind := KIND_BLOCK, id := K.BLOCK_NODE_STRING, defSite := none, parent := none,
          children := [some 1, some 2, some 3, some 4, some 5, some 6, some 7] },
   stdCell "node" 0 [],
   stdCell "int" 0 [],
   stdCell "float" 0 [],
   stdCell "bool" 0 [],
   stdCell "char" 0 [],
   stdCell "string" 0 [],
   stdCell K.STANDARD_LIBRARY_STRING 0
     [some 8, some 9, some 10, some 11, some 12, some 13, some 14, some 15, some 16, some 17],
   stdCell "in" 7 [],
   stdCell "out" 7 [],
   stdCell "err" 7 [],
   stdCell "rand" 7 [],
   stdCell "delay" 7 [],
   stdCell "stack" 7 [],
   stdCell "map" 7 [],
   stdCell "filter" 7 [],
   stdCell "sort" 7 [],
   stdCell "gen" 7 []]

/-- The six type names of `catStdNodes`, in the order of the calls. -/
def stdTypeNames : List String := ["node", "int", "float", "bool", "char", "string"]

/-- The ten symbols of the standard library scope, in the order of the calls of `catStdLib`. -/
def stdLibNames : List String :=
  ["in", "out", "err", "rand", "delay", "stack", "map", "filter", "sort", "gen"]

/-- The heap after the first `n` type names went into the root. -/
def typeHeapUpTo (K : Ext) (n : Nat) : Heap :=
  some { kind := KIND_BLOCK, id := K.BLOCK_NODE_STRING, defSite := none, parent := none,
         children := (List.range n).map (fun i => some (1 + i)) } ::
    (stdTypeNames.take n).map (fun s => stdCell s 0 [])

/-- The heap after the first `n` symbols went into the standard library scope, which is not
yet a child of the root. -/
def libHeapUpTo (K : Ext) (n : Nat) : Heap :=
  typeHeapUpTo K 6 ++
    some { kind := KIND_STD, id := K.STANDARD_LIBRARY_STRING, defSite := none, parent := none,
           children := (List.range n).map (fun i => some (8 + i)) } ::
      (stdLibNames.take n).map (fun s => stdCell s 7 [])

/-! ## Declarations in `extractNodes` -/

/-- What the three declaring branches of `extractNodes` (lines 197-215) have in common: a
new symbol of the given kind and id whose definition site is the declaration `pm` is
allocated and concatenated into the active scope `st`; the walk then goes on at `body` with
the new symbol as active scope and with the given import worklist. -/
def declareAndDescend (K : Ext) (f : Nat) (pm : TreePtr) (st : Ptr) (netsHandled : Bool)
    (s : Decor) (body : Option TreePtr) (kind : Int) (id : String) (imports : List Ptr) :
    Option Decor :=
  (concat K s.tr (s.st ++ [some (SymbolTable.mk3 kind id (some pm))]) s.log st
      (some s.st.length)).bind
    (fun r => extractNodes K f body s.st.length netsHandled
      { s with st := r.1, log := r.2.1, importList := imports })

/-- The state in which the scope `st` has been recorded on the parse node `pm`
(`parseme->env = st`, line 152). -/
def Decor.logEnv (s : Decor) (pm : TreePtr) (n : Tree) (st : Ptr) : Decor :=
  { s with tr := s.tr.set pm { n with env := some st } }

/-! ## The syntactic shape of terms -/

/-- The token type of the parse node at `p`. -/
def tokAt (tr : TreeHeap) (p : TreePtr) : Option TokenType :=
  (tr[p]?).map (fun n => n.t.tokenType)

/-- The `child` link of the parse node at `p`. -/
def childAt (tr : TreeHeap) (p : TreePtr) : Option TreePtr :=
  (tr[p]?).bind (fun n => n.child)

/-- The `next` link of the parse node at `p`. -/
def nextAt (tr : TreeHeap) (p : TreePtr) : Option TreePtr :=
  (tr[p]?).bind (fun n => n.next)

/-- The child of the node at `p`, when it carries the token type `ty`. -/
def childOfType (tr : TreeHeap) (p : TreePtr) (ty : TokenType) : Option TreePtr :=
  (childAt tr p).bind (fun c => if tokAt tr c = some ty then some c else none)

/-- The typed static term of a term: below the term and its child come, each the child of
the one before, a `SimpleTerm`, a `DynamicTerm`, a `StaticTerm` and a `TypedStaticTerm`,
which is the result. -/
def typedStaticTermOf (tr : TreeHeap) (term : TreePtr) : Option TreePtr :=
  (childAt tr term).bind (fun tc1 =>
  (childOfType tr tc1 TokenType.SimpleTerm).bind (fun tc2 =>
  (childOfType tr tc2 TokenType.DynamicTerm).bind (fun tc3 =>
  (childOfType tr tc3 TokenType.StaticTerm).bind (fun tc4 =>
  childOfType tr tc4 TokenType.TypedStaticTerm))))

/-- The term at `term` is a primitive literal whose token has the type `lit`: its typed static
term holds a `Node`, that a `PrimLiteral`, and that the literal token. -/
def IsLiteralTerm (tr : TreeHeap) (term : Nat) (lit : TokenType) : Prop :=
  ∃ tc5 tc6 tc7 tc8, typedStaticTermOf tr term = some tc5 ∧
    childOfType tr tc5 TokenType.Node = some tc6 ∧
    childOfType tr tc6 TokenType.PrimLiteral = some tc7 ∧
    childOfType tr tc7 lit = some tc8

/-- The term at `term` is a primitive operator of the class `cls` whose operator token is
`opTok`: its typed static term holds a `Node`, that a `PrimOpNode`, that the node of the
operator class, whose child is the operator token. -/
def IsOperatorTerm (tr : TreeHeap) (term : Nat) (cls : TokenType) (opTok : Option TreePtr) :
    Prop :=
  ∃ tc5 tc6 tc7 tc8, typedStaticTermOf tr term = some tc5 ∧
    childOfType tr tc5 TokenType.Node = some tc6 ∧
    childOfType tr tc6 TokenType.PrimOpNode = some tc7 ∧
    childOfType tr tc7 cls = some tc8 ∧ childAt tr tc8 = opTok

/-- The term at `term` is a bracketed expression whose opening bracket is the node `tc6`: its
typed static term holds the token `[`. -/
def IsBracketTerm (tr : TreeHeap) (term tc6 : Nat) : Prop :=
  ∃ tc5, typedStaticTermOf tr term = some tc5 ∧
    childOfType tr tc5 TokenType.LBRACKET = some tc6

/-- The parse tree in which the type `x` has been attached to the node at `p`. -/
def setType (tr : TreeHeap) (p : TreePtr) (x : TypePtr) : TreeHeap :=
  match tr[p]? with
  | some n => tr.set p { n with type := x }
  | none => tr

/-- The type attached to the node at `p`. -/
def typeAt (tr : TreeHeap) (p : TreePtr) : Option TypePtr := (tr[p]?).map (fun n => n.type)

/-- The term `t2` follows the term at `p` in its chain (`curTerm->next->child`). -/
def NextTermIs (tr : TreeHeap) (p t2 : Nat) : Prop :=
  ∃ nx, nextAt tr p = some nx ∧ childAt tr nx = some t2

/-- The term at `p` is the last of its chain: its `next` node is there and has no child. -/
def ChainEndsAfter (tr : TreeHeap) (p : Nat) : Prop :=
  ∃ nx nxn, nextAt tr p = some nx ∧ tr[nx]? = some nxn ∧ nxn.child = none

/-! ## Use sites -/

/-- Every child of a live node at an address from `lo` on is itself at an address from `lo`
on: the cells allocated from `lo` on do not point back into the older part of the heap. -/
def FreshClosed (h : Heap) (lo : Nat) : Prop :=
  ∀ (q : Nat) (n : SymbolTable), lo ≤ q → h.deref q = some n →
    ∀ y : Nat, some y ∈ n.children → lo ≤ y

/-- No live node has a null or dangling entry in its children list. -/
def LiveChildren (h : Heap) : Prop :=
  ∀ (q : Nat) (n : SymbolTable), h.deref q = some n → AllLive h n.children

/-- The parent links from a possibly-null scope lead through live nodes and end, after at
most `d` nodes, at a node without parent. -/
def ParentChain (h : Heap) : Nat → Option Ptr → Prop
  | _, none => True
  | 0, some _ => False
  | d + 1, some p => ∃ n, h.deref p = some n ∧ ParentChain h d n.parent

/-- The node `a` is a strict ancestor of the node `p`: it is reached from `p` by one or more
parent links. -/
inductive StrictAncestor (h : Heap) : Nat → Nat → Prop where
  | parent (p a : Nat) (n : SymbolTable) :
      h.deref p = some n → n.parent = some a → StrictAncestor h p a
  | step (p q a : Nat) (n : SymbolTable) :
      h.deref p = some n → n.parent = some q → StrictAncestor h q a → StrictAncestor h p a

/-- The node `m` is a child of the live node `s`. -/
def ChildOf (h : Heap) (m s : Nat) : Prop :=
  ∃ n, h.deref s = some n ∧ some m ∈ n.children

/-- The node `m1` is a child of `m` or a child of a child of `m` that has kind block. -/
def StepTo (h : Heap) (m m1 : Nat) : Prop :=
  ChildOf h m1 m ∨
  ∃ b bn, ChildOf h b m ∧ h.deref b = some bn ∧ bn.kind = KIND_BLOCK ∧ ChildOf h m1 b

/-- The nodes `ms` continue a chain that stands at the node `m`: there is one for each of
the components `cs`, each has the id of its component, and each is one step from the node
before it. -/
def ChainFrom (h : Heap) : Nat → List Nat → List String → Prop
  | _, [], [] => True
  | m, m1 :: ms, c :: cs =>
    StepTo h m m1 ∧ (∃ n1, h.deref m1 = some n1 ∧ n1.id = c) ∧ ChainFrom h m1 ms cs
  | _, [], _ :: _ => False
  | _, _ :: _, [] => False

/-- The scope `scope` is `env` itself or a strict ancestor of `env` that has kind block. -/
def LatchScope (h : Heap) (env scope : Nat) : Prop :=
  scope = env ∨
  (StrictAncestor h env scope ∧ ∃ sn, h.deref scope = some sn ∧ sn.kind = KIND_BLOCK)

/-- The node `r` is the end of a chain `m0, ..., mn` for the components `c0, ..., cn`: each
node has the id of its component, `m0` is a child of `env` or of a strict ancestor of `env`
of kind block, and each later node is one step from the node before it. -/
def ResolvedBy (h : Heap) (env : Nat) (comps : List String) (r : Nat) : Prop :=
  ∃ (m0 : Nat) (ms : List Nat) (c0 : String) (cs : List String) (scope : Nat)
    (n0 : SymbolTable),
    comps = c0 :: cs ∧ LatchScope h env scope ∧ ChildOf h m0 scope ∧
    h.deref m0 = some n0 ∧ n0.id = c0 ∧ ChainFrom h m0 ms cs ∧
    (m0 :: ms).getLast? = some r

/-! ## Sibling names -/

/-- No node has two distinct children with the same id, unless that id begins with an
underscore. -/
def UniqueNames (h : Heap) : Prop :=
  ∀ (q a b : Nat) (n x y : SymbolTable), h.deref q = some n →
    some a ∈ n.children → some b ∈ n.children → a ≠ b →
    h.deref a = some x → h.deref b = some y → x.id = y.id → x.id.get 0 = '_'

/-- Every child link of a live node is an address of the heap. -/
def Closed (h : Heap) : Prop :=
  ∀ (q : Nat) (n : SymbolTable), h.deref q = some n →
    ∀ y : Nat, some y ∈ n.children → y < h.length

/-- The shape that the analysis keeps: child links stay inside the heap, no children list
names an entry twice, and sibling names are unique. -/
def TreeInv (h : Heap) : Prop :=
  Closed h ∧ (∀ (q : Nat) (n : SymbolTable), h.deref q = some n → n.children.Nodup) ∧
    UniqueNames h

/-- No live node has `z` as a child. -/
def Unref (h : Heap) (z : Nat) : Prop :=
  ∀ (q : Nat) (n : SymbolTable), h.deref q = some n → some z ∉ n.children

/-- Every live node that has the live node `p` as a child is the parent of `p`. -/
def SoleParent (h : Heap) (p : Nat) : Prop :=
  ∀ (q : Nat) (n pn : SymbolTable), h.deref q = some n → some p ∈ n.children →
    h.deref p = some pn → pn.parent = some q

/-- The import worklist names no symbol twice, and each of its symbols is a cell of the heap
that is a child of its parent only. -/
def ImportsOk (h : Heap) (l : List Ptr) : Prop :=
  l.Nodup ∧ ∀ p : Nat, p ∈ l → p < h.length ∧ SoleParent h p

/-- Giving the node `dst` the id `id` makes no sibling name double: in every node that has
`dst` as a child, the other live children with the id `id` are system-level. -/
def Renamable (h : Heap) (dst : Nat) (id : String) : Prop :=
  ∀ (q c : Nat) (n cn : SymbolTable), h.deref q = some n → some dst ∈ n.children →
    some c ∈ n.children → c ≠ dst → h.deref c = some cn → cn.id = id → id.get 0 = '_'

/-- The heap `h1` comes from `h` by releasing cells. -/
def FreedFrom (h h1 : Heap) : Prop :=
  h1.length = h.length ∧
    ∀ (q : Nat) (n : SymbolTable), h1.deref q = some n → h.deref q = some n

/-- The live symbols of the import worklist have no children. -/
def ChildlessImports (h : Heap) (l : List Ptr) : Prop :=
  ∀ p : Nat, p ∈ l → ∀ n : SymbolTable, h.deref p = some n → n.children = []

/-- The state of the loop of `operator=` (lines 32-39) that copies into `dst`, started from
the heap `h1` in which `dst` is the childless node `d1`, after the source children `pre`
have been copied: the heap `hh` has the shape, the cells of `h1` other than `dst` are as
they were, the cells allocated since point to no older cell, and `dst` has the children
`news`, which are nodes allocated since, each with the id of one of the source children
copied so far. -/
def CopyLoopInv (h1 : Heap) (dst : Nat) (d1 : SymbolTable) (pre : List (Option Ptr))
    (hh : Heap) (news : List (Option Ptr)) : Prop :=
  TreeInv hh ∧ h1.length ≤ hh.length ∧
  (∀ q, q < h1.length → q ≠ dst → hh.deref q = h1.deref q) ∧
  FreshClosed hh h1.length ∧
  hh.deref dst = some { d1 with children := news } ∧
  (∀ c ∈ news, ∃ (y q : Nat) (yn qn : SymbolTable), c = some y ∧ h1.length ≤ y ∧
    hh.deref y = some yn ∧ some q ∈ pre ∧ h1.deref q = some qn ∧ yn.id = qn.id)

/-- What the deep-copy assignment `*dst = *src` leaves when `dst` had no children: the
shape is kept, the older cells other than `dst` are as they were, the cells allocated by the
copy point to no older cell, and `dst` has the kind, id, definition site and parent of the
source and children allocated by the copy. -/
def AssignKeeps (h : Heap) (dst : Nat) (sn : SymbolTable) (h1 : Heap) : Prop :=
  TreeInv h1 ∧ h.length ≤ h1.length ∧
  (∀ q, q < h.length → q ≠ dst → h1.deref q = h.deref q) ∧
  FreshClosed h1 h.length ∧
  ∃ news, h1.deref dst = some { kind := sn.kind, id := sn.id, defSite := sn.defSite,
                                parent := sn.parent, children := news } ∧
    ∀ y : Nat, some y ∈ news → h.length ≤ y

/-- Externals used where a concatenation is only looked at for its effect on the heap. -/
def extNone : Ext :=
  { STANDARD_LIBRARY_STRING := "", BLOCK_NODE_STRING := "", IMPORT_DECL_STRING := "",
    STANDARD_IMPORT_DECL_STRING := "", id2String := fun _ _ => none }

/-- A parse tree shaped like that of the program `a = (x = 1); { @a }` with one more
subtree: a declaration stands below the import declaration, to the right of its
identifier.  A program node 0 with the
pipes 1 and 2; the declaration 3 of `a` (name token 4, `=` token 5) with the declaration 6
of `x` (name token 7, `=` token 8) in its body; the block 9 whose pipe 10 holds the import
declaration 11 (`@` token 12, identifier 13 with its token 14), followed in the import
declaration by the declaration 15 of `x` (name token 16, `=` token 17). -/
def trImpKid : TreeHeap :=
  [{ t := tok (.other 1) "", child := some 1 },
   { t := tok (.other 2) "", child := some 3, next := some 2 },
   { t := tok (.other 2) "", child := some 9 },
   { t := tok .Declaration "", child := some 4 },
   { t := tok (.other 0) "a", next := some 5 },
   { t := tok .EQUALS "=", next := some 6 },
   { t := tok .Declaration "", child := some 7 },
   { t := tok (.other 0) "x", next := some 8 },
   { t := tok .EQUALS "=" },
   { t := tok .Block "", child := some 10 },
   { t := tok (.other 2) "", child := some 11 },
   { t := tok .Declaration "", child := some 12 },
   { t := tok .AT "@", next := some 13 },
   { t := tok .Identifier "a", back := some 12, child := some 14, next := some 15 },
   { t := tok (.other 0) "a" },
   { t := tok .Declaration "", child := some 16 },
   { t := tok (.other 0) "x", next := some 17 },
   { t := tok .EQUALS "=" }]

/-- The parse tree of the program `a = (x = 1); { @a }`: as `trImpKid`, without the
declaration below the import declaration. -/
def trImpNested : TreeHeap :=
  [{ t := tok (.other 1) "", child := some 1 },
   { t := tok (.other 2) "", child := some 3, next := some 2 },
   { t := tok (.other 2) "", child := some 9 },
   { t := tok .Declaration "", child := some 4 },
   { t := tok (.other 0) "a", next := some 5 },
   { t := tok .EQUALS "=", next := some 6 },
   { t := tok .Declaration "", child := some 7 },
   { t := tok (.other 0) "x", next := some 8 },
   { t := tok .EQUALS "=" },
   { t := tok .Block "", child := some 10 },
   { t := tok (.other 2) "", child := some 11 },
   { t := tok .Declaration "", child := some 12 },
   { t := tok .AT "@", next := some 13 },
   { t := tok .Identifier "a", back := some 12, child := some 14 },
   { t := tok (.other 0) "a" }]

/-! ## The entry point `sem` as a step on the process-wide state -/

theorem deref_lt {h : Heap} {p : Nat} {n : SymbolTable} (hp : h.deref p = some n) :
    p < h.length := by
  unfold Heap.deref at hp
  by_contra hge
  rw [List.getElem?_eq_none (Nat.le_of_not_lt hge)] at hp
  simp at hp

theorem deref_write_same {h : Heap} {p : Nat} (n : SymbolTable) (hp : p < h.length) :
    (h.write p n).deref p = some n := by
  simp [Heap.deref, Heap.write, List.getElem?_set, hp]

theorem deref_write_ne {h : Heap} {p q : Nat} (n : SymbolTable) (hne : p ≠ q) :
    (h.write p n).deref q = h.deref q := by
  simp [Heap.deref, Heap.write, List.getElem?_set, hne]

theorem deref_free_same (h : Heap) (p : Nat) : (h.free p).deref p = none := by
  by_cases hp : p < h.length <;> simp [Heap.deref, Heap.free, List.getElem?_set, hp]

theorem deref_free_ne {h : Heap} {p q : Nat} (hne : p ≠ q) :
    (h.free p).deref q = h.deref q := by
  simp [Heap.deref, Heap.free, List.getElem?_set, hne]

theorem deref_append_lt {h : Heap} (c : Option SymbolTable) {q : Nat} (hq : q < h.length) :
    (h ++ [c]).deref q = h.deref q := by
  simp [Heap.deref, List.getElem?_append_left hq]

theorem deref_append_length (h : Heap) (c : Option SymbolTable) :
    (h ++ [c]).deref h.length = c := by
  simp [Heap.deref]

theorem length_write (h : Heap) (p : Nat) (n : SymbolTable) : (h.write p n).length = h.length := by
  simp [Heap.write]

theorem length_free (h : Heap) (p : Nat) : (h.free p).length = h.length := by
  simp [Heap.free]



theorem findConflict_none {h : Heap} {id : String} {cs : List (Option Ptr)}
    (hcs : NoChildNamed h id cs) : findConflict h id cs = some none := by
  induction cs with
  | nil => rfl
  | cons c rest ih =>
    obtain ⟨q, n, rfl, hq, hne⟩ := hcs _ (List.mem_cons_self _ _)
    have hrest : NoChildNamed h id rest := fun c hc => hcs c (List.mem_cons_of_mem _ hc)
    simp [findConflict, hq, hne, ih hrest]

theorem findConflict_hit {h : Heap} {id : String} {cs : List (Option Ptr)} {p : Nat}
    {n : SymbolTable} (hcs : NoChildNamed h id cs) (hp : h.deref p = some n) (hid : n.id = id)
    (rest : List (Option Ptr)) :
    findConflict h id (cs ++ some p :: rest) = some (some n) := by
  induction cs with
  | nil => simp [findConflict, hp, hid]
  | cons c cs ih =>
    obtain ⟨q, m, rfl, hq, hne⟩ := hcs _ (List.mem_cons_self _ _)
    have hrest : NoChildNamed h id cs := fun c hc => hcs c (List.mem_cons_of_mem _ hc)
    simp [findConflict, hq, hne, ih hrest]

theorem concat_success (K : Ext) (tr : TreeHeap) {h : Heap} (log : Log) {self p : Nat}
    {t s : SymbolTable} (ht : h.deref self = some t) (hs : h.deref p = some s)
    (hok : s.id.get 0 = '_' ∨ NoChildNamed h s.id t.children) :
    concat K tr h log self (some p) =
      some (((h.write self { t with children := t.children ++ [some p] }).write p
        { (if self = p then { t with children := t.children ++ [some p] } else s) with
          parent := some self }), log, p) := by
  have hlt := deref_lt ht
  by_cases hsp : self = p
  · subst hsp
    obtain rfl : t = s := Option.some.inj (ht.symm.trans hs)
    rcases hok with hsys | hno
    · simp [concat, ht, hs, hsys, deref_write_same _ hlt]
    · simp [concat, ht, hs, findConflict_none hno, deref_write_same _ hlt]
  · rcases hok with hsys | hno
    · simp [concat, ht, hs, hsys, deref_write_ne _ hsp, hsp]
    · simp [concat, ht, hs, findConflict_none hno, deref_write_ne _ hsp, hsp]

theorem deleteST_leaf {h : Heap} {p : Nat} {s : SymbolTable} (hs : h.deref p = some s)
    (hleaf : s.children = []) : deleteST h p = some (h.free p) := by
  simp [deleteST, deleteFuel, hs, hleaf]

theorem concat_collision (K : Ext) (tr : TreeHeap) {h : Heap} (log : Log) {self p : Nat}
    {t s prev : SymbolTable} {cur prv : String × Int × Int}
    (ht : h.deref self = some t) (hs : h.deref p = some s) (hleaf : s.children = [])
    (hsys : s.id.get 0 ≠ '_') (hconf : findConflict h s.id t.children = some (some prev))
    (hcur : defToken K tr s.defSite = some cur) (hprv : defToken K tr prev.defSite = some prv) :
    concat K tr h log self (some p) =
      some (h.free p,
        log ++ [{ fileName := cur.1, row := cur.2.1, col := cur.2.2, msg := .redefinition s.id },
                { fileName := prv.1, row := prv.2.1, col := prv.2.2, msg := .previousDefinition }],
        self) := by
  simp [concat, ht, hs, hsys, hconf, hcur, hprv, deleteST_leaf hs hleaf, printSemmerError]

theorem noChildNamed_mono {h h1 : Heap} {id : String} {cs : List (Option Ptr)}
    (hcs : NoChildNamed h id cs) (hsame : ∀ q n, some q ∈ cs → h.deref q = some n →
      h1.deref q = some n) : NoChildNamed h1 id cs := by
  intro c hc
  obtain ⟨q, n, rfl, hq, hne⟩ := hcs c hc
  exact ⟨q, n, rfl, hsame q n hc hq, hne⟩

/-- C1 (concatenation on collision): into a scope `self` none of whose children has the
non-system id `s`, two new entries with id `s` are inserted one after the other.  The first
insertion reports nothing and returns the entry; the second reports exactly one diagnostic
(the redefinition line with its continuation line), returns the container, leaves the
children list as the first insertion made it (the old children followed by the first entry,
the only child with id `s`), and the rejected entry is released. -/
theorem C1_concat_collision (K : Ext) (tr : TreeHeap) (h : Heap) (log : Log) (self : Nat)
    (t : SymbolTable) (s : String) (k1 k2 : Int) (d1 d2 : Option TreePtr)
    (cur prv : String × Int × Int)
    (hself : h.deref self = some t) (hsys : s.get 0 ≠ '_')
    (hnone : NoChildNamed h s t.children)
    (hprv : defToken K tr d1 = some prv) (hcur : defToken K tr d2 = some cur) :
    ∃ h1 h2 log2,
      concatNew K tr h log self k1 s d1 = some (h1, log, h.length) ∧
      concatNew K tr h1 log self k2 s d2 = some (h2, log2, self) ∧
      log2 = log ++
        [{ fileName := cur.1, row := cur.2.1, col := cur.2.2, msg := .redefinition s },
         { fileName := prv.1, row := prv.2.1, col := prv.2.2, msg := .previousDefinition }] ∧
      (diagnostics log2).length = (diagnostics log).length + 1 ∧
      h1.deref self = some { t with children := t.children ++ [some h.length] } ∧
      h2.deref self = h1.deref self ∧
      h2.deref h.length = some
        { kind := k1, id := s, defSite := d1, parent := some self, children := [] } ∧
      NoChildNamed h2 s t.children ∧
      h2.deref h1.length = none := by
  have hlt := deref_lt hself
  have hne : self ≠ h.length := Nat.ne_of_lt hlt
  -- first insertion
  have hself0 : (h ++ [some (SymbolTable.mk3 k1 s d1)]).deref self = some t := by
    rw [deref_append_lt _ hlt]; exact hself
  have hp0 : (h ++ [some (SymbolTable.mk3 k1 s d1)]).deref h.length =
      some (SymbolTable.mk3 k1 s d1) := deref_append_length _ _
  have hnone0 : NoChildNamed (h ++ [some (SymbolTable.mk3 k1 s d1)]) s t.children :=
    noChildNamed_mono hnone (fun q n _ hq => by rw [deref_append_lt _ (deref_lt hq)]; exact hq)
  have h1eq := concat_success K tr log hself0 hp0 (Or.inr hnone0)
  simp only [hne, if_false] at h1eq
  set h1 : Heap := ((h ++ [some (SymbolTable.mk3 k1 s d1)]).write self
      { t with children := t.children ++ [some h.length] }).write h.length
        { SymbolTable.mk3 k1 s d1 with parent := some self } with hh1
  have hlen1 : h1.length = h.length + 1 := by simp [hh1, Heap.write]
  have h1self : h1.deref self = some { t with children := t.children ++ [some h.length] } := by
    rw [hh1, deref_write_ne _ (Ne.symm hne), deref_write_same]
    rw [List.length_append]; exact Nat.lt_succ_of_lt hlt
  have h1p : h1.deref h.length =
      some { kind := k1, id := s, defSite := d1, parent := some self, children := [] } := by
    rw [hh1, deref_write_same]
    · rfl
    · simp [Heap.write]
  have h1old : ∀ q n, q ≠ self → h.deref q = some n → h1.deref q = some n := by
    intro q n hqs hq
    have hql := deref_lt hq
    rw [hh1, deref_write_ne _ (Ne.symm (Nat.ne_of_lt hql)), deref_write_ne _ (Ne.symm hqs),
      deref_append_lt _ hql]
    exact hq
  -- second insertion
  have hself2 : (h1 ++ [some (SymbolTable.mk3 k2 s d2)]).deref self =
      some { t with children := t.children ++ [some h.length] } := by
    rw [deref_append_lt _ (deref_lt h1self)]; exact h1self
  have hp2 : (h1 ++ [some (SymbolTable.mk3 k2 s d2)]).deref h1.length =
      some (SymbolTable.mk3 k2 s d2) := deref_append_length _ _
  have hnone2 : NoChildNamed (h1 ++ [some (SymbolTable.mk3 k2 s d2)]) s t.children := by
    intro c hc
    obtain ⟨q, n, rfl, hq, hnq⟩ := hnone c hc
    by_cases hqs : q = self
    · subst hqs
      refine ⟨q, _, rfl, hself2, ?_⟩
      rw [hself] at hq
      cases hq
      exact hnq
    · refine ⟨q, n, rfl, ?_, hnq⟩
      rw [deref_append_lt _ (deref_lt (h1old q n hqs hq))]
      exact h1old q n hqs hq
  have hfirst2 : (h1 ++ [some (SymbolTable.mk3 k2 s d2)]).deref h.length =
      some { kind := k1, id := s, defSite := d1, parent := some self, children := [] } := by
    rw [deref_append_lt _ (deref_lt h1p)]; exact h1p
  have hconf := findConflict_hit hnone2 hfirst2 rfl []
  have h2eq := concat_collision K tr log hself2 hp2 rfl hsys hconf
    hcur hprv
  have hn1 : h1.length ≠ self := Nat.ne_of_gt (by rw [hlen1]; omega)
  have hn2 : h1.length ≠ h.length := Nat.ne_of_gt (by rw [hlen1]; omega)
  refine ⟨h1, (h1 ++ [some (SymbolTable.mk3 k2 s d2)]).free h1.length, _, h1eq, h2eq, rfl, ?_,
    h1self, ?_, ?_, ?_, ?_⟩
  · simp [diagnostics, List.filter_append, SemmerMsg.isNote]
  · rw [deref_free_ne hn1, deref_append_lt _ (deref_lt h1self)]
  · rw [deref_free_ne hn2, hfirst2]
  · intro c hc
    obtain ⟨q, n, rfl, hq, hnq⟩ := hnone2 c hc
    obtain ⟨_, n0, hq0, hq0d, _⟩ := hnone _ hc
    cases hq0
    have hql : h1.length ≠ q := Nat.ne_of_gt (by have := deref_lt hq0d; rw [hlen1]; omega)
    exact ⟨q, n, rfl, by rw [deref_free_ne hql]; exact hq, hnq⟩
  · exact deref_free_same _ _




/-- Witness of C1: two entries `x` inserted into an empty root block. -/
theorem C1_concat_collision_witness :
    heapC1.deref 0 = some (SymbolTable.mk3 KIND_BLOCK "_block" none) ∧ "x".get 0 ≠ '_' ∧
    NoChildNamed heapC1 "x" [] ∧
    ∃ h1 h2 log2,
      concatNew extW [] heapC1 [] 0 KIND_STD "x" none = some (h1, [], 1) ∧
      concatNew extW [] h1 [] 0 KIND_STATIC_DECL "x" none = some (h2, log2, 0) ∧
      (diagnostics log2).length = 1 ∧
      h2.deref 0 = some { kind := KIND_BLOCK, id := "_block", defSite := none, parent := none,
                          children := [some 1] } := by
  have hnone : NoChildNamed heapC1 "x" [] := by intro c hc; cases hc
  obtain ⟨h1, h2, log2, a, b, _, d, e, f, _⟩ :=
    C1_concat_collision extW [] heapC1 [] 0 (SymbolTable.mk3 KIND_BLOCK "_block" none) "x"
      KIND_STD KIND_STATIC_DECL none none ("std", 0, 0) ("std", 0, 0) rfl (by decide) hnone
      rfl rfl
  exact ⟨rfl, by decide, hnone, h1, h2, log2, a, b, d, f.trans e⟩

/-- C2 (concatenation on success): a present child `p` whose id begins with an underscore, or
whose id is the id of no existing child of the container `self`, is appended to the
children of `self`, gets `self` as parent, is the node returned, and the log is unchanged;
nothing else in the heap changes.  The first alternative asks nothing of the existing
children, so a system-level id is accepted even when a child already carries it, and the old
children all stay. -/
theorem C2_concat_success (K : Ext) (tr : TreeHeap) (h : Heap) (log : Log) (self p : Nat)
    (t s : SymbolTable) (ht : h.deref self = some t) (hs : h.deref p = some s)
    (hok : s.id.get 0 = '_' ∨ NoChildNamed h s.id t.children) :
    ∃ h1 t1 s1,
      concat K tr h log self (some p) = some (h1, log, p) ∧
      h1.deref self = some t1 ∧ t1.children = t.children ++ [some p] ∧
      t1.kind = t.kind ∧ t1.id = t.id ∧ t1.defSite = t.defSite ∧
      h1.deref p = some s1 ∧ s1.parent = some self ∧
      s1.kind = s.kind ∧ s1.id = s.id ∧ s1.defSite = s.defSite ∧
      (∀ q, q ≠ self → q ≠ p → h1.deref q = h.deref q) := by
  have hlt := deref_lt ht
  have hlp := deref_lt hs
  have hlp1 : p < (h.write self { t with children := t.children ++ [some p] }).length := by
    rw [length_write]; exact hlp
  by_cases hsp : self = p
  · subst hsp
    obtain rfl : t = s := Option.some.inj (ht.symm.trans hs)
    refine ⟨_, _, _, concat_success K tr log ht hs hok, deref_write_same _ hlp1, ?_, ?_, ?_, ?_,
      deref_write_same _ hlp1, rfl, ?_, ?_, ?_, ?_⟩
    all_goals first
      | (intro q hq _; rw [deref_write_ne _ (Ne.symm hq), deref_write_ne _ (Ne.symm hq)])
      | simp
  · refine ⟨_, { t with children := t.children ++ [some p] }, _, concat_success K tr log ht hs hok, ?_,
      rfl, rfl, rfl, rfl, deref_write_same _ hlp1, rfl, ?_, ?_, ?_, ?_⟩
    · rw [deref_write_ne _ (Ne.symm hsp), deref_write_same _ hlt]
    all_goals first
      | (intro q hq hq2; rw [deref_write_ne _ (Ne.symm hq2), deref_write_ne _ (Ne.symm hq)])
      | simp [hsp]

/-- Witness of C2: a second `_a` goes into a block that already has a child `_a`. -/
theorem C2_concat_success_witness :
    "_a".get 0 = '_' ∧
    ∃ h1 t1,
      concat extW [] heapC2 [] 0 (some 2) = some (h1, [], 2) ∧
      h1.deref 0 = some t1 ∧ t1.children = [some 1, some 2] := by
  obtain ⟨h1, t1, s1, a, b, c, _⟩ :=
    C2_concat_success extW [] heapC2 [] 0 2 _ _ rfl rfl (Or.inl (by decide))
  exact ⟨by decide, h1, t1, a, b, c⟩

/-! ## Paths -/

theorem chopChars_nodot {w : List Char} (hw : '.' ∉ w) : chopChars w = [w] := by
  induction w with
  | nil => rfl
  | cons c cs ih =>
    have hc : c ≠ '.' := fun e => hw (e ▸ List.mem_cons_self _ _)
    have hcs : '.' ∉ cs := fun e => hw (List.mem_cons_of_mem _ e)
    simp [chopChars, hc, ih hcs]

theorem chopChars_dot {w : List Char} (hw : '.' ∉ w) (v : List Char) :
    chopChars (w ++ '.' :: v) = w :: chopChars v := by
  induction w with
  | nil => simp [chopChars]
  | cons c cs ih =>
    have hc : c ≠ '.' := fun e => hw (e ▸ List.mem_cons_self _ _)
    have hcs : '.' ∉ cs := fun e => hw (List.mem_cons_of_mem _ e)
    simp [chopChars, hc, ih hcs]

theorem qiChop_single {t : String} (ht : '.' ∉ t.data) : qiChop t = [t] := by
  simp [qiChop, chopChars_nodot ht]

theorem idTip_single {t : String} (ht : '.' ∉ t.data) : idTip t = t := by
  simp [idTip, qiChop_single ht]

theorem qiChop_pair {d c : String} (hd : '.' ∉ d.data) (hc : '.' ∉ c.data) :
    qiChop (d ++ "." ++ c) = [d, c] := by
  have : (d ++ "." ++ c).data = d.data ++ '.' :: c.data := by
    simp [String.data_append]
  simp [qiChop, this, chopChars_dot hd, chopChars_nodot hc]

theorem idTip_pair {d c : String} (hd : '.' ∉ d.data) (hc : '.' ∉ c.data) :
    idTip (d ++ "." ++ c) = d := by
  simp [idTip, qiChop_pair hd hc]

/-! ## Fuel -/

theorem climb_mono {h : Heap} {f : Nat} {p r : Option Ptr} (hr : climb h f p = some r) :
    climb h (f + 1) p = some r := by
  induction f generalizing p with
  | zero =>
    cases p with
    | none => simpa [climb] using hr
    | some q => simp [climb] at hr
  | succ f ih =>
    cases p with
    | none => simpa [climb] using hr
    | some q =>
      rw [climb] at hr ⊢
      cases hq : h.deref q with
      | none => simp [hq] at hr
      | some n =>
        simp only [hq] at hr ⊢
        by_cases hk : n.kind ≠ KIND_BLOCK
        · rw [if_pos hk] at hr ⊢
          exact ih hr
        · rw [if_neg hk] at hr ⊢
          exact hr

theorem climb_mono_le {h : Heap} {f g : Nat} {p r : Option Ptr} (hr : climb h f p = some r)
    (hfg : f ≤ g) : climb h g p = some r := by
  induction hfg with
  | refl => exact hr
  | step _ ih => exact climb_mono ih

theorem bindIdFuel_mono {h : Heap} {qi : String} {f : Nat} {env r : Option Ptr}
    (hr : bindIdFuel h qi f env = some r) : bindIdFuel h qi (f + 1) env = some r := by
  induction f generalizing env with
  | zero =>
    cases env with
    | none => simpa [bindIdFuel] using hr
    | some q => simp [bindIdFuel] at hr
  | succ f ih =>
    cases env with
    | none => simpa [bindIdFuel] using hr
    | some q =>
      rw [bindIdFuel] at hr ⊢
      cases hq : h.deref q with
      | none => simp [hq] at hr
      | some e =>
        simp only [hq, Option.bind_eq_bind, Option.some_bind] at hr ⊢
        cases hl : latchScan h qi (idTip qi) e.children with
        | none => simp [hl] at hr
        | some l =>
          simp only [hl, Option.some_bind] at hr ⊢
          cases l with
          | some x => simpa using hr
          | none =>
            simp only at hr ⊢
            cases hc : climb h f e.parent with
            | none => simp [hc] at hr
            | some up =>
              simp only [hc, Option.some_bind] at hr
              simp only [climb_mono hc, Option.some_bind]
              exact ih hr

theorem bindIdFuel_mono_le {h : Heap} {qi : String} {f g : Nat} {env r : Option Ptr}
    (hr : bindIdFuel h qi f env = some r) (hfg : f ≤ g) : bindIdFuel h qi g env = some r := by
  induction hfg with
  | refl => exact hr
  | step _ ih => exact bindIdFuel_mono ih

theorem resolves_null {h : Heap} {qi : String} {r : Option Ptr} :
    Resolves h qi none r ↔ r = none := by
  constructor
  · rintro ⟨f, hf⟩
    cases f <;> simpa [bindIdFuel] using hf.symm
  · rintro rfl
    exact ⟨0, by simp [bindIdFuel]⟩

/-! ## The climb to the enclosing block -/

theorem firstBlock_of_climb {h : Heap} {f : Nat} {p a : Option Ptr}
    (hc : climb h f p = some a) : FirstBlockFrom h p a := by
  induction f generalizing p with
  | zero =>
    cases p with
    | none =>
      simp [climb] at hc; subst hc; exact .null
    | some q => simp [climb] at hc
  | succ f ih =>
    cases p with
    | none =>
      simp [climb] at hc; subst hc; exact .null
    | some q =>
      rw [climb] at hc
      cases hq : h.deref q with
      | none => simp [hq] at hc
      | some n =>
        simp only [hq] at hc
        by_cases hk : n.kind ≠ KIND_BLOCK
        · rw [if_pos hk] at hc
          exact .up q n a hq hk (ih hc)
        · rw [if_neg hk] at hc
          cases hc
          exact .here q n hq (not_not.mp hk)

theorem climb_of_firstBlock {h : Heap} {p a : Option Ptr} (hfb : FirstBlockFrom h p a) :
    ∃ f, climb h f p = some a := by
  induction hfb with
  | null => exact ⟨0, by simp [climb]⟩
  | here p n hp hk => exact ⟨1, by simp [climb, hp, hk]⟩
  | up p n a hp hk _ ih =>
    obtain ⟨f, hf⟩ := ih
    exact ⟨f + 1, by simp [climb, hp, hk, hf]⟩

theorem firstBlock_unique {h : Heap} {p a b : Option Ptr} (ha : FirstBlockFrom h p a)
    (hb : FirstBlockFrom h p b) : a = b := by
  obtain ⟨f, hf⟩ := climb_of_firstBlock ha
  obtain ⟨g, hg⟩ := climb_of_firstBlock hb
  have x := climb_mono_le hf (Nat.le_max_left f g)
  have y := climb_mono_le hg (Nat.le_max_right f g)
  exact Option.some.inj (x.symm.trans y)

/-! ## The scans of the resolver -/

theorem noChildNamed_cons {h : Heap} {id : String} {c : Option Ptr} {cs : List (Option Ptr)}
    (hcs : NoChildNamed h id (c :: cs)) :
    (∃ q n, c = some q ∧ h.deref q = some n ∧ n.id ≠ id) ∧ NoChildNamed h id cs :=
  ⟨hcs c (List.mem_cons_self _ _), fun d hd => hcs d (List.mem_cons_of_mem _ hd)⟩

theorem latchScan_miss {h : Heap} {qi tip : String} {cs : List (Option Ptr)}
    (hcs : NoChildNamed h tip cs) : latchScan h qi tip cs = some none := by
  induction cs with
  | nil => rfl
  | cons c rest ih =>
    obtain ⟨⟨q, n, rfl, hq, hne⟩, hrest⟩ := noChildNamed_cons hcs
    simp [latchScan, hq, hne, ih hrest]

theorem latchScan_hit {h : Heap} {qi tip : String} {pre : List (Option Ptr)} {l : Nat}
    {ln : SymbolTable} {cur i : Nat} (post : List (Option Ptr)) (hpre : NoChildNamed h tip pre)
    (hl : h.deref l = some ln) (hid : ln.id = tip)
    (hv : verify h l 1 ((qiChop qi).drop 1) = some (cur, i)) :
    latchScan h qi tip (pre ++ some l :: post) =
      if i = (qiChop qi).length then some (some cur) else some none := by
  induction pre with
  | nil => simp only [List.nil_append, latchScan, hl, hid, hv, if_true]
  | cons c rest ih =>
    obtain ⟨⟨q, n, rfl, hq, hne⟩, hrest⟩ := noChildNamed_cons hpre
    simp [latchScan, hq, hne, ih hrest]

theorem latchScan_fails {h : Heap} {qi : String} {cs : List (Option Ptr)}
    (hf : LatchFails h qi cs) : latchScan h qi (idTip qi) cs = some none := by
  rcases hf with hno | ⟨pre, l, post, ln, cur, i, rfl, hpre, hl, hid, hv, hi⟩
  · exact latchScan_miss hno
  · rw [latchScan_hit post hpre hl hid hv, if_neg hi]

theorem bindIdFuel_rescan {h : Heap} {qi : String} {env : Nat} {e : SymbolTable} (f : Nat)
    (henv : h.deref env = some e) (hl : latchScan h qi (idTip qi) e.children = some none) :
    bindIdFuel h qi (f + 1) (some env) = (climb h f e.parent).bind (bindIdFuel h qi f) := by
  rw [bindIdFuel]
  simp only [henv, hl, Option.bind_eq_bind, Option.some_bind]

theorem resolves_rescan {h : Heap} {qi : String} {env : Nat} {e : SymbolTable}
    {anc : Option Ptr} (henv : h.deref env = some e)
    (hl : latchScan h qi (idTip qi) e.children = some none)
    (hanc : FirstBlockFrom h e.parent anc) (r : Option Ptr) :
    Resolves h qi (some env) r ↔ Resolves h qi anc r := by
  constructor
  · rintro ⟨f, hf⟩
    cases f with
    | zero => simp [bindIdFuel] at hf
    | succ f =>
      rw [bindIdFuel_rescan f henv hl] at hf
      cases hc : climb h f e.parent with
      | none => simp [hc] at hf
      | some up =>
        simp only [hc, Option.some_bind] at hf
        obtain rfl := firstBlock_unique hanc (firstBlock_of_climb hc)
        exact ⟨f, hf⟩
  · rintro ⟨f, hf⟩
    obtain ⟨g, hg⟩ := climb_of_firstBlock hanc
    refine ⟨max f g + 1, ?_⟩
    rw [bindIdFuel_rescan _ henv hl, climb_mono_le hg (Nat.le_max_right f g)]
    exact bindIdFuel_mono_le hf (Nat.le_max_left f g)

theorem bindIdFuel_latched {h : Heap} {qi : String} {env : Nat} {e : SymbolTable}
    {r : Nat} (f : Nat) (henv : h.deref env = some e)
    (hl : latchScan h qi (idTip qi) e.children = some (some r)) :
    bindIdFuel h qi (f + 1) (some env) = some (some r) := by
  rw [bindIdFuel]
  simp [henv, hl]

theorem blockScan_system {h : Heap} {name : String} {cs : List (Option Ptr)}
    (hsys : name.get 0 = '_') (hcs : AllLive h cs) : blockScan h name cs = some none := by
  induction cs with
  | nil => rfl
  | cons c rest ih =>
    obtain ⟨q, n, rfl, hq⟩ := hcs _ (List.mem_cons_self _ _)
    have hrest : AllLive h rest := fun d hd => hcs d (List.mem_cons_of_mem _ hd)
    have : ¬ (n.id.get 0 ≠ '_' ∧ n.id = name) := by
      rintro ⟨h1, h2⟩
      exact h1 (h2 ▸ hsys)
    simp only [blockScan, hq, bne_iff_ne]
    rw [if_neg this]
    exact ih hrest

theorem blockScan_spec {h : Heap} (name : String) {cs : List (Option Ptr)}
    (hcs : AllLive h cs) :
    (blockScan h name cs = some none ∧
      ∀ x xn, some x ∈ cs → h.deref x = some xn → ¬ (xn.id.get 0 ≠ '_' ∧ xn.id = name)) ∨
    ∃ x xn, blockScan h name cs = some (some x) ∧ some x ∈ cs ∧ h.deref x = some xn ∧
      xn.id = name := by
  induction cs with
  | nil => exact Or.inl ⟨rfl, fun x xn hx => by cases hx⟩
  | cons c rest ih =>
    obtain ⟨q, n, rfl, hq⟩ := hcs _ (List.mem_cons_self _ _)
    have hrest : AllLive h rest := fun d hd => hcs d (List.mem_cons_of_mem _ hd)
    by_cases hm : n.id.get 0 ≠ '_' ∧ n.id = name
    · refine Or.inr ⟨q, n, ?_, List.mem_cons_self _ _, hq, hm.2⟩
      simp only [blockScan, hq, bne_iff_ne]
      rw [if_pos hm]
    · have hstep : blockScan h name (some q :: rest) = blockScan h name rest := by
        simp only [blockScan, hq, bne_iff_ne]
        rw [if_neg hm]
      rcases ih hrest with ⟨h0, hall⟩ | ⟨x, xn, hx, hmem, hxd, hxi⟩
      · refine Or.inl ⟨hstep.trans h0, ?_⟩
        intro x xn hx hxd
        rcases List.mem_cons.mp hx with hxe | hxr
        · cases hxe
          rw [hq] at hxd
          cases hxd
          exact hm
        · exact hall x xn hxr hxd
      · exact Or.inr ⟨x, xn, hstep.trans hx, List.mem_cons_of_mem _ hmem, hxd, hxi⟩

theorem staticMatch_block_none {h : Heap} {name : String} {cs : List (Option Ptr)}
    (hcs : NoChildNamed h name cs) : staticMatch h KIND_BLOCK name cs = some none := by
  induction cs with
  | nil => rfl
  | cons c rest ih =>
    obtain ⟨⟨q, n, rfl, hq, hne⟩, hrest⟩ := noChildNamed_cons hcs
    simp [staticMatch, hq, hne, ih hrest]

theorem staticMatch_system {h : Heap} {k : Int} {name : String} {cs : List (Option Ptr)}
    (hsys : name.get 0 = '_') (hcs : NoChildNamed h name cs)
    (hgrand : ∀ q n, some q ∈ cs → h.deref q = some n → n.kind = KIND_BLOCK →
      AllLive h n.children) :
    staticMatch h k name cs = some none := by
  induction cs with
  | nil => rfl
  | cons c rest ih =>
    obtain ⟨⟨q, n, rfl, hq, hne⟩, hrest⟩ := noChildNamed_cons hcs
    have hg : ∀ q n, some q ∈ rest → h.deref q = some n → n.kind = KIND_BLOCK →
        AllLive h n.children := fun q n hm => hgrand q n (List.mem_cons_of_mem _ hm)
    simp only [staticMatch, hq, hne, if_false]
    by_cases hk : k ≠ KIND_BLOCK ∧ n.kind = KIND_BLOCK
    · rw [if_pos hk, blockScan_system hsys (hgrand q n (List.mem_cons_self _ _) hq hk.2)]
      exact ih hrest hg
    · rw [if_neg hk]
      exact ih hrest hg

theorem staticMatch_nested {h : Heap} {k : Int} {name : String} {cs : List (Option Ptr)}
    (hk : k ≠ KIND_BLOCK) (hcs : NoChildNamed h name cs)
    (hgrand : ∀ q n, some q ∈ cs → h.deref q = some n → n.kind = KIND_BLOCK →
      AllLive h n.children) :
    (staticMatch h k name cs = some none ∧
      ∀ q n x xn, some q ∈ cs → h.deref q = some n → n.kind = KIND_BLOCK →
        some x ∈ n.children → h.deref x = some xn → ¬ (xn.id.get 0 ≠ '_' ∧ xn.id = name)) ∨
    ∃ r rn q n, staticMatch h k name cs = some (some r) ∧ some q ∈ cs ∧ h.deref q = some n ∧
      n.kind = KIND_BLOCK ∧ some r ∈ n.children ∧ h.deref r = some rn ∧ rn.id = name := by
  induction cs with
  | nil => exact Or.inl ⟨rfl, fun q n x xn hq => by cases hq⟩
  | cons c rest ih =>
    obtain ⟨⟨q, n, rfl, hq, hne⟩, hrest⟩ := noChildNamed_cons hcs
    have hg : ∀ q n, some q ∈ rest → h.deref q = some n → n.kind = KIND_BLOCK →
        AllLive h n.children := fun q n hm => hgrand q n (List.mem_cons_of_mem _ hm)
    by_cases hnk : n.kind = KIND_BLOCK
    · rcases blockScan_spec name (hgrand q n (List.mem_cons_self _ _) hq hnk) with
        ⟨hb, hall⟩ | ⟨x, xn, hb, hmem, hxd, hxi⟩
      · have hstep : staticMatch h k name (some q :: rest) = staticMatch h k name rest := by
          simp only [staticMatch, hq, hne, if_false]
          rw [if_pos ⟨hk, hnk⟩, hb]
        rcases ih hrest hg with ⟨h0, hall0⟩ | ⟨r, rn, q1, n1, hr, hm1, hq1, hk1, hrm, hrd, hri⟩
        · refine Or.inl ⟨hstep.trans h0, ?_⟩
          intro q1 n1 x xn hm1 hq1 hk1 hxm hxd
          rcases List.mem_cons.mp hm1 with he | hr
          · cases he
            rw [hq] at hq1
            cases hq1
            exact hall x xn hxm hxd
          · exact hall0 q1 n1 x xn hr hq1 hk1 hxm hxd
        · exact Or.inr ⟨r, rn, q1, n1, hstep.trans hr, List.mem_cons_of_mem _ hm1, hq1, hk1,
            hrm, hrd, hri⟩
      · refine Or.inr ⟨x, xn, q, n, ?_, List.mem_cons_self _ _, hq, hnk, hmem, hxd, hxi⟩
        simp only [staticMatch, hq, hne, if_false]
        rw [if_pos ⟨hk, hnk⟩, hb]
    · have hstep : staticMatch h k name (some q :: rest) = staticMatch h k name rest := by
        simp only [staticMatch, hq, hne, if_false]
        rw [if_neg (fun hh => hnk hh.2)]
      rcases ih hrest hg with ⟨h0, hall0⟩ | ⟨r, rn, q1, n1, hr, hm1, hq1, hk1, hrm, hrd, hri⟩
      · refine Or.inl ⟨hstep.trans h0, ?_⟩
        intro q1 n1 x xn hm1 hq1 hk1 hxm hxd
        rcases List.mem_cons.mp hm1 with he | hr
        · cases he
          rw [hq] at hq1
          cases hq1
          exact absurd hk1 hnk
        · exact hall0 q1 n1 x xn hr hq1 hk1 hxm hxd
      · exact Or.inr ⟨r, rn, q1, n1, hstep.trans hr, List.mem_cons_of_mem _ hm1, hq1, hk1,
          hrm, hrd, hri⟩

/-! ## Building the list predicates on concrete lists -/

theorem noChildNamed_nil (h : Heap) (id : String) : NoChildNamed h id [] :=
  fun _ hc => by cases hc

theorem noChildNamed_intro {h : Heap} {id : String} {q : Nat} {n : SymbolTable}
    {cs : List (Option Ptr)} (hq : h.deref q = some n) (hne : n.id ≠ id)
    (hcs : NoChildNamed h id cs) : NoChildNamed h id (some q :: cs) := by
  intro c hc
  rcases List.mem_cons.mp hc with rfl | hr
  · exact ⟨q, n, rfl, hq, hne⟩
  · exact hcs c hr

theorem allLive_nil (h : Heap) : AllLive h [] := fun _ hc => by cases hc

theorem allLive_intro {h : Heap} {q : Nat} {n : SymbolTable} {cs : List (Option Ptr)}
    (hq : h.deref q = some n) (hcs : AllLive h cs) : AllLive h (some q :: cs) := by
  intro c hc
  rcases List.mem_cons.mp hc with rfl | hr
  · exact ⟨q, n, rfl, hq⟩
  · exact hcs c hr

/-! ## The resolver: claims C3, C4, C5 -/

/-- C4 (upward rescan): when the start scope `env` has no child with the tip of the path as
id, or its first such child does not verify the remaining components (`LatchFails`), the
result of resolving from `env` is the result of resolving the same path from the nearest
strict ancestor of `env` that is a block (`FirstBlockFrom` the parent of `env`), whatever
stands in between and whatever children follow in `env`; it is unresolved when there is no
such ancestor.  Consequently a single-component path `t` that names no child of `env` and no
child of the nearest enclosing block `b1`, but names the child `x` of the block `b2` next
above `b1`, resolves to `x`. -/
theorem C4_upward_rescan (h : Heap) (qi : String) (env : Nat) (e : SymbolTable)
    (anc : Option Ptr) (henv : h.deref env = some e) (hfail : LatchFails h qi e.children)
    (hanc : FirstBlockFrom h e.parent anc) :
    (∀ r, Resolves h qi (some env) r ↔ Resolves h qi anc r) ∧
    (anc = none → Resolves h qi (some env) none) ∧
    (∀ (b1 b2 x : Nat) (bn1 bn2 xn : SymbolTable) (pre post : List (Option Ptr)),
      '.' ∉ qi.data → anc = some b1 → h.deref b1 = some bn1 →
      NoChildNamed h qi bn1.children → FirstBlockFrom h bn1.parent (some b2) →
      h.deref b2 = some bn2 → bn2.children = pre ++ some x :: post → NoChildNamed h qi pre →
      h.deref x = some xn → xn.id = qi → Resolves h qi (some env) (some x)) := by
  have key := resolves_rescan henv (latchScan_fails hfail) hanc
  refine ⟨key, ?_, ?_⟩
  · rintro rfl
    exact (key none).mpr (resolves_null.mpr rfl)
  · intro b1 b2 x bn1 bn2 xn pre post hdot hb1 hbn1 hno1 hup hbn2 hch hpre hx hid
    subst hb1
    have htip := idTip_single hdot
    have hchop := qiChop_single hdot
    rw [key]
    have hl1 : latchScan h qi (idTip qi) bn1.children = some none :=
      latchScan_miss (htip.symm ▸ hno1)
    rw [resolves_rescan hbn1 hl1 hup]
    refine ⟨1, bindIdFuel_latched 0 hbn2 ?_⟩
    have hv : verify h x 1 ((qiChop qi).drop 1) = some (x, 1) := by simp [hchop, verify]
    rw [hch, latchScan_hit post (htip.symm ▸ hpre) hx (hid.trans htip.symm) hv]
    simp [hchop]

/-- Witness of C4: from the block 4 of `heapC4`, whose parent is the declaration `d`, the
path `x` resolves to the child 1 of the root, two block levels up. -/
theorem C4_upward_rescan_witness :
    heapC4.deref 4 = cell KIND_BLOCK "_block" (some 3) [] ∧
    LatchFails heapC4 "x" [] ∧ FirstBlockFrom heapC4 (some 3) (some 2) ∧
    Resolves heapC4 "x" (some 4) (some 1) := by
  have hfail : LatchFails heapC4 "x" [] := Or.inl (noChildNamed_nil _ _)
  have hanc : FirstBlockFrom heapC4 (some 3) (some 2) :=
    .up 3 _ _ rfl (by decide) (.here 2 _ rfl rfl)
  refine ⟨rfl, hfail, hanc, ?_⟩
  exact (C4_upward_rescan heapC4 "x" 4 _ (some 2) rfl hfail hanc).2.2 2 0 1 _ _ _ [] [some 2]
    (by decide) rfl rfl
    (noChildNamed_intro (n := ⟨KIND_STATIC_DECL, "d", none, some 2, [some 4]⟩) rfl (by decide)
      (noChildNamed_nil _ _))
    (.here 0 _ rfl rfl) rfl rfl (noChildNamed_nil _ _) rfl rfl

/-- C5 (nested lookup): `D` is the first child with id `d` of the start scope `env` and has
no direct child with id `c`.  (1) If `D` is not a block, `c` does not begin with an
underscore and some block-kind child of `D` has a child with id `c`, the path `d.c` resolves
from `env` to a child with id `c` of a block-kind child of `D`.  (2) If `c` begins with an
underscore, nothing is matched through the block-kind children of `D`: the step finds no
match and the result is that of the rescan from the nearest enclosing block.  (3) The same
holds when `D` is itself a block; the children of its block-kind children are not looked
at (nothing is asked of them). -/
theorem C5_nested_lookup (h : Heap) (env D : Nat) (e dn : SymbolTable) (d c : String)
    (pre post : List (Option Ptr)) (henv : h.deref env = some e)
    (hch : e.children = pre ++ some D :: post) (hpre : NoChildNamed h d pre)
    (hD : h.deref D = some dn) (hid : dn.id = d) (hd : '.' ∉ d.data) (hc : '.' ∉ c.data)
    (hdirect : NoChildNamed h c dn.children) :
    (dn.kind ≠ KIND_BLOCK → c.get 0 ≠ '_' →
      (∀ q n, some q ∈ dn.children → h.deref q = some n → n.kind = KIND_BLOCK →
        AllLive h n.children) →
      (∃ k kn x xn, some k ∈ dn.children ∧ h.deref k = some kn ∧ kn.kind = KIND_BLOCK ∧
        some x ∈ kn.children ∧ h.deref x = some xn ∧ xn.id = c) →
      ∃ r rn k kn, Resolves h (d ++ "." ++ c) (some env) (some r) ∧
        some k ∈ dn.children ∧ h.deref k = some kn ∧ kn.kind = KIND_BLOCK ∧
        some r ∈ kn.children ∧ h.deref r = some rn ∧ rn.id = c) ∧
    (c.get 0 = '_' →
      (∀ q n, some q ∈ dn.children → h.deref q = some n → n.kind = KIND_BLOCK →
        AllLive h n.children) →
      staticMatch h dn.kind c dn.children = some none ∧
      ∀ anc, FirstBlockFrom h e.parent anc →
        ∀ r, Resolves h (d ++ "." ++ c) (some env) r ↔ Resolves h (d ++ "." ++ c) anc r) ∧
    (dn.kind = KIND_BLOCK →
      staticMatch h dn.kind c dn.children = some none ∧
      ∀ anc, FirstBlockFrom h e.parent anc →
        ∀ r, Resolves h (d ++ "." ++ c) (some env) r ↔ Resolves h (d ++ "." ++ c) anc r) := by
  have htip := idTip_pair hd hc
  have hchop := qiChop_pair hd hc
  have hpre1 : NoChildNamed h (idTip (d ++ "." ++ c)) pre := htip.symm ▸ hpre
  have hid1 : dn.id = idTip (d ++ "." ++ c) := hid.trans htip.symm
  -- what a failed step at `D` entails
  have hfailed : staticMatch h dn.kind c dn.children = some none →
      ∀ anc, FirstBlockFrom h e.parent anc →
        ∀ r, Resolves h (d ++ "." ++ c) (some env) r ↔ Resolves h (d ++ "." ++ c) anc r := by
    intro hsm anc hanc r
    have hv : verify h D 1 ((qiChop (d ++ "." ++ c)).drop 1) = some (D, 1) := by
      simp [hchop, verify, hD, hsm]
    have hf : LatchFails h (d ++ "." ++ c) e.children :=
      Or.inr ⟨pre, D, post, dn, D, 1, hch, hpre1, hD, hid1, hv, by simp [hchop]⟩
    exact resolves_rescan henv (latchScan_fails hf) hanc r
  refine ⟨?_, ?_, ?_⟩
  · intro hk _ hgrand ⟨k, kn, x, xn, hkm, hkd, hkk, hxm, hxd, hxi⟩
    rcases staticMatch_nested hk hdirect hgrand with ⟨_, hall⟩ |
      ⟨r, rn, q, n, hsm, hqm, hqd, hqk, hrm, hrd, hri⟩
    · exact absurd ⟨by rw [hxi]; assumption, hxi⟩ (hall k kn x xn hkm hkd hkk hxm hxd)
    · refine ⟨r, rn, q, n, ⟨1, bindIdFuel_latched 0 henv ?_⟩, hqm, hqd, hqk, hrm, hrd, hri⟩
      have hv : verify h D 1 ((qiChop (d ++ "." ++ c)).drop 1) = some (r, 2) := by
        simp [hchop, verify, hD, hsm]
      rw [hch, latchScan_hit post hpre1 hD hid1 hv]
      simp [hchop]
  · intro hsys hgrand
    have hsm := staticMatch_system (k := dn.kind) hsys hdirect hgrand
    exact ⟨hsm, hfailed hsm⟩
  · intro hk
    have hsm : staticMatch h dn.kind c dn.children = some none := by
      rw [hk]; exact staticMatch_block_none hdirect
    exact ⟨hsm, hfailed hsm⟩

/-- Witness of C5 on `heapC5`, from the root: `d.c` resolves through the block of the
declaration `d` to the node 3; `d._c` is not matched through that block; `e.c` is not
matched through the block inside the block `e`. -/
theorem C5_nested_lookup_witness :
    (heapC5.deref 0 = cell KIND_BLOCK "_block" none [some 1, some 5] ∧
      heapC5.deref 1 = cell KIND_STATIC_DECL "d" (some 0) [some 2] ∧
      NoChildNamed heapC5 "c" [some 2] ∧
      ∃ r rn k kn, Resolves heapC5 "d.c" (some 0) (some r) ∧
        some k ∈ [some 2] ∧ heapC5.deref k = some kn ∧ kn.kind = KIND_BLOCK ∧
        some r ∈ kn.children ∧ heapC5.deref r = some rn ∧ rn.id = "c") ∧
    ("_c".get 0 = '_' ∧ NoChildNamed heapC5 "_c" [some 2] ∧
      ∀ r, Resolves heapC5 "d._c" (some 0) r ↔ Resolves heapC5 "d._c" none r) ∧
    (heapC5.deref 5 = cell KIND_BLOCK "e" (some 0) [some 6] ∧
      NoChildNamed heapC5 "c" [some 6] ∧
      ∀ r, Resolves heapC5 "e.c" (some 0) r ↔ Resolves heapC5 "e.c" none r) := by
  have hk : ∀ id, id ≠ "_block" → NoChildNamed heapC5 id [some 2] := fun id hid =>
    noChildNamed_intro (n := ⟨KIND_BLOCK, "_block", none, some 1, [some 3, some 4]⟩) rfl
      (Ne.symm hid) (noChildNamed_nil _ _)
  have h6 : NoChildNamed heapC5 "c" [some 6] :=
    noChildNamed_intro (n := ⟨KIND_BLOCK, "_block", none, some 5, [some 7]⟩) rfl (by decide)
      (noChildNamed_nil _ _)
  have hgrand : ∀ q n, some q ∈ [some 2] → heapC5.deref q = some n → n.kind = KIND_BLOCK →
      AllLive heapC5 n.children := by
    intro q n hq hn _
    simp only [List.mem_singleton, Option.some.injEq] at hq
    subst hq
    cases hn
    exact allLive_intro (n := ⟨KIND_STATIC_DECL, "c", none, some 2, []⟩) rfl
      (allLive_intro (n := ⟨KIND_STATIC_DECL, "_c", none, some 2, []⟩) rfl (allLive_nil _))
  refine ⟨⟨rfl, rfl, hk "c" (by decide), ?_⟩, ⟨by decide, hk "_c" (by decide), ?_⟩,
    ⟨rfl, h6, ?_⟩⟩
  · exact (C5_nested_lookup heapC5 0 1 _ _ "d" "c" [] [some 5] rfl rfl (noChildNamed_nil _ _)
      rfl rfl (by decide) (by decide) (hk "c" (by decide))).1 (by decide) (by decide) hgrand
      ⟨2, _, 3, _, List.mem_singleton.mpr rfl, rfl, rfl, List.mem_cons_self _ _, rfl, rfl⟩
  · exact ((C5_nested_lookup heapC5 0 1 _ _ "d" "_c" [] [some 5] rfl rfl (noChildNamed_nil _ _)
      rfl rfl (by decide) (by decide) (hk "_c" (by decide))).2.1 (by decide) hgrand).2 none
      .null
  · exact ((C5_nested_lookup heapC5 0 5 _ _ "e" "c" [some 1] [] rfl rfl
      (noChildNamed_intro (n := ⟨KIND_STATIC_DECL, "d", none, some 0, [some 2]⟩) rfl (by decide)
        (noChildNamed_nil _ _))
      rfl rfl (by decide) (by decide) h6).2.2 rfl).2 none .null

theorem forall₂_imp_mem {α β : Type} {R S : α → β → Prop} {l1 : List α} {l2 : List β}
    (hR : List.Forall₂ R l1 l2) (himp : ∀ a b, a ∈ l1 → b ∈ l2 → R a b → S a b) :
    List.Forall₂ S l1 l2 := by
  induction hR with
  | nil => exact .nil
  | cons hab _ ih =>
    exact .cons (himp _ _ (List.mem_cons_self _ _) (List.mem_cons_self _ _) hab)
      (ih (fun a b ha hb => himp a b (List.mem_cons_of_mem _ ha) (List.mem_cons_of_mem _ hb)))

theorem subtreeAvoids_transfer {h h1 : Heap} {x x1 : Nat} {d q : Nat}
    (hs : SubtreeAvoids h x d q)
    (hagree : ∀ r, r < h.length → r ≠ x → h1.deref r = h.deref r)
    (hx1 : x1 = x ∨ h.length ≤ x1) : SubtreeAvoids h1 x1 d q := by
  induction d generalizing q with
  | zero => exact hs.elim
  | succ d ih =>
    obtain ⟨hqx, b, hb, hch⟩ := hs
    have hlt := deref_lt hb
    refine ⟨?_, b, (hagree q hlt hqx).trans hb, ?_⟩
    · rcases hx1 with rfl | hge
      · exact hqx
      · exact Nat.ne_of_lt (Nat.lt_of_lt_of_le hlt hge)
    · intro c hc
      obtain ⟨y, rfl, hy⟩ := hch c hc
      exact ⟨y, rfl, ih hy⟩

theorem deepCopy_source {h1 hA hB : Heap} {x lo hi d p q : Nat}
    (hc : DeepCopy h1 hA lo hi d p q) (hs : SubtreeAvoids hB x d q)
    (hagree : ∀ r, r < hB.length → r ≠ x → hA.deref r = hB.deref r) :
    DeepCopy h1 hB lo hi d p q := by
  induction d generalizing p q with
  | zero => exact hc.elim
  | succ d ih =>
    obtain ⟨hlo, hhi, a, b, ha, hb, hk, hi1, hd, hch⟩ := hc
    obtain ⟨hqx, b1, hb1, hsub⟩ := hs
    have hbb : b = b1 := by
      rw [hagree q (deref_lt hb1) hqx, hb1] at hb
      exact (Option.some.inj hb).symm
    subst hbb
    refine ⟨hlo, hhi, a, b, ha, hb1, hk, hi1, hd, forall₂_imp_mem hch ?_⟩
    rintro c1 c _ hcm ⟨p1, q1, rfl, rfl, hdc, hpar⟩
    obtain ⟨y, hy, hys⟩ := hsub _ hcm
    cases hy
    exact ⟨p1, q1, rfl, rfl, ih hdc hys, hpar⟩

theorem deepCopy_frame {h1 h2 h : Heap} {lo hi lo1 hi1 d p q : Nat}
    (hc : DeepCopy h1 h lo hi d p q)
    (hagree : ∀ r, lo ≤ r → r < hi → h2.deref r = h1.deref r)
    (hlo : lo1 ≤ lo) (hhi : hi ≤ hi1) : DeepCopy h2 h lo1 hi1 d p q := by
  induction d generalizing p q with
  | zero => exact hc.elim
  | succ d ih =>
    obtain ⟨hl, hh, a, b, ha, hb, hk, hi2, hd, hch⟩ := hc
    refine ⟨Nat.le_trans hlo hl, Nat.lt_of_lt_of_le hh hhi, a, b,
      (hagree p hl hh).trans ha, hb, hk, hi2, hd, hch.imp ?_⟩
    rintro c1 c ⟨p1, q1, rfl, rfl, hdc, a1, ha1, hpar⟩
    have hr : lo ≤ p1 ∧ p1 < hi := by
      cases d with
      | zero => exact hdc.elim
      | succ d => exact ⟨hdc.1, hdc.2.1⟩
    exact ⟨p1, q1, rfl, rfl, ih hdc, a1, (hagree p1 hr.1 hr.2).trans ha1, hpar⟩

theorem copiedChildren_frame {h1 h2 h : Heap} {lo hi lo1 hi1 d p : Nat}
    {cs1 cs : List (Option Ptr)} (hc : CopiedChildren h1 h lo hi d p cs1 cs)
    (hagree : ∀ r, lo ≤ r → r < hi → h2.deref r = h1.deref r)
    (hlo : lo1 ≤ lo) (hhi : hi ≤ hi1) : CopiedChildren h2 h lo1 hi1 d p cs1 cs := by
  refine List.Forall₂.imp ?_ hc
  rintro c1 c ⟨p1, q1, rfl, rfl, hdc, a1, ha1, hpar⟩
  have hr : lo ≤ p1 ∧ p1 < hi := by
    cases d with
    | zero => exact hdc.elim
    | succ d => exact ⟨hdc.1, hdc.2.1⟩
  exact ⟨p1, q1, rfl, rfl, deepCopy_frame hdc hagree hlo hhi, a1,
    (hagree p1 hr.1 hr.2).trans ha1, hpar⟩

theorem copyChildren_spec {f d : Nat} (ih : AssignSpec f d) {h0 : Heap} {dst : Nat}
    (hdst : dst < h0.length) :
    ∀ (cs : List (Option Ptr)) (hc : Heap) (dcur : SymbolTable),
      (∀ c ∈ cs, ∃ y, c = some y ∧ SubtreeAvoids h0 dst (d + 1) y) →
      h0.length ≤ hc.length →
      (∀ r, r < h0.length → r ≠ dst → hc.deref r = h0.deref r) →
      hc.deref dst = some dcur →
      ∃ h1 news, copyChildren (assignFuel f) dst cs hc = some h1 ∧ hc.length ≤ h1.length ∧
        (∀ r, r < hc.length → r ≠ dst → h1.deref r = hc.deref r) ∧
        h1.deref dst = some { dcur with children := dcur.children ++ news } ∧
        CopiedChildren h1 h0 hc.length h1.length (d + 1) dst news cs := by
  intro cs
  induction cs with
  | nil =>
    intro hc dcur _ _ _ hd
    exact ⟨hc, [], rfl, Nat.le_refl _, fun _ _ _ => rfl, by simpa using hd, .nil⟩
  | cons c rest ihl =>
    intro hc dcur hsub hlen hagree hd
    obtain ⟨y, rfl, hy⟩ := hsub c (List.mem_cons_self _ _)
    have hrest : ∀ c ∈ rest, ∃ y, c = some y ∧ SubtreeAvoids h0 dst (d + 1) y :=
      fun c hc => hsub c (List.mem_cons_of_mem _ hc)
    -- the fresh node
    have hdp : dst < hc.length := Nat.lt_of_lt_of_le hdst hlen
    have hdne : dst ≠ hc.length := Nat.ne_of_lt hdp
    have hagb : ∀ r, r < h0.length → r ≠ dst →
        (hc ++ [some blankNode]).deref r = h0.deref r := fun r hr hrd => by
      rw [deref_append_lt _ (Nat.lt_of_lt_of_le hr hlen)]; exact hagree r hr hrd
    have hyb : SubtreeAvoids (hc ++ [some blankNode]) hc.length (d + 1) y :=
      subtreeAvoids_transfer hy hagb (Or.inr hlen)
    obtain ⟨h2, yn, newsY, hrun, hlen2, hfr2, hyn, hp2, hcc2⟩ :=
      ih (hc ++ [some blankNode]) hc.length y blankNode hyb (deref_append_length _ _)
    have hlenb : (hc ++ [some blankNode]).length = hc.length + 1 := by simp
    rw [hlenb] at hlen2 hfr2 hcc2
    have hyn0 : h0.deref y = some yn := by
      obtain ⟨hyd, b, hb, _⟩ := hy
      rw [← hagb y (deref_lt hb) hyd]; exact hyn
    have hp2lt : hc.length < h2.length := by omega
    -- parent fixed, child logged
    have hd2 : h2.deref dst = some dcur := by
      rw [hfr2 dst (by omega) hdne, deref_append_lt _ hdp]; exact hd
    have hd3 : (h2.write hc.length
        { kind := yn.kind, id := yn.id, defSite := yn.defSite, parent := some dst,
          children := blankNode.children ++ newsY }).deref dst = some dcur := by
      rw [deref_write_ne _ (Ne.symm hdne)]; exact hd2
    set h3 : Heap := h2.write hc.length
        { kind := yn.kind, id := yn.id, defSite := yn.defSite, parent := some dst,
          children := blankNode.children ++ newsY } with hh3
    set h4 : Heap := h3.write dst { dcur with children := dcur.children ++ [some hc.length] }
      with hh4
    have hlen3 : h3.length = h2.length := length_write _ _ _
    have hlen4 : h4.length = h2.length := (length_write _ _ _).trans hlen3
    have hd4 : h4.deref dst =
        some { dcur with children := dcur.children ++ [some hc.length] } :=
      deref_write_same _ (by rw [hlen3]; omega)
    have hag4 : ∀ r, r < h0.length → r ≠ dst → h4.deref r = h0.deref r := by
      intro r hr hrd
      have hrp : hc.length ≠ r := by omega
      rw [hh4, deref_write_ne _ (Ne.symm hrd), hh3, deref_write_ne _ hrp,
        hfr2 r (by omega) (Ne.symm hrp)]
      exact hagb r hr hrd
    obtain ⟨h1, newsR, hrunR, hlenR, hfrR, hdR, hccR⟩ :=
      ihl h4 _ hrest (by rw [hlen4]; omega) hag4 hd4
    rw [hlen4] at hlenR hfrR hccR
    have hstep : copyChildren (assignFuel f) dst (some y :: rest) hc = some h1 := by
      rw [copyChildren]
      simp only [hrun, Option.bind_eq_bind, Option.some_bind, hp2]
      rw [← hh3]
      simp only [hd3, Option.some_bind]
      exact hrunR
    -- the cells of the copy of `y` stay as they are from `h2` on
    have hkeep : ∀ r, hc.length + 1 ≤ r → r < h2.length → h1.deref r = h2.deref r := by
      intro r hr1 hr2
      have hrd : r ≠ dst := by omega
      have hrp : hc.length ≠ r := by omega
      rw [hfrR r hr2 hrd, hh4, deref_write_ne _ (Ne.symm hrd), hh3, deref_write_ne _ hrp]
    have hp1 : h1.deref hc.length = some
        { kind := yn.kind, id := yn.id, defSite := yn.defSite, parent := some dst,
          children := blankNode.children ++ newsY } := by
      rw [hfrR _ hp2lt (Ne.symm hdne), hh4, deref_write_ne _ hdne, hh3,
        deref_write_same _ hp2lt]
    have hle1 : hc.length ≤ h1.length := Nat.le_trans (Nat.le_of_lt hp2lt) hlenR
    refine ⟨h1, some hc.length :: newsR, hstep, hle1, ?_, ?_, ?_⟩
    · intro r hr hrd
      have hrp : hc.length ≠ r := by omega
      rw [hfrR r (by omega) hrd, hh4, deref_write_ne _ (Ne.symm hrd), hh3,
        deref_write_ne _ hrp, hfr2 r (by omega) (Ne.symm hrp), deref_append_lt _ hr]
    · rw [hdR]; simp
    · refine .cons ⟨hc.length, y, rfl, rfl, ?_, _, hp1, rfl⟩
        (copiedChildren_frame hccR (fun _ _ _ => rfl) (by omega) (Nat.le_refl _))
      refine ⟨Nat.le_refl _, by omega, _, yn, hp1, hyn0, rfl, rfl, rfl, ?_⟩
      have hcc0 : CopiedChildren h2 h0 (hc.length + 1) h2.length d hc.length newsY
          yn.children := by
        obtain ⟨_, b, hb, hsubY⟩ := hy
        obtain rfl : b = yn := Option.some.inj (hb.symm.trans hyn0)
        refine forall₂_imp_mem hcc2 ?_
        rintro c1 c _ hcm ⟨p1, q1, rfl, rfl, hdc, hpar⟩
        obtain ⟨z, hz, hzs⟩ := hsubY _ hcm
        cases hz
        exact ⟨p1, q1, rfl, rfl, deepCopy_source hdc hzs hagb, hpar⟩
      have := copiedChildren_frame hcc0 hkeep (Nat.le_succ hc.length) hlenR
      simpa [blankNode, CopiedChildren] using this

theorem assign_spec (d : Nat) : ∀ f, d + 1 ≤ f → AssignSpec f d := by
  induction d with
  | zero =>
    intro f hf h dst src dn hs hd
    obtain ⟨g, rfl⟩ : ∃ g, f = g + 1 := ⟨f - 1, by omega⟩
    obtain ⟨hne, bn, hb, hch⟩ := hs
    have hnil : bn.children = [] := by
      cases hc : bn.children with
      | nil => rfl
      | cons c cs =>
        obtain ⟨y, _, hy⟩ := hch c (hc ▸ List.mem_cons_self _ _)
        exact hy.elim
    have hdl := deref_lt hd
    refine ⟨h.write dst
      { dn with kind := bn.kind, id := bn.id, defSite := bn.defSite, parent := bn.parent },
      bn, [], ?_, by rw [length_write], ?_, hb, ?_, ?_⟩
    · rw [assignFuel]
      simp [hb, hd, hnil, copyChildren]
    · intro r _ hr
      rw [deref_write_ne _ (Ne.symm hr)]
    · rw [deref_write_same _ hdl]; simp
    · rw [hnil]; exact .nil
  | succ d ih =>
    intro f hf h dst src dn hs hd
    obtain ⟨g, rfl⟩ : ∃ g, f = g + 1 := ⟨f - 1, by omega⟩
    have hs0 := hs
    obtain ⟨hne, bn, hb, hch⟩ := hs
    have hdl := deref_lt hd
    set h1 : Heap := h.write dst
      { dn with kind := bn.kind, id := bn.id, defSite := bn.defSite, parent := bn.parent }
      with hh1
    have hlen1 : h1.length = h.length := length_write _ _ _
    have hag1 : ∀ r, r < h.length → r ≠ dst → h1.deref r = h.deref r := fun r _ hr => by
      rw [hh1, deref_write_ne _ (Ne.symm hr)]
    obtain ⟨h2, news, hrun, hlen2, hfr2, hd2, hcc⟩ :=
      copyChildren_spec (ih g (by omega)) hdl bn.children h1 _ hch (by rw [hlen1]) hag1
        (deref_write_same _ hdl)
    rw [hlen1] at hlen2 hfr2 hcc
    refine ⟨h2, bn, news, ?_, hlen2, ?_, hb, hd2, hcc⟩
    · rw [assignFuel]
      simp only [hb, hd, Option.bind_eq_bind, Option.some_bind]
      rw [if_neg (fun hh => hne hh.1.symm)]
      exact hrun
    · intro r hr hrd
      rw [hfr2 r hr hrd]
      exact hag1 r hr hrd

/-! ## Import substitution: claims C6 to C10 -/

theorem importConflict_none {h : Heap} {id : String} {cs : List (Option Ptr)}
    (hcs : NoImportClash h id cs) : importConflict h id cs = some none := by
  induction cs with
  | nil => rfl
  | cons c rest ih =>
    obtain ⟨q, n, rfl, hq, hne⟩ := hcs _ (List.mem_cons_self _ _)
    have hrest : NoImportClash h id rest := fun c hc => hcs c (List.mem_cons_of_mem _ hc)
    simp only [importConflict, hq, bne_iff_ne]
    rw [if_neg hne]
    exact ih hrest

theorem subImportLoop_std {K : Ext} {tr : TreeHeap} {h : Heap} {imp : Nat} {n : SymbolTable}
    (fuel : Nat) (rest : List Ptr) (log : Log)
    (hpath : importPathOf K tr h imp = some "std") (himp : h.deref imp = some n) :
    subImportLoop K tr fuel false (imp :: rest) h log =
      subImportLoop K tr fuel true rest
        (h.write imp { n with id := K.STANDARD_IMPORT_DECL_STRING }) log := by
  rw [subImportLoop]
  simp [hpath, himp]

theorem subImportLoop_ordinary {K : Ext} {tr : TreeHeap} {h : Heap} {imp : Nat}
    {path : String} (fuel : Nat) (flag : Bool) (rest : List Ptr) (log : Log)
    (hpath : importPathOf K tr h imp = some path) (hns : ¬ (path = "std" ∧ flag = false)) :
    subImportLoop K tr fuel flag (imp :: rest) h log =
      (substituteImport K tr fuel h log imp path).bind
        (fun r => subImportLoop K tr fuel flag rest r.1 r.2) := by
  rw [subImportLoop]
  simp only [hpath, Option.bind_eq_bind, Option.some_bind]
  rw [if_neg hns]

theorem substituteImport_splice {K : Ext} {tr : TreeHeap} {h : Heap}
    {imp ds b par : Nat} {n bn pn : SymbolTable} {dn : Tree} {path : String} (fuel : Nat)
    (log : Log) (himp : h.deref imp = some n) (hds : n.defSite = some ds)
    (hdn : tr[ds]? = some dn)
    (hres : bindIdFuel h path fuel (some imp) = some (some b)) (hb : h.deref b = some bn)
    (hpar : n.parent = some par) (hpn : h.deref par = some pn)
    (hconf : importConflict h bn.id pn.children = some none) :
    substituteImport K tr fuel h log imp path =
      (assignFuel fuel h imp b).map (fun h1 => (h1, log)) := by
  simp only [substituteImport, himp, hds, hdn, hres, hb, hpar, hpn, hconf,
    Option.bind_eq_bind, Option.some_bind]
  cases assignFuel fuel h imp b <;> rfl

theorem importPathOf_parts {K : Ext} {tr : TreeHeap} {h : Heap} {imp : Nat} {path : String}
    (hpath : importPathOf K tr h imp = some path) :
    ∃ n ds dn c cn, h.deref imp = some n ∧ n.defSite = some ds ∧ tr[ds]? = some dn ∧
      dn.child = some c ∧ tr[c]? = some cn ∧ K.id2String tr cn.next = some path := by
  unfold importPathOf at hpath
  simp only [Option.bind_eq_bind, Option.bind_eq_some] at hpath
  obtain ⟨n, hn, ds, hds, dn, hdn, c, hc, cn, hcn, hp⟩ := hpath
  exact ⟨n, ds, dn, c, cn, hn, hds, hdn, hc, hcn, hp⟩

theorem noImportClash_nil (h : Heap) (id : String) : NoImportClash h id [] :=
  fun _ hc => by cases hc

theorem noImportClash_intro {h : Heap} {id : String} {q : Nat} {n : SymbolTable}
    {cs : List (Option Ptr)} (hq : h.deref q = some n)
    (hne : ¬ (n.id.get 0 ≠ '_' ∧ n.id = id)) (hcs : NoImportClash h id cs) :
    NoImportClash h id (some q :: cs) := by
  intro c hc
  rcases List.mem_cons.mp hc with rfl | hr
  · exact ⟨q, n, rfl, hq, hne⟩
  · exact hcs c hr

theorem subImportLoop_true {K : Ext} {tr : TreeHeap} (fuel : Nat) (l : List Ptr) (h : Heap)
    (log : Log) : subImportLoop K tr fuel true l h log = ordinaryLoop K tr fuel l h log := by
  induction l generalizing h log with
  | nil => rfl
  | cons imp rest ih =>
    rw [subImportLoop, ordinaryLoop]
    cases hp : importPathOf K tr h imp with
    | none => rfl
    | some path =>
      simp only [Option.bind_eq_bind, Option.some_bind]
      rw [if_neg (fun hh => Bool.noConfusion hh.2)]
      cases hs : substituteImport K tr fuel h log imp path with
      | none => rfl
      | some r => simp only [Option.some_bind]; exact ih r.1 r.2

/-- C7 as amended (import splice): an import placeholder `imp` without children, handled by
the ordinary path of the loop, whose path resolves to a node `b` with a well-formed subtree
that does not contain the placeholder, and whose parent has no child with the id of `b`
unless that id begins with an underscore.  With enough fuel the loop goes on to the
next import with an unchanged log and a heap in which the placeholder, in its own cell, has
the kind, id and definition site of `b` and, as children, deep copies of the children of
`b`, in the same number and order, made of fresh cells; every other cell allocated before,
so the subtree of `b` and the children list of the parent, is unchanged. -/
theorem C7_import_splice (K : Ext) (tr : TreeHeap) (fuel f0 d : Nat) (flag : Bool)
    (imp b par : Nat) (rest : List Ptr) (h : Heap) (log : Log) (path : String)
    (n bn pn : SymbolTable)
    (hpath : importPathOf K tr h imp = some path) (hns : ¬ (path = "std" ∧ flag = false))
    (himp : h.deref imp = some n)
    (hres : bindIdFuel h path f0 (some imp) = some (some b)) (hb : h.deref b = some bn)
    (hpar : n.parent = some par) (hpn : h.deref par = some pn)
    (hclash : NoImportClash h bn.id pn.children)
    (hleaf : n.children = []) (hsub : SubtreeAvoids h imp (d + 1) b)
    (hf0 : f0 ≤ fuel) (hfd : d + 1 ≤ fuel) :
    ∃ h1 news,
      subImportLoop K tr fuel flag (imp :: rest) h log =
        subImportLoop K tr fuel flag rest h1 log ∧
      h1.deref imp = some { kind := bn.kind, id := bn.id, defSite := bn.defSite,
                            parent := bn.parent, children := news } ∧
      CopiedChildren h1 h h.length h1.length d imp news bn.children ∧
      (∀ r, r < h.length → r ≠ imp → h1.deref r = h.deref r) ∧
      (par ≠ imp → h1.deref par = some pn) := by
  obtain ⟨n1, ds, dn, c, cn, hn1, hds, hdn, _, _, _⟩ := importPathOf_parts hpath
  obtain rfl : n = n1 := Option.some.inj (himp.symm.trans hn1)
  obtain ⟨h1, bn1, news, hrun, _, hframe, hbn1, hd1, hcc⟩ :=
    assign_spec d fuel hfd h imp b n hsub himp
  obtain rfl : bn = bn1 := Option.some.inj (hb.symm.trans hbn1)
  refine ⟨h1, news, ?_, ?_, hcc, hframe, ?_⟩
  · rw [subImportLoop_ordinary fuel flag rest log hpath hns,
      substituteImport_splice fuel log himp hds hdn (bindIdFuel_mono_le hres hf0) hb hpar hpn
        (importConflict_none hclash), hrun]
    rfl
  · rw [hd1, hleaf]; rfl
  · intro hne
    rw [hframe par (deref_lt hpn) hne]; exact hpn

/-- Witness of C7: in `heapC7w` the placeholder 4 for the path `a` becomes a copy of the
declaration `a` (1) with one child, a copy of `u`. -/
theorem C7_import_splice_witness :
    importPathOf extW (trImport "a" "a") heapC7w 4 = some "a" ∧
    bindIdFuel heapC7w "a" 3 (some 4) = some (some 1) ∧
    NoImportClash heapC7w "a" [some 4] ∧ SubtreeAvoids heapC7w 4 2 1 ∧
    ∃ h1 news,
      subImportLoop extW (trImport "a" "a") 3 false [4] heapC7w [] = some (h1, []) ∧
      h1.deref 4 = some { kind := KIND_STATIC_DECL, id := "a", defSite := none,
                          parent := some 0, children := news } ∧
      CopiedChildren h1 heapC7w 5 h1.length 1 4 news [some 2] := by
  have hclash : NoImportClash heapC7w "a" [some 4] :=
    noImportClash_intro (n := ⟨KIND_IMPORT, "_import", some 0, some 3, []⟩) rfl (by decide)
      (noImportClash_nil _ _)
  have hsub : SubtreeAvoids heapC7w 4 2 1 := by
    refine ⟨by decide, _, rfl, ?_⟩
    intro c hc
    simp only [List.mem_singleton] at hc
    subst hc
    exact ⟨2, rfl, by decide, _, rfl, fun c hc => by cases hc⟩
  obtain ⟨h1, news, hrun, hd, hcc, _, _⟩ :=
    C7_import_splice extW (trImport "a" "a") 3 3 1 false 4 1 3 [] heapC7w [] "a" _ _ _
      rfl (by decide) rfl rfl rfl rfl rfl hclash rfl hsub (Nat.le_refl _) (by decide)
  exact ⟨rfl, rfl, hclash, hsub, h1, news, hrun, hd, hcc⟩

/-- Counterexample to C7 as stated.  (1) The program `foo = { @foo }`: decoration gives
`heapSelf` with the worklist `[20]`; the path `foo` of the placeholder 20 resolves to the
declaration 18, whose block 19 contains the placeholder; the parent 19 has no clashing
child; substitution reports nothing, yet the node 20 of the subtree of the imported node is
overwritten, so that subtree is not unchanged.  (2) In `heapC7a` the placeholder 4 has a
child of its own; its path resolves to the node 1, which has one child, and after
substitution the placeholder has two children.  (3) The program `{ @std }`: decoration gives
`heapBlockStd` with the worklist `[19]`; the path `std` of the placeholder 19 resolves to
the standard library node 7 and the parent 18 has no clashing child; being the first
standard import, the placeholder only gets the marker id and is no copy of the node 7. -/
theorem C7_counterexample :
    ((semDecorate extW 10 trSelf (some 0)).map (fun d => (d.1.st, d.1.importList)) =
        some (heapSelf, [20]) ∧
      importPathOf extW trSelf heapSelf 20 = some "foo" ∧
      bindIdFuel heapSelf "foo" 10 (some 20) = some (some 18) ∧
      heapSelf.deref 18 = cellAt KIND_STATIC_DECL "foo" 1 (some 0) [some 19] ∧
      heapSelf.deref 19 = cellAt KIND_BLOCK "_block" 4 (some 18) [some 20] ∧
      heapSelf.deref 20 = cellAt KIND_IMPORT "_import" 6 (some 19) [] ∧
      NoImportClash heapSelf "foo" [some 20] ∧
      (subImportDecls extW trSelf 10 [20] heapSelf []).map (fun r => (r.1.deref 20, r.2)) =
        some (cellAt KIND_STATIC_DECL "foo" 1 (some 0) [some 21], [])) ∧
    (importPathOf extW (trImport "a" "a") heapC7a 4 = some "a" ∧
      bindIdFuel heapC7a "a" 10 (some 4) = some (some 1) ∧
      heapC7a.deref 1 = cell KIND_STATIC_DECL "a" (some 0) [some 2] ∧
      NoImportClash heapC7a "a" [some 4] ∧
      (subImportDecls extW (trImport "a" "a") 10 [4] heapC7a []).map
          (fun r => (r.1.deref 4, r.2)) =
        some (cell KIND_STATIC_DECL "a" (some 0) [some 5, some 6], [])) ∧
    ((semDecorate extW 10 trBlockStd (some 0)).map (fun d => (d.1.st, d.1.importList)) =
        some (heapBlockStd, [19]) ∧
      importPathOf extW trBlockStd heapBlockStd 19 = some "std" ∧
      bindIdFuel heapBlockStd "std" 10 (some 19) = some (some 7) ∧
      heapBlockStd.deref 18 = cellAt KIND_BLOCK "_block" 0 (some 0) [some 19] ∧
      NoImportClash heapBlockStd "std" [some 19] ∧
      (subImportDecls extW trBlockStd 10 [19] heapBlockStd []).map
          (fun r => (r.1.deref 19, r.2)) =
        some (cellAt KIND_IMPORT "_stdImport" 2 (some 18) [], [])) := by
  refine ⟨⟨by decide, by decide, by decide, rfl, rfl, rfl, ?_, by decide⟩,
    ⟨by decide, by decide, rfl, ?_, by decide⟩,
    ⟨by decide, by decide, by decide, rfl, ?_, by decide⟩⟩
  · exact noImportClash_intro (n := ⟨KIND_IMPORT, "_import", some 6, some 19, []⟩) rfl
      (by decide) (noImportClash_nil _ _)
  · exact noImportClash_intro (n := ⟨KIND_IMPORT, "_import", some 0, some 3, [some 5]⟩) rfl
      (by decide) (noImportClash_nil _ _)
  · exact noImportClash_intro (n := ⟨KIND_IMPORT, "_import", some 2, some 18, []⟩) rfl
      (by decide) (noImportClash_nil _ _)

/-- C9 (standard import): in a run of the loop, (1) while no standard import has been met
(flag false) an import whose path is exactly `std` is accepted without resolution: its id
becomes the standard-import marker, the log and every other cell stay, and the rest of the
worklist is handled by the loop without special case; (2) once the flag is set, the loop is
the loop without special case, whatever the paths, `std` included: each import is resolved
from the import node, checked for a conflict and spliced; (3) while the flag is not set,
an import with another path is handled by that same ordinary step and the flag stays. -/
theorem C9_standard_import (K : Ext) (tr : TreeHeap) (fuel : Nat) :
    (∀ (imp : Nat) (rest : List Ptr) (h : Heap) (log : Log) (n : SymbolTable),
      importPathOf K tr h imp = some "std" → h.deref imp = some n →
      subImportLoop K tr fuel false (imp :: rest) h log =
        ordinaryLoop K tr fuel rest
          (h.write imp { n with id := K.STANDARD_IMPORT_DECL_STRING }) log) ∧
    (∀ (l : List Ptr) (h : Heap) (log : Log),
      subImportLoop K tr fuel true l h log = ordinaryLoop K tr fuel l h log) ∧
    (∀ (imp : Nat) (rest : List Ptr) (h : Heap) (log : Log) (path : String),
      importPathOf K tr h imp = some path → path ≠ "std" →
      subImportLoop K tr fuel false (imp :: rest) h log =
        (substituteImport K tr fuel h log imp path).bind
          (fun r => subImportLoop K tr fuel false rest r.1 r.2)) := by
  refine ⟨?_, subImportLoop_true fuel, ?_⟩
  · intro imp rest h log n hpath himp
    rw [subImportLoop_std fuel rest log hpath himp, subImportLoop_true]
  · intro imp rest h log path hpath hne
    exact subImportLoop_ordinary fuel false rest log hpath (fun hh => hne hh.1)

/-- Witness of C9 on `heapImp`, for a worklist that names the import of `std` twice: the
first entry gets the marker id, the second is resolved as an ordinary path and runs into the
name conflict with the standard library node of the root. -/
theorem C9_standard_import_witness :
    importPathOf extW (trImport "std" "std") heapImp 18 = some "std" ∧
    heapImp.deref 18 = cellAt KIND_IMPORT "_import" 0 (some 0) [] ∧
    subImportLoop extW (trImport "std" "std") 3 false [18, 18] heapImp [] =
      some (heapImp.write 18 ⟨KIND_IMPORT, "_stdImport", some 0, some 0, []⟩,
        [{ fileName := "a.anic", row := 1, col := 1, msg := .importConflict "std" },
         { fileName := "std", row := 0, col := 0, msg := .conflictingDefinition }]) := by
  refine ⟨rfl, rfl, ?_⟩
  rw [(C9_standard_import extW (trImport "std" "std") 3).1 18 [18] heapImp [] _ rfl rfl]
  decide

/-- C6 at the failing input, the program `@std.out`: decoration puts the import placeholder
18 into the root block 0 with the root as parent; after import substitution the node 18 is
still a child of the root, but its parent pointer is the standard library node 7, the parent
of the imported symbol `out`. -/
theorem C6_splice_parent :
    (semDecorate extW 10 (trImport "std.out" "std") (some 0)).map
        (fun d => (d.2, d.1.importList, d.1.st.deref 18)) =
      some (0, [18], cellAt KIND_IMPORT "_import" 0 (some 0) []) ∧
    (semSymbols extW 10 (trImport "std.out" "std") (some 0)).map
        (fun r => (r.2, r.1.st.deref 0, r.1.st.deref 18, r.1.log)) =
      some (0,
        cell KIND_BLOCK "_block" none
          [some 1, some 2, some 3, some 4, some 5, some 6, some 7, some 18],
        cell KIND_STD "out" (some 7) [], []) := by
  refine ⟨by decide, by decide⟩

/-! ## Claims C12, C17 to C20 -/

/-- C12 at the failing input, an empty root block and a null child: the concatenation reports
nothing and returns the container, but it appends the null pointer, so the children list
grows from no entry to one; the next insertion of an entry with an ordinary id then has no
defined result, since the conflict loop dereferences the null child. -/
theorem C12_null_child_appended :
    concat extW [] heapC1 [] 0 none =
      some ([cell KIND_BLOCK "_block" none [none]], [], 0) ∧
    heapC1.deref 0 = cell KIND_BLOCK "_block" none [] ∧
    concatNew extW [] [cell KIND_BLOCK "_block" none [none]] [] 0 KIND_STD "x" none = none := by
  refine ⟨by decide, rfl, by decide⟩

/-- C18 at the failing input, the chain `5 -> 6` (`trFiveSix`, terms at 1 and 11): the type
heap gets the null type (cell 0) and the types of kind `STD_INT` of the two terms (cells 1
and 2); the first term has the type at cell 1 attached; the call of `getTermType` for the
second term is made with the null type at cell 0 as input type, not with the type attached
to the first term. -/
theorem C18_input_type_not_advanced :
    (traceTypes 30 [0] { tr := trFiveSix, types := [], log := [], calls := [] }).map
        (fun s => (s.calls, s.types, s.log)) =
      some ([(1, TypePtr.cell 0), (11, TypePtr.cell 0)],
        [SemType.mk1 STD_NULL, SemType.mk1 STD_INT, SemType.mk1 STD_INT], []) ∧
    (traceTypes 30 [0] { tr := trFiveSix, types := [], log := [], calls := [] }).map
        (fun s => ((s.tr[1]?).map (fun n => n.type), (s.tr[11]?).map (fun n => n.type))) =
      some (some (TypePtr.cell 1), some (TypePtr.cell 2)) := by
  refine ⟨by decide, by decide⟩

/-- C20 at the failing input, the program `a = 1; a = b` (`trDup`): decoration reports the
redefinition of `a` and deletes the symbol made for the second declaration (cell 19), yet
records that symbol as the scope of the nodes 7, 8 and 9 of the second declaration's body
and puts the identifier 9 on the use-site worklist; the root's children are the seven
default entries and the first `a` (18), so the recorded scope 19 is no node of the tree.
The whole analysis `sem` then has no defined result, as binding the use site reads the
deleted scope. -/
theorem C20_scope_of_duplicate_body :
    (semDecorate extW 30 trDup (some 0)).map
        (fun d => (d.2, d.1.st.deref 0, d.1.st.deref 18, d.1.st.deref 19)) =
      some (0,
        cell KIND_BLOCK "_block" none
          [some 1, some 2, some 3, some 4, some 5, some 6, some 7, some 18],
        cellAt KIND_STATIC_DECL "a" 3 (some 0) [],
        none) ∧
    (semDecorate extW 30 trDup (some 0)).map
        (fun d => ((d.1.tr[7]?).map (fun n => n.env), (d.1.tr[8]?).map (fun n => n.env),
          (d.1.tr[9]?).map (fun n => n.env))) =
      some (some (some 19), some (some 19), some (some 19)) ∧
    (semDecorate extW 30 trDup (some 0)).map
        (fun d => (d.1.instanceList, d.1.importList, d.1.log)) =
      some ([9], [],
        [{ fileName := "a.anic", row := 1, col := 1, msg := .redefinition "a" },
         { fileName := "a.anic", row := 1, col := 1, msg := .previousDefinition }]) ∧
    sem extW 30 trDup (some 0) false 0 false [] = none := by
  refine ⟨by decide, by decide, by decide, ?_⟩
  have h : (sem extW 30 trDup (some 0) false 0 false []).isSome = false := by decide
  cases hs : sem extW 30 trDup (some 0) false 0 false [] with
  | none => rfl
  | some r => rw [hs] at h; cases h

theorem concatNew_eval (K : Ext) (tr : TreeHeap) (h : Heap) (log : Log) (self : Nat)
    (kind : Int) (id : String) (t : SymbolTable) (hself : h.deref self = some t)
    (hok : id.get 0 = '_' ∨ NoChildNamed h id t.children) :
    concatNew K tr h log self kind id none =
      some (((h ++ [some (SymbolTable.mk3 kind id none)]).write self
          { t with children := t.children ++ [some h.length] }).write h.length
            { kind := kind, id := id, defSite := none, parent := some self, children := [] },
        log, h.length) := by
  have hlt := deref_lt hself
  have hne : self ≠ h.length := Nat.ne_of_lt hlt
  have hself0 : (h ++ [some (SymbolTable.mk3 kind id none)]).deref self = some t := by
    rw [deref_append_lt _ hlt]; exact hself
  have hp0 : (h ++ [some (SymbolTable.mk3 kind id none)]).deref h.length =
      some (SymbolTable.mk3 kind id none) := deref_append_length _ _
  have hok0 : (SymbolTable.mk3 kind id none).id.get 0 = '_' ∨
      NoChildNamed (h ++ [some (SymbolTable.mk3 kind id none)]) (SymbolTable.mk3 kind id none).id
        t.children := by
    rcases hok with hs | hno
    · exact Or.inl hs
    · exact Or.inr (noChildNamed_mono hno
        (fun q n _ hq => by rw [deref_append_lt _ (deref_lt hq)]; exact hq))
  have := concat_success K tr log hself0 hp0 hok0
  simp only [hne, if_false] at this
  exact this

/-! ## The default definitions (C13) -/

theorem type_step0 (K : Ext) (tr : TreeHeap) (log : Log) :
    concatNew K tr (typeHeapUpTo K 0) log 0 KIND_STD "node" none =
      some (typeHeapUpTo K 1, log, 1) := by
  rw [concatNew_eval K tr (typeHeapUpTo K 0) log 0 KIND_STD "node" _ rfl (Or.inr
    (noChildNamed_nil _ _))]
  rfl

theorem type_step1 (K : Ext) (tr : TreeHeap) (log : Log) :
    concatNew K tr (typeHeapUpTo K 1) log 0 KIND_STD "int" none =
      some (typeHeapUpTo K 2, log, 2) := by
  rw [concatNew_eval K tr (typeHeapUpTo K 1) log 0 KIND_STD "int" _ rfl (Or.inr
    (by repeat (first | exact noChildNamed_nil _ _ | refine noChildNamed_intro rfl (by decide) ?_)))]
  rfl

theorem type_step2 (K : Ext) (tr : TreeHeap) (log : Log) :
    concatNew K tr (typeHeapUpTo K 2) log 0 KIND_STD "float" none =
      some (typeHeapUpTo K 3, log, 3) := by
  rw [concatNew_eval K tr (typeHeapUpTo K 2) log 0 KIND_STD "float" _ rfl (Or.inr
    (by repeat (first | exact noChildNamed_nil _ _ | refine noChildNamed_intro rfl (by decide) ?_)))]
  rfl

theorem type_step3 (K : Ext) (tr : TreeHeap) (log : Log) :
    concatNew K tr (typeHeapUpTo K 3) log 0 KIND_STD "bool" none =
      some (typeHeapUpTo K 4, log, 4) := by
  rw [concatNew_eval K tr (typeHeapUpTo K 3) log 0 KIND_STD "bool" _ rfl (Or.inr
    (by repeat (first | exact noChildNamed_nil _ _ | refine noChildNamed_intro rfl (by decide) ?_)))]
  rfl

theorem type_step4 (K : Ext) (tr : TreeHeap) (log : Log) :
    concatNew K tr (typeHeapUpTo K 4) log 0 KIND_STD "char" none =
      some (typeHeapUpTo K 5, log, 5) := by
  rw [concatNew_eval K tr (typeHeapUpTo K 4) log 0 KIND_STD "char" _ rfl (Or.inr
    (by repeat (first | exact noChildNamed_nil _ _ | refine noChildNamed_intro rfl (by decide) ?_)))]
  rfl

theorem type_step5 (K : Ext) (tr : TreeHeap) (log : Log) :
    concatNew K tr (typeHeapUpTo K 5) log 0 KIND_STD "string" none =
      some (typeHeapUpTo K 6, log, 6) := by
  rw [concatNew_eval K tr (typeHeapUpTo K 5) log 0 KIND_STD "string" _ rfl (Or.inr
    (by repeat (first | exact noChildNamed_nil _ _ | refine noChildNamed_intro rfl (by decide) ?_)))]
  rfl

theorem lib_step0 (K : Ext) (tr : TreeHeap) (log : Log) :
    concatNew K tr (libHeapUpTo K 0) log 7 KIND_STD "in" none =
      some (libHeapUpTo K 1, log, 8) := by
  rw [concatNew_eval K tr (libHeapUpTo K 0) log 7 KIND_STD "in" _ rfl (Or.inr
    (noChildNamed_nil _ _))]
  rfl

theorem lib_step1 (K : Ext) (tr : TreeHeap) (log : Log) :
    concatNew K tr (libHeapUpTo K 1) log 7 KIND_STD "out" none =
      some (libHeapUpTo K 2, log, 9) := by
  rw [concatNew_eval K tr (libHeapUpTo K 1) log 7 KIND_STD "out" _ rfl (Or.inr
    (by repeat (first | exact noChildNamed_nil _ _ | refine noChildNamed_intro rfl (by decide) ?_)))]
  rfl

theorem lib_step2 (K : Ext) (tr : TreeHeap) (log : Log) :
    concatNew K tr (libHeapUpTo K 2) log 7 KIND_STD "err" none =
      some (libHeapUpTo K 3, log, 10) := by
  rw [concatNew_eval K tr (libHeapUpTo K 2) log 7 KIND_STD "err" _ rfl (Or.inr
    (by repeat (first | exact noChildNamed_nil _ _ | refine noChildNamed_intro rfl (by decide) ?_)))]
  rfl

theorem lib_step3 (K : Ext) (tr : TreeHeap) (log : Log) :
    concatNew K tr (libHeapUpTo K 3) log 7 KIND_STD "rand" none =
      some (libHeapUpTo K 4, log, 11) := by
  rw [concatNew_eval K tr (libHeapUpTo K 3) log 7 KIND_STD "rand" _ rfl (Or.inr
    (by repeat (first | exact noChildNamed_nil _ _ | refine noChildNamed_intro rfl (by decide) ?_)))]
  rfl

theorem lib_step4 (K : Ext) (tr : TreeHeap) (log : Log) :
    concatNew K tr (libHeapUpTo K 4) log 7 KIND_STD "delay" none =
      some (libHeapUpTo K 5, log, 12) := by
  rw [concatNew_eval K tr (libHeapUpTo K 4) log 7 KIND_STD "delay" _ rfl (Or.inr
    (by repeat (first | exact noChildNamed_nil _ _ | refine noChildNamed_intro rfl (by decide) ?_)))]
  rfl

theorem lib_step5 (K : Ext) (tr : TreeHeap) (log : Log) :
    concatNew K tr (libHeapUpTo K 5) log 7 KIND_STD "stack" none =
      some (libHeapUpTo K 6, log, 13) := by
  rw [concatNew_eval K tr (libHeapUpTo K 5) log 7 KIND_STD "stack" _ rfl (Or.inr
    (by repeat (first | exact noChildNamed_nil _ _ | refine noChildNamed_intro rfl (by decide) ?_)))]
  rfl

theorem lib_step6 (K : Ext) (tr : TreeHeap) (log : Log) :
    concatNew K tr (libHeapUpTo K 6) log 7 KIND_STD "map" none =
      some (libHeapUpTo K 7, log, 14) := by
  rw [concatNew_eval K tr (libHeapUpTo K 6) log 7 KIND_STD "map" _ rfl (Or.inr
    (by repeat (first | exact noChildNamed_nil _ _ | refine noChildNamed_intro rfl (by decide) ?_)))]
  rfl

theorem lib_step7 (K : Ext) (tr : TreeHeap) (log : Log) :
    concatNew K tr (libHeapUpTo K 7) log 7 KIND_STD "filter" none =
      some (libHeapUpTo K 8, log, 15) := by
  rw [concatNew_eval K tr (libHeapUpTo K 7) log 7 KIND_STD "filter" _ rfl (Or.inr
    (by repeat (first | exact noChildNamed_nil _ _ | refine noChildNamed_intro rfl (by decide) ?_)))]
  rfl

theorem lib_step8 (K : Ext) (tr : TreeHeap) (log : Log) :
    concatNew K tr (libHeapUpTo K 8) log 7 KIND_STD "sort" none =
      some (libHeapUpTo K 9, log, 16) := by
  rw [concatNew_eval K tr (libHeapUpTo K 8) log 7 KIND_STD "sort" _ rfl (Or.inr
    (by repeat (first | exact noChildNamed_nil _ _ | refine noChildNamed_intro rfl (by decide) ?_)))]
  rfl

theorem lib_step9 (K : Ext) (tr : TreeHeap) (log : Log) :
    concatNew K tr (libHeapUpTo K 9) log 7 KIND_STD "gen" none =
      some (libHeapUpTo K 10, log, 17) := by
  rw [concatNew_eval K tr (libHeapUpTo K 9) log 7 KIND_STD "gen" _ rfl (Or.inr
    (by repeat (first | exact noChildNamed_nil _ _ | refine noChildNamed_intro rfl (by decide) ?_)))]
  rfl

theorem catStdNodes_empty (K : Ext) (tr : TreeHeap) (log : Log) :
    catStdNodes K tr (typeHeapUpTo K 0) log 0 = some (typeHeapUpTo K 6, log) := by
  simp only [catStdNodes, type_step0, type_step1, type_step2, type_step3, type_step4,
    type_step5, Option.bind_eq_bind, Option.some_bind]

theorem catStdLib_pre (K : Ext) (tr : TreeHeap) (log : Log) :
    catStdLib K tr (typeHeapUpTo K 6) log 0 =
      (concat K tr (libHeapUpTo K 10) log 0 (some 7)).bind (fun r => some (r.1, r.2.1)) := by
  have h0 : Heap.alloc (typeHeapUpTo K 6) (SymbolTable.mk3 KIND_STD K.STANDARD_LIBRARY_STRING none)
      = (libHeapUpTo K 0, 7) := rfl
  simp only [catStdLib, h0, lib_step0, lib_step1, lib_step2, lib_step3, lib_step4, lib_step5,
    lib_step6, lib_step7, lib_step8, lib_step9, Option.bind_eq_bind, Option.some_bind]

theorem noChildNamed_types (K : Ext) {id : String} (hid : id ∉ stdTypeNames) :
    NoChildNamed (libHeapUpTo K 10) id
      [some 1, some 2, some 3, some 4, some 5, some 6] := by
  simp only [stdTypeNames, List.mem_cons, List.mem_singleton, List.not_mem_nil, or_false,
    not_or] at hid
  obtain ⟨h1, h2, h3, h4, h5, h6⟩ := hid
  refine noChildNamed_intro rfl (Ne.symm h1) ?_
  refine noChildNamed_intro rfl (Ne.symm h2) ?_
  refine noChildNamed_intro rfl (Ne.symm h3) ?_
  refine noChildNamed_intro rfl (Ne.symm h4) ?_
  refine noChildNamed_intro rfl (Ne.symm h5) ?_
  refine noChildNamed_intro rfl (Ne.symm h6) ?_
  exact noChildNamed_nil _ _

/-- C13 (default definitions): when the reserved name of the standard library scope is none of
the six type names, `genDefaultDefs` on an empty heap returns, whatever the parse tree and the
log are, the heap `defaultHeapOf K` with root 0 and the log unchanged (no diagnostic): the root
has kind block, no parent, no definition site and the children node, int, float, bool, char,
string and the standard library scope in this order; that scope has the children in, out, err,
rand, delay, stack, map, filter, sort, gen in this order; the seventeen entries have kind
standard, no definition site and their container as parent, and the sixteen named symbols have
no children. -/
theorem C13_default_definitions (K : Ext) (tr : TreeHeap) (log : Log)
    (hstd : K.STANDARD_LIBRARY_STRING ∉ stdTypeNames) :
    genDefaultDefs K tr [] log = some (defaultHeapOf K, log, 0) := by
  have h0 : Heap.alloc ([] : Heap) (SymbolTable.mk3 KIND_BLOCK K.BLOCK_NODE_STRING none)
      = (typeHeapUpTo K 0, 0) := rfl
  have hc := @concat_success K tr (libHeapUpTo K 10) log 0 7 _ _ rfl rfl
    (Or.inr (noChildNamed_types K hstd))
  simp only [genDefaultDefs, h0, catStdNodes_empty, catStdLib_pre, hc, Option.bind_eq_bind,
    Option.some_bind]
  rfl

/-- C13, witness: with the reserved name `std` the default definitions are the eighteen cells
of `defaultHeapOf extW`. -/
theorem C13_default_definitions_witness :
    extW.STANDARD_LIBRARY_STRING ∉ stdTypeNames ∧
      genDefaultDefs extW [] [] [] = some (defaultHeapOf extW, [], 0) :=
  ⟨by decide, C13_default_definitions extW [] [] (by decide)⟩

/-! ## Declarations (C19) -/

theorem getElem?_set_env {tr : TreeHeap} {pm q : Nat} {n m : Tree} {e : Option Ptr}
    (hn : tr[pm]? = some n) (hm : tr[q]? = some m) :
    ∃ m1, (tr.set pm { n with env := e })[q]? = some m1 ∧ m1.t = m.t ∧ m1.next = m.next ∧
      m1.child = m.child ∧ m1.back = m.back ∧ m1.type = m.type := by
  have hlt : pm < tr.length := by
    rcases Nat.lt_or_ge pm tr.length with h | h
    · exact h
    · rw [List.getElem?_eq_none h] at hn; cases hn
  by_cases hq : pm = q
  · subst hq
    obtain rfl : n = m := Option.some.inj (hn.symm.trans hm)
    exact ⟨{ n with env := e }, by simp [List.getElem?_set, hlt], rfl, rfl, rfl, rfl, rfl⟩
  · exact ⟨m, by simp [List.getElem?_set, hq, hm], rfl, rfl, rfl, rfl, rfl⟩

/-- C19 (declaration classification): let `pm` be a declaration node visited with active
scope `st`, `cn` its first child and `c2n` the next sibling of that child.  The scope is
recorded on `pm`, and then the token of `c2n` decides: for `=` a symbol of kind static
declaration and for the flow-through arrow one of kind through declaration, each with the text
of `cn` as id; for an identifier a symbol of kind import with the reserved import id, whose
address is also appended to the end of the import worklist.  In each of the three cases the
symbol has the declaration node as definition site, is concatenated into `st`, and the walk
goes on at the child of the declaration with the new symbol as active scope
(`declareAndDescend`).  For any other token the walk returns at once: no symbol is made and
the heap, the log and the three worklists are as before. -/
theorem C19_declaration_classification (K : Ext) (f pm st c c2 : Nat) (netsHandled : Bool)
    (s0 : Decor) (n cn c2n : Tree)
    (hn : s0.tr[pm]? = some n) (hdecl : n.t.tokenType = TokenType.Declaration)
    (hc : n.child = some c) (hcn : s0.tr[c]? = some cn) (hc2 : cn.next = some c2)
    (hc2n : s0.tr[c2]? = some c2n) :
    (c2n.t.tokenType = TokenType.EQUALS →
      extractNodes K (f + 1) (some pm) st netsHandled s0 =
        declareAndDescend K f pm st netsHandled (s0.logEnv pm n st) n.child
          KIND_STATIC_DECL cn.t.s s0.importList) ∧
    (c2n.t.tokenType = TokenType.ERARROW →
      extractNodes K (f + 1) (some pm) st netsHandled s0 =
        declareAndDescend K f pm st netsHandled (s0.logEnv pm n st) n.child
          KIND_THROUGH_DECL cn.t.s s0.importList) ∧
    (c2n.t.tokenType = TokenType.Identifier →
      extractNodes K (f + 1) (some pm) st netsHandled s0 =
        declareAndDescend K f pm st netsHandled (s0.logEnv pm n st) n.child
          KIND_IMPORT K.IMPORT_DECL_STRING (s0.importList ++ [s0.st.length])) ∧
    (c2n.t.tokenType ≠ TokenType.EQUALS → c2n.t.tokenType ≠ TokenType.ERARROW →
      c2n.t.tokenType ≠ TokenType.Identifier →
      extractNodes K (f + 1) (some pm) st netsHandled s0 = some (s0.logEnv pm n st)) := by
  obtain ⟨nt, nnext, nback, nchild, nenv, ntype⟩ := n
  simp only at hc hdecl
  subst hc
  obtain ⟨cn1, hcn1, hcnt, hcnn, -⟩ := getElem?_set_env (e := some st) hn hcn
  obtain ⟨c2n1, hc2n1, hc2t, -⟩ := getElem?_set_env (e := some st) hn hc2n
  refine ⟨?_, ?_, ?_, ?_⟩
  · intro h
    simp [extractNodes, hn, hdecl, hcn1, hcnn, hc2, hc2n1, hc2t, hcnt, h,
      declareAndDescend, Decor.logEnv, Heap.alloc]
  · intro h
    simp [extractNodes, hn, hdecl, hcn1, hcnn, hc2, hc2n1, hc2t, hcnt, h,
      declareAndDescend, Decor.logEnv, Heap.alloc]
  · intro h
    simp [extractNodes, hn, hdecl, hcn1, hcnn, hc2, hc2n1, hc2t, hcnt, h,
      declareAndDescend, Decor.logEnv, Heap.alloc]
  · intro h1 h2 h3
    simp [extractNodes, hn, hdecl, hcn1, hcnn, hc2, hc2n1, hc2t, hcnt, h1, h2, h3,
      Decor.logEnv]

/-- Witness of C19: the declaration `a = 1` (node 3 of `trDup`) visited with the root of the
default definitions as scope makes the static declaration `a` at cell 18, a child of the
root defined at node 3, records the root on the declaration and the new symbol on its two
tokens, and leaves the import worklist empty; the import declaration of `trImport` makes
an import symbol at cell 18 and appends it to the import worklist. -/
theorem C19_declaration_classification_witness :
    (extractNodes extW 6 (some 3) 0 false
        { tr := trDup, st := defaultHeapOf extW, log := [], importList := [],
          instanceList := [], netsList := [] }).map
      (fun d => (d.st.deref 18, d.importList,
        (d.tr[3]?).map (fun n => n.env), (d.tr[5]?).map (fun n => n.env))) =
      some (cellAt KIND_STATIC_DECL "a" 3 (some 0) [], [], some (some 0), some (some 18)) ∧
    (extractNodes extW 6 (some 0) 0 false
        { tr := trImport "a.b" "a", st := defaultHeapOf extW, log := [], importList := [],
          instanceList := [], netsList := [] }).map
      (fun d => (d.st.deref 18, d.importList, d.instanceList, d.log)) =
      some (cellAt KIND_IMPORT "_import" 0 (some 0) [], [18], [], []) := by
  refine ⟨?_, ?_⟩
  · rw [(C19_declaration_classification extW 5 3 0 4 5 false
      { tr := trDup, st := defaultHeapOf extW, log := [], importList := [],
        instanceList := [], netsList := [] } _ _ _ rfl rfl rfl rfl rfl rfl).1 rfl]
    decide
  · rw [(C19_declaration_classification extW 5 0 0 1 2 false
      { tr := trImport "a.b" "a", st := defaultHeapOf extW, log := [], importList := [],
        instanceList := [], netsList := [] } _ _ _ rfl rfl rfl rfl rfl rfl).2.2.1 rfl]
    decide

/-! ## Term shapes and `getTermType` -/

theorem childAt_some {tr : TreeHeap} {p c : Nat} (h : childAt tr p = some c) :
    ∃ n, tr[p]? = some n ∧ n.child = some c := by
  simpa [childAt, Option.bind_eq_some] using h

theorem nextAt_some {tr : TreeHeap} {p c : Nat} (h : nextAt tr p = some c) :
    ∃ n, tr[p]? = some n ∧ n.next = some c := by
  simpa [nextAt, Option.bind_eq_some] using h

theorem childOfType_some {tr : TreeHeap} {p c : Nat} {ty : TokenType}
    (h : childOfType tr p ty = some c) :
    ∃ n m, tr[p]? = some n ∧ n.child = some c ∧ tr[c]? = some m ∧ m.t.tokenType = ty := by
  simp only [childOfType, Option.bind_eq_some] at h
  obtain ⟨c1, hc1, hif⟩ := h
  split_ifs at hif with htok
  obtain rfl : c1 = c := Option.some.inj hif
  obtain ⟨n, hn, hnc⟩ := childAt_some hc1
  simp only [tokAt, Option.map_eq_some'] at htok
  obtain ⟨m, hm, hmt⟩ := htok
  exact ⟨n, m, hn, hnc, hm, hmt⟩

theorem getTermType_spine {tr : TreeHeap} {term tc5p : Nat} (ty : TypeHeap) (inType : TypePtr)
    (h : typedStaticTermOf tr term = some tc5p) :
    ∃ tc5, tr[tc5p]? = some tc5 ∧ tc5.t.tokenType = TokenType.TypedStaticTerm ∧
      getTermType tr ty inType term = getStaticTermType tr ty inType tc5 := by
  simp only [typedStaticTermOf, Option.bind_eq_some] at h
  obtain ⟨tc1p, h1, tc2p, h2, tc3p, h3, tc4p, h4, h5⟩ := h
  obtain ⟨tn, htn, htnc⟩ := childAt_some h1
  obtain ⟨tc1, tc2, htc1, htc1c, htc2, htc2t⟩ := childOfType_some h2
  obtain ⟨tc2a, tc3, htc2a, htc2c, htc3, htc3t⟩ := childOfType_some h3
  obtain ⟨tc3a, tc4, htc3a, htc3c, htc4, htc4t⟩ := childOfType_some h4
  obtain ⟨tc4a, tc5, htc4a, htc4c, htc5, htc5t⟩ := childOfType_some h5
  obtain rfl : tc2 = tc2a := Option.some.inj (htc2.symm.trans htc2a)
  obtain rfl : tc3 = tc3a := Option.some.inj (htc3.symm.trans htc3a)
  obtain rfl : tc4 = tc4a := Option.some.inj (htc4.symm.trans htc4a)
  refine ⟨tc5, htc5, htc5t, ?_⟩
  simp [getTermType, htn, htnc, htc1, htc1c, htc2, htc2t, htc2c, htc3, htc3t, htc3c, htc4,
    htc4t, htc4c, htc5]

theorem getTermType_node {tr : TreeHeap} {term tc5p tc6p tc7p : Nat} (ty : TypeHeap)
    (inType : TypePtr) {k : TokenType}
    (h5 : typedStaticTermOf tr term = some tc5p)
    (h6 : childOfType tr tc5p TokenType.Node = some tc6p)
    (h7 : childOfType tr tc6p k = some tc7p) :
    ∃ tc7, tr[tc7p]? = some tc7 ∧ tc7.t.tokenType = k ∧
      getTermType tr ty inType term = (getNodeType tr ty tc7).map (fun r => (r.1, tr, r.2)) := by
  obtain ⟨tc5, htc5, htc5t, hg⟩ := getTermType_spine ty inType h5
  obtain ⟨tc5a, tc6, htc5a, htc5c, htc6, htc6t⟩ := childOfType_some h6
  obtain ⟨tc6a, tc7, htc6a, htc6c, htc7, htc7t⟩ := childOfType_some h7
  obtain rfl : tc5 = tc5a := Option.some.inj (htc5.symm.trans htc5a)
  obtain rfl : tc6 = tc6a := Option.some.inj (htc6.symm.trans htc6a)
  refine ⟨tc7, htc7, htc7t, ?_⟩
  rw [hg]
  simp [getStaticTermType, htc5t, htc5c, htc6, htc6t, htc6c, htc7]
  cases getNodeType tr ty tc7 <;> rfl

theorem getTermType_literal {tr : TreeHeap} {term : Nat} {lit : TokenType} {k : Int}
    (ty : TypeHeap) (inType : TypePtr) (h : IsLiteralTerm tr term lit)
    (hk : (lit, k) ∈ [(TokenType.INUM, STD_INT), (TokenType.FNUM, STD_FLOAT),
      (TokenType.CQUOTE, STD_CHAR), (TokenType.SQUOTE, STD_STRING)]) :
    getTermType tr ty inType term =
      some (TypePtr.cell ty.length, tr,
        ty ++ [{ kind := k, base := none, suffix := SUFFIX_NONE, next := TypePtr.null }]) := by
  obtain ⟨tc5p, tc6p, tc7p, tc8p, h5, h6, h7, h8⟩ := h
  obtain ⟨tc7, htc7, htc7t, hg⟩ := getTermType_node ty inType h5 h6 h7
  obtain ⟨tc7a, tc8, htc7a, htc7c, htc8, htc8t⟩ := childOfType_some h8
  obtain rfl : tc7 = tc7a := Option.some.inj (htc7.symm.trans htc7a)
  rw [hg]
  simp only [List.mem_cons, Prod.mk.injEq, List.mem_singleton, List.not_mem_nil,
    or_false] at hk
  rcases hk with ⟨rfl, rfl⟩ | ⟨rfl, rfl⟩ | ⟨rfl, rfl⟩ | ⟨rfl, rfl⟩ <;>
    simp [getNodeType, htc7t, htc7c, htc8, htc8t, newType, SemType.mk1]

theorem getTermType_operator {tr : TreeHeap} {term : Nat} {cls : TokenType} {k : Int}
    {opTok : Option TreePtr}
    (ty : TypeHeap) (inType : TypePtr) (h : IsOperatorTerm tr term cls opTok)
    (hk : (cls, k) ∈ [(TokenType.PrefixOp, STD_PREFIX_OP), (TokenType.InfixOp, STD_INFIX_OP),
      (TokenType.MultiOp, STD_MULTI_OP)]) :
    getTermType tr ty inType term =
      some (TypePtr.cell ty.length, tr,
        ty ++ [{ kind := k, base := opTok, suffix := SUFFIX_NONE, next := TypePtr.null }]) := by
  obtain ⟨tc5p, tc6p, tc7p, tc8p, h5, h6, h7, h8, h9⟩ := h
  obtain ⟨tc7, htc7, htc7t, hg⟩ := getTermType_node ty inType h5 h6 h7
  obtain ⟨tc7a, tc8, htc7a, htc7c, htc8, htc8t⟩ := childOfType_some h8
  obtain rfl : tc7 = tc7a := Option.some.inj (htc7.symm.trans htc7a)
  have h9a : tc8.child = opTok := by simpa [childAt, htc8] using h9
  rw [hg]
  simp only [List.mem_cons, Prod.mk.injEq, List.mem_singleton, List.not_mem_nil,
    or_false] at hk
  rcases hk with ⟨rfl, rfl⟩ | ⟨rfl, rfl⟩ | ⟨rfl, rfl⟩ <;>
    simp [getNodeType, htc7t, htc7c, htc8, htc8t, newType, SemType.mk2, h9a]

theorem getTermType_bracket {tr : TreeHeap} {term tc6p : Nat} (ty : TypeHeap) (inType : TypePtr)
    (h : IsBracketTerm tr term tc6p) :
    getTermType tr ty inType term = some (TypePtr.marker, setType tr tc6p TypePtr.marker, ty) := by
  obtain ⟨tc5p, h5, h6⟩ := h
  obtain ⟨tc5, htc5, htc5t, hg⟩ := getTermType_spine ty inType h5
  obtain ⟨tc5a, tc6, htc5a, htc5c, htc6, htc6t⟩ := childOfType_some h6
  obtain rfl : tc5 = tc5a := Option.some.inj (htc5.symm.trans htc5a)
  rw [hg]
  simp [getStaticTermType, htc5t, htc5c, htc6, htc6t, getExpType, setType]

/-! ## `getTermType` never returns null; attaching a type keeps the shapes -/

theorem getNodeType_ne_null {tr : TreeHeap} {ty : TypeHeap} {tc7 : Tree}
    {r : TypePtr × TypeHeap} (h : getNodeType tr ty tc7 = some r) : r.1 ≠ TypePtr.null := by
  unfold getNodeType at h
  split_ifs at h
  all_goals first
    | (obtain rfl := Option.some.inj h; exact fun hh => TypePtr.noConfusion hh)
    | (cases hc : tc7.child with
       | none => rw [hc] at h; cases h
       | some tc8p =>
         rw [hc] at h
         cases h8 : tr[tc8p]? with
         | none => simp [h8] at h
         | some tc8 =>
           simp only [h8, Option.bind_eq_bind, Option.some_bind, newType] at h
           split_ifs at h
           all_goals (obtain rfl := Option.some.inj h; exact fun hh => TypePtr.noConfusion hh))

theorem getStaticTermType_ne_null {tr : TreeHeap} {ty : TypeHeap} {inType : TypePtr}
    {tc5 : Tree} {r : TypePtr × TreeHeap × TypeHeap}
    (h : getStaticTermType tr ty inType tc5 = some r) : r.1 ≠ TypePtr.null := by
  unfold getStaticTermType at h
  split_ifs at h
  · cases hc : tc5.child with
    | none => rw [hc] at h; cases h
    | some tc6p =>
      rw [hc] at h
      cases h6 : tr[tc6p]? with
      | none => simp [h6] at h
      | some tc6 =>
        simp only [h6, Option.bind_eq_bind, Option.some_bind, getExpType] at h
        split_ifs at h
        · cases hc7 : tc6.child with
          | none => rw [hc7] at h; cases h
          | some tc7p =>
            rw [hc7] at h
            cases h7 : tr[tc7p]? with
            | none => simp [h7] at h
            | some tc7 =>
              simp only [h7, Option.some_bind] at h
              cases hg : getNodeType tr ty tc7 with
              | none => simp [hg] at h
              | some r7 =>
                simp only [hg, Option.some_bind] at h
                obtain rfl := Option.some.inj h
                exact getNodeType_ne_null hg
        · obtain rfl := Option.some.inj h; exact fun hh => TypePtr.noConfusion hh
        · obtain rfl := Option.some.inj h; exact fun hh => TypePtr.noConfusion hh
  all_goals (obtain rfl := Option.some.inj h; exact fun hh => TypePtr.noConfusion hh)

theorem getTermType_ne_null {tr : TreeHeap} {ty : TypeHeap} {inType : TypePtr} {term : Nat}
    {r : TypePtr × TreeHeap × TypeHeap}
    (h : getTermType tr ty inType term = some r) : r.1 ≠ TypePtr.null := by
  have fin : ∀ {tr1 : TreeHeap} {ty1 : TypeHeap},
      some (TypePtr.marker, tr1, ty1) = some r → r.1 ≠ TypePtr.null := by
    intro tr1 ty1 hh
    obtain rfl := Option.some.inj hh
    exact fun hh => TypePtr.noConfusion hh
  unfold getTermType at h
  simp only [Option.bind_eq_bind] at h
  cases h0 : tr[term]? with
  | none => rw [h0] at h; cases h
  | some tn =>
  rw [h0, Option.some_bind] at h
  cases hc1 : tn.child with
  | none => rw [hc1] at h; cases h
  | some tc1p =>
  rw [hc1, Option.some_bind] at h
  cases h1 : tr[tc1p]? with
  | none => rw [h1] at h; cases h
  | some tc1 =>
  rw [h1, Option.some_bind] at h
  cases hc2 : tc1.child with
  | none => rw [hc2] at h; cases h
  | some tc2p =>
  rw [hc2, Option.some_bind] at h
  cases h2 : tr[tc2p]? with
  | none => rw [h2] at h; cases h
  | some tc2 =>
  rw [h2, Option.some_bind] at h
  by_cases hkSimpleCondTerm : tc2.t.tokenType = TokenType.SimpleCondTerm
  · rw [if_pos hkSimpleCondTerm] at h; exact fin h
  rw [if_neg hkSimpleCondTerm] at h
  by_cases hkOpenCondTerm : tc2.t.tokenType = TokenType.OpenCondTerm
  · rw [if_pos hkOpenCondTerm] at h; exact fin h
  rw [if_neg hkOpenCondTerm] at h
  by_cases hkSimpleTerm : tc2.t.tokenType = TokenType.SimpleTerm
  swap
  · rw [if_neg hkSimpleTerm] at h
    split_ifs at h <;> exact fin h
  rw [if_pos hkSimpleTerm] at h
  cases hc3 : tc2.child with
  | none => rw [hc3] at h; cases h
  | some tc3p =>
  rw [hc3, Option.some_bind] at h
  cases h3 : tr[tc3p]? with
  | none => rw [h3] at h; cases h
  | some tc3 =>
  rw [h3, Option.some_bind] at h
  by_cases hkDynamicTerm : tc3.t.tokenType = TokenType.DynamicTerm
  swap
  · rw [if_neg hkDynamicTerm] at h
    split_ifs at h <;> exact fin h
  rw [if_pos hkDynamicTerm] at h
  cases hc4 : tc3.child with
  | none => rw [hc4] at h; cases h
  | some tc4p =>
  rw [hc4, Option.some_bind] at h
  cases h4 : tr[tc4p]? with
  | none => rw [h4] at h; cases h
  | some tc4 =>
  rw [h4, Option.some_bind] at h
  by_cases hkStaticTerm : tc4.t.tokenType = TokenType.StaticTerm
  swap
  · rw [if_neg hkStaticTerm] at h
    split_ifs at h <;> exact fin h
  rw [if_pos hkStaticTerm] at h
  cases hc5 : tc4.child with
  | none => rw [hc5] at h; cases h
  | some tc5p =>
  rw [hc5, Option.some_bind] at h
  cases h5 : tr[tc5p]? with
  | none => rw [h5] at h; cases h
  | some tc5 =>
  rw [h5, Option.some_bind] at h
  exact getStaticTermType_ne_null h

theorem length_setType (tr : TreeHeap) (p : Nat) (x : TypePtr) :
    (setType tr p x).length = tr.length := by
  unfold setType
  split <;> simp

theorem getElem?_setType (tr : TreeHeap) (p q : Nat) (x : TypePtr) :
    (setType tr p x)[q]? =
      (tr[q]?).map (fun n => if p = q then { n with type := x } else n) := by
  unfold setType
  split
  · rename_i n hn
    by_cases hpq : p = q
    · subst hpq
      have hlt : p < tr.length := by
        rcases Nat.lt_or_ge p tr.length with h | h
        · exact h
        · rw [List.getElem?_eq_none h] at hn; cases hn
      simp [List.getElem?_set, hlt, hn]
    · simp [List.getElem?_set, hpq]
  · rename_i hn
    by_cases hpq : p = q
    · subst hpq
      simp [hn]
    · simp [hpq]

theorem tokAt_setType (tr : TreeHeap) (p q : Nat) (x : TypePtr) :
    tokAt (setType tr p x) q = tokAt tr q := by
  simp only [tokAt, getElem?_setType]
  cases tr[q]? with
  | none => rfl
  | some n => by_cases h : p = q <;> simp [h]

theorem childAt_setType (tr : TreeHeap) (p q : Nat) (x : TypePtr) :
    childAt (setType tr p x) q = childAt tr q := by
  simp only [childAt, getElem?_setType]
  cases tr[q]? with
  | none => rfl
  | some n => by_cases h : p = q <;> simp [h]

theorem nextAt_setType (tr : TreeHeap) (p q : Nat) (x : TypePtr) :
    nextAt (setType tr p x) q = nextAt tr q := by
  simp only [nextAt, getElem?_setType]
  cases tr[q]? with
  | none => rfl
  | some n => by_cases h : p = q <;> simp [h]

theorem childOfType_setType (tr : TreeHeap) (p q : Nat) (x : TypePtr) (k : TokenType) :
    childOfType (setType tr p x) q k = childOfType tr q k := by
  simp only [childOfType, childAt_setType, tokAt_setType]

theorem typedStaticTermOf_setType (tr : TreeHeap) (p q : Nat) (x : TypePtr) :
    typedStaticTermOf (setType tr p x) q = typedStaticTermOf tr q := by
  simp only [typedStaticTermOf, childOfType_setType, childAt_setType]

theorem isLiteralTerm_setType {tr : TreeHeap} {term : Nat} {lit : TokenType} (p : Nat)
    (x : TypePtr) (h : IsLiteralTerm tr term lit) : IsLiteralTerm (setType tr p x) term lit := by
  simpa only [IsLiteralTerm, typedStaticTermOf_setType, childOfType_setType] using h

theorem isBracketTerm_setType {tr : TreeHeap} {term tc6 : Nat} (p : Nat)
    (x : TypePtr) (h : IsBracketTerm tr term tc6) : IsBracketTerm (setType tr p x) term tc6 := by
  simpa only [IsBracketTerm, typedStaticTermOf_setType, childOfType_setType] using h

theorem typeAt_setType_same {tr : TreeHeap} {p : Nat} (x : TypePtr) (h : p < tr.length) :
    typeAt (setType tr p x) p = some x := by
  simp [typeAt, getElem?_setType, List.getElem?_eq_getElem h]

theorem typeAt_setType_ne {tr : TreeHeap} {p q : Nat} (x : TypePtr) (h : p ≠ q) :
    typeAt (setType tr p x) q = typeAt tr q := by
  simp only [typeAt, getElem?_setType, h, if_false]
  cases tr[q]? <;> rfl

/-! ## The chain loop -/

/-- One turn of the loop of `traceChain` for a term whose `next` node is present: the
branch that reports is never taken. -/
theorem traceChain_step (f : Nat) (inType : TypePtr) (cur : Nat) (s : Tracer)
    {out : TypePtr} {tr1 : TreeHeap} {ty1 : TypeHeap} {nx : Nat} {nxn : Tree}
    (hg : getTermType s.tr s.types inType cur = some (out, tr1, ty1))
    (hnx : nextAt tr1 cur = some nx) (hnxn : tr1[nx]? = some nxn) :
    traceChain (f + 1) inType (some cur) s =
      traceChain f inType nxn.child
        { tr := setType tr1 cur out, types := ty1, log := s.log,
          calls := s.calls ++ [(cur, inType)] } := by
  have hne : out ≠ TypePtr.null := getTermType_ne_null hg
  obtain ⟨cn, hcn, hcnn⟩ := nextAt_some hnx
  obtain ⟨ct, cnext, cback, cchild, cenv, ctype⟩ := cn
  simp only at hcnn
  subst hcnn
  have hset : tr1.set cur ⟨ct, some nx, cback, cchild, cenv, out⟩ = setType tr1 cur out := by
    simp [setType, hcn]
  have hnx2 : (setType tr1 cur out)[nx]? =
      some (if cur = nx then { nxn with type := out } else nxn) := by
    rw [getElem?_setType, hnxn]; rfl
  have hch : (if cur = nx then { nxn with type := out } else nxn).child = nxn.child := by
    split <;> rfl
  rw [traceChain]
  simp only [hg, Option.bind_eq_bind, Option.some_bind, hcn, hne, ne_eq, not_false_eq_true,
    if_true, hset, hnx2, hch]

theorem traceChain_log : ∀ (f : Nat) (inType : TypePtr) (cur : Option TreePtr) (s s1 : Tracer),
    traceChain f inType cur s = some s1 → s1.log = s.log := by
  intro f
  induction f with
  | zero =>
    intro inType cur s s1 h
    cases cur with
    | none => rw [traceChain] at h; obtain rfl := Option.some.inj h; rfl
    | some c => rw [traceChain] at h; cases h
  | succ f ih =>
    intro inType cur s s1 h
    cases cur with
    | none => rw [traceChain] at h; obtain rfl := Option.some.inj h; rfl
    | some c =>
      rw [traceChain] at h
      simp only [Option.bind_eq_bind] at h
      cases hg : getTermType s.tr s.types inType c with
      | none => rw [hg] at h; cases h
      | some r =>
        rw [hg, Option.some_bind] at h
        have hne : r.1 ≠ TypePtr.null := getTermType_ne_null hg
        cases hcn : r.2.1[c]? with
        | none => rw [hcn] at h; cases h
        | some cn =>
          rw [hcn, Option.some_bind, if_pos hne] at h
          obtain ⟨ct, cnext, cback, cchild, cenv, ctype⟩ := cn
          dsimp only at h
          cases cnext with
          | none => cases h
          | some nx =>
            rw [Option.some_bind] at h
            cases hnxn : (r.2.1.set c ⟨ct, some nx, cback, cchild, cenv, r.1⟩)[nx]? with
            | none => rw [hnxn] at h; cases h
            | some nxn =>
              rw [hnxn, Option.some_bind] at h
              exact (ih _ _ _ _ h).trans rfl

theorem traceTypes_log (fuel : Nat) : ∀ (l : List TreePtr) (s s1 : Tracer),
    traceTypes fuel l s = some s1 → s1.log = s.log := by
  intro l
  induction l with
  | nil => intro s s1 h; rw [traceTypes] at h; obtain rfl := Option.some.inj h; rfl
  | cons net rest ih =>
    intro s s1 h
    rw [traceTypes] at h
    simp only [Option.bind_eq_bind, newType] at h
    cases hn : s.tr[net]? with
    | none => rw [hn] at h; cases h
    | some nn =>
      rw [hn, Option.some_bind] at h
      cases hc : traceChain fuel (TypePtr.cell s.types.length) nn.child
          { s with types := s.types ++ [SemType.mk1 STD_NULL] } with
      | none => rw [hc] at h; cases h
      | some s2 =>
        rw [hc, Option.some_bind] at h
        rw [ih _ _ h, traceChain_log _ _ _ _ _ hc]

/-! ## Literal and operator typing (C15) -/

/-- C15 (literal and operator typing): (1) for every input type, a term whose shape is a
primitive literal gets a freshly allocated type with no base, suffix none and no
continuation, of kind `STD_INT` for an integer literal, `STD_FLOAT` for a floating literal,
`STD_CHAR` for a character literal and `STD_STRING` for a string literal, and the parse tree
is not touched; (2) a primitive operator term gets a fresh type of kind `STD_PREFIX_OP`,
`STD_INFIX_OP` or `STD_MULTI_OP` according to the operator class, with the operator token as
base; (3) tracing a worklist made of one chain that consists of a single integer literal
term allocates the null type and the type of kind `STD_INT`, attaches the latter to the
term, calls `getTermType` once, for that term with the null type, and leaves the log as it
was. -/
theorem C15_literal_and_operator_typing :
    (∀ (tr : TreeHeap) (ty : TypeHeap) (inType : TypePtr) (term : Nat) (lit : TokenType)
        (kind : Int), IsLiteralTerm tr term lit →
      (lit, kind) ∈ [(TokenType.INUM, STD_INT), (TokenType.FNUM, STD_FLOAT),
        (TokenType.CQUOTE, STD_CHAR), (TokenType.SQUOTE, STD_STRING)] →
      getTermType tr ty inType term =
        some (TypePtr.cell ty.length, tr,
          ty ++ [{ kind := kind, base := none, suffix := SUFFIX_NONE,
                   next := TypePtr.null }])) ∧
    (∀ (tr : TreeHeap) (ty : TypeHeap) (inType : TypePtr) (term : Nat) (cls : TokenType)
        (kind : Int) (opTok : Option TreePtr), IsOperatorTerm tr term cls opTok →
      (cls, kind) ∈ [(TokenType.PrefixOp, STD_PREFIX_OP), (TokenType.InfixOp, STD_INFIX_OP),
        (TokenType.MultiOp, STD_MULTI_OP)] →
      getTermType tr ty inType term =
        some (TypePtr.cell ty.length, tr,
          ty ++ [{ kind := kind, base := opTok, suffix := SUFFIX_NONE,
                   next := TypePtr.null }])) ∧
    (∀ (fuel net term : Nat) (s : Tracer) (nn : Tree), s.tr[net]? = some nn →
      nn.child = some term → IsLiteralTerm s.tr term TokenType.INUM →
      ChainEndsAfter s.tr term →
      traceTypes (fuel + 1) [net] s =
        some { tr := setType s.tr term (TypePtr.cell (s.types.length + 1)),
               types := s.types ++ [SemType.mk1 STD_NULL,
                 { kind := STD_INT, base := none, suffix := SUFFIX_NONE,
                   next := TypePtr.null }],
               log := s.log,
               calls := s.calls ++ [(term, TypePtr.cell s.types.length)] }) := by
  refine ⟨fun tr ty inType term lit kind h hk => getTermType_literal ty inType h hk,
    fun tr ty inType term cls kind opTok h hk => getTermType_operator ty inType h hk, ?_⟩
  intro fuel net term s nn hn hc hlit hend
  obtain ⟨nx, nxn, hnx, hnxn, hnone⟩ := hend
  have hg := getTermType_literal (k := STD_INT) (s.types ++ [SemType.mk1 STD_NULL])
    (TypePtr.cell s.types.length) hlit (by simp)
  have hstep := traceChain_step fuel (TypePtr.cell s.types.length) term
    { s with types := s.types ++ [SemType.mk1 STD_NULL] } hg hnx hnxn
  rw [traceTypes]
  simp only [Option.bind_eq_bind, newType, hn, Option.some_bind, hc, hstep, hnone]
  rw [traceChain]
  simp [traceTypes]

/-- Witness of C15 on the chain `5` (`trFive`, chain node 0, term 1): the term is typed
with a scalar type of kind `STD_INT`, and tracing the chain gives one call, the types null
and `STD_INT`, and an empty log. -/
theorem C15_literal_and_operator_typing_witness :
    IsLiteralTerm trFive 1 TokenType.INUM ∧
    getTermType trFive [] TypePtr.null 1 =
      some (TypePtr.cell 0, trFive,
        [{ kind := STD_INT, base := none, suffix := SUFFIX_NONE, next := TypePtr.null }]) ∧
    traceTypes 1 [0] { tr := trFive, types := [], log := [], calls := [] } =
      some { tr := setType trFive 1 (TypePtr.cell 1),
             types := [SemType.mk1 STD_NULL,
               { kind := STD_INT, base := none, suffix := SUFFIX_NONE, next := TypePtr.null }],
             log := [],
             calls := [(1, TypePtr.cell 0)] } := by
  have hlit : IsLiteralTerm trFive 1 TokenType.INUM :=
    ⟨6, 7, 8, 9, by decide, by decide, by decide, by decide⟩
  exact ⟨hlit,
    C15_literal_and_operator_typing.1 trFive [] TypePtr.null 1 TokenType.INUM STD_INT hlit
      (by decide),
    C15_literal_and_operator_typing.2.2 0 0 1
      { tr := trFive, types := [], log := [], calls := [] } _ rfl rfl hlit
      ⟨10, _, by decide, rfl, rfl⟩⟩

/-! ## Type tracing never reports (C14) -/

theorem getElem?_setType_some {tr : TreeHeap} {q : Nat} {m : Tree} (p : Nat) (x : TypePtr)
    (h : tr[q]? = some m) :
    ∃ m1, (setType tr p x)[q]? = some m1 ∧ m1.child = m.child ∧ m1.next = m.next := by
  rw [getElem?_setType, h]
  by_cases hpq : p = q
  · exact ⟨{ m with type := x }, by simp [hpq], rfl, rfl⟩
  · exact ⟨m, by simp [hpq], rfl, rfl⟩

/-- C14 as amended (type tracing reports nothing): (1) `getTermType` never returns the null
pointer; (2) hence no run of `traceTypes`, over any worklist, adds a line to the log; (3) in
a chain whose first term `t1` is an integer literal and whose second term `t2` is a
bracketed expression with bracket token `tc6`, the first two turns of the loop attach a
fresh type of kind `STD_INT` to `t1` and the placeholder pointer that the stub `getExpType`
returns to `tc6` and to `t2`, report nothing, and the loop goes on with the term after `t2`,
still with the input type it started with; (4) the chains after the first one of a worklist
are traced from the state the first one leaves. -/
theorem C14_tracing_reports_nothing :
    (∀ (tr : TreeHeap) (ty : TypeHeap) (inType : TypePtr) (term : Nat)
        (r : TypePtr × TreeHeap × TypeHeap),
      getTermType tr ty inType term = some r → r.1 ≠ TypePtr.null) ∧
    (∀ (fuel : Nat) (l : List TreePtr) (s s1 : Tracer),
      traceTypes fuel l s = some s1 → s1.log = s.log) ∧
    (∀ (f t1 t2 tc6 nx2 : Nat) (inType : TypePtr) (s : Tracer) (nxn2 : Tree),
      IsLiteralTerm s.tr t1 TokenType.INUM → NextTermIs s.tr t1 t2 →
      IsBracketTerm s.tr t2 tc6 → nextAt s.tr t2 = some nx2 → s.tr[nx2]? = some nxn2 →
      traceChain (f + 2) inType (some t1) s =
        traceChain f inType nxn2.child
          { tr := setType (setType (setType s.tr t1 (TypePtr.cell s.types.length)) tc6
                    TypePtr.marker) t2 TypePtr.marker,
            types := s.types ++ [SemType.mk1 STD_INT],
            log := s.log,
            calls := s.calls ++ [(t1, inType), (t2, inType)] }) ∧
    (∀ (fuel net : Nat) (rest : List TreePtr) (s : Tracer) (nn : Tree), s.tr[net]? = some nn →
      traceTypes fuel (net :: rest) s =
        (traceChain fuel (TypePtr.cell s.types.length) nn.child
          { s with types := s.types ++ [SemType.mk1 STD_NULL] }).bind
          (traceTypes fuel rest)) := by
  refine ⟨fun tr ty inType term r h => getTermType_ne_null h,
    fun fuel l s s1 h => traceTypes_log fuel l s s1 h, ?_, ?_⟩
  · intro f t1 t2 tc6 nx2 inType s nxn2 hlit hnext hbr hnx2 hnxn2
    obtain ⟨nx1, hnx1, hch1⟩ := hnext
    obtain ⟨n1, hn1, hn1c⟩ := childAt_some hch1
    have hg1 := getTermType_literal (k := STD_INT) s.types inType hlit (by simp)
    rw [traceChain_step (f + 1) inType t1 s hg1 hnx1 hn1, hn1c]
    have hbr1 : IsBracketTerm (setType s.tr t1 (TypePtr.cell s.types.length)) t2 tc6 :=
      isBracketTerm_setType _ _ hbr
    have hg2 := getTermType_bracket (s.types ++ [SemType.mk1 STD_INT]) inType hbr1
    have hnx2a : nextAt (setType (setType s.tr t1 (TypePtr.cell s.types.length)) tc6
        TypePtr.marker) t2 = some nx2 := by
      rw [nextAt_setType, nextAt_setType]; exact hnx2
    obtain ⟨m1, hm1, hm1c, -⟩ := getElem?_setType_some t1 (TypePtr.cell s.types.length) hnxn2
    obtain ⟨m2, hm2, hm2c, -⟩ := getElem?_setType_some tc6 TypePtr.marker hm1
    rw [traceChain_step f inType t2 _ hg2 hnx2a hm2, hm2c, hm1c]
    simp [SemType.mk1]
  · intro fuel net rest s nn hn
    rw [traceTypes]
    simp only [Option.bind_eq_bind, newType, hn, Option.some_bind]

/-- Witness of C14 as amended, on the chain `5 -> [e] -> 7` of `trChains`: after two turns
the loop stands at the third term 24 with an unchanged, empty log. -/
theorem C14_tracing_reports_nothing_witness :
    IsLiteralTerm trChains 4 TokenType.INUM ∧ NextTermIs trChains 4 14 ∧
    IsBracketTerm trChains 14 20 ∧
    traceChain 5 (TypePtr.cell 0) (some 4)
        { tr := trChains, types := [SemType.mk1 STD_NULL], log := [], calls := [] } =
      traceChain 3 (TypePtr.cell 0) (some 24)
        { tr := setType (setType (setType trChains 4 (TypePtr.cell 1)) 20 TypePtr.marker) 14
                  TypePtr.marker,
          types := [SemType.mk1 STD_NULL, SemType.mk1 STD_INT],
          log := [],
          calls := [(4, TypePtr.cell 0), (14, TypePtr.cell 0)] } := by
  have hlit : IsLiteralTerm trChains 4 TokenType.INUM :=
    ⟨9, 10, 11, 12, by decide, by decide, by decide, by decide⟩
  have hnext : NextTermIs trChains 4 14 := ⟨13, by decide, by decide⟩
  have hbr : IsBracketTerm trChains 14 20 := ⟨19, by decide, by decide⟩
  exact ⟨hlit, hnext, hbr,
    C14_tracing_reports_nothing.2.2.1 3 4 14 20 23 (TypePtr.cell 0)
      { tr := trChains, types := [SemType.mk1 STD_NULL], log := [], calls := [] } _
      hlit hnext hbr (by decide) rfl⟩

/-- C14, counterexample to the claim as stated, on the two chains `5 -> [e] -> 7` and `8` of
`trChains`: tracing the worklist reports nothing at all, so no cannot-resolve-output-type
line for the bracketed second term 14; that term and its bracket token 20 do get a type
attached, the placeholder pointer; the later term 24 of the same chain gets a type as well;
and `getTermType` is called for all four terms. -/
theorem C14_counterexample :
    IsLiteralTerm trChains 4 TokenType.INUM ∧ NextTermIs trChains 4 14 ∧
    IsBracketTerm trChains 14 20 ∧
    (traceTypes 30 [3, 34] { tr := trChains, types := [], log := [], calls := [] }).map
        (fun s => (s.log, s.calls)) =
      some ([], [(4, TypePtr.cell 0), (14, TypePtr.cell 0), (24, TypePtr.cell 0),
        (35, TypePtr.cell 3)]) ∧
    (traceTypes 30 [3, 34] { tr := trChains, types := [], log := [], calls := [] }).map
        (fun s => (typeAt s.tr 4, typeAt s.tr 14, typeAt s.tr 20, typeAt s.tr 24)) =
      some (some (TypePtr.cell 1), some TypePtr.marker, some TypePtr.marker,
        some (TypePtr.cell 2)) ∧
    (traceTypes 30 [3, 34] { tr := trChains, types := [], log := [], calls := [] }).map
        (fun s => (typeAt s.tr 35, s.types)) =
      some (some (TypePtr.cell 4),
        [SemType.mk1 STD_NULL, SemType.mk1 STD_INT, SemType.mk1 STD_INT, SemType.mk1 STD_NULL,
         SemType.mk1 STD_INT]) := by
  refine ⟨⟨9, 10, 11, 12, by decide, by decide, by decide, by decide⟩,
    ⟨13, by decide, by decide⟩, ⟨19, by decide, by decide⟩, by decide, by decide, by decide⟩

/-! ## The instance binder (C16) -/

theorem deref_write_cases {h : Heap} {p q : Nat} {n m : SymbolTable}
    (hq : (h.write p n).deref q = some m) : (q = p ∧ m = n) ∨ h.deref q = some m := by
  by_cases hpq : p = q
  · subst hpq
    have hlt : p < h.length := by
      have := deref_lt hq
      rwa [length_write] at this
    rw [deref_write_same _ hlt] at hq
    exact Or.inl ⟨rfl, (Option.some.inj hq).symm⟩
  · rw [deref_write_ne _ hpq] at hq
    exact Or.inr hq

theorem freshClosed_start (h : Heap) : FreshClosed h h.length := by
  intro q n hq hn
  have := deref_lt hn
  omega

theorem chopChars_ne_nil : ∀ cs : List Char, chopChars cs ≠ [] := by
  intro cs
  induction cs with
  | nil => simp [chopChars]
  | cons c cs ih =>
    rw [chopChars]
    split_ifs
    · simp
    · cases hcc : chopChars cs with
      | nil => exact absurd hcc ih
      | cons w ws => simp

theorem qiChop_cons (qi : String) : qiChop qi = idTip qi :: (qiChop qi).drop 1 := by
  unfold idTip
  cases hq : qiChop qi with
  | nil =>
    unfold qiChop at hq
    simp only [List.map_eq_nil_iff] at hq
    exact absurd hq (chopChars_ne_nil _)
  | cons c cs => rfl

theorem blockScan_sound {h : Heap} {name : String} {cs : List (Option Ptr)} {m : Nat}
    (hb : blockScan h name cs = some (some m)) :
    some m ∈ cs ∧ ∃ n, h.deref m = some n ∧ n.id = name := by
  induction cs with
  | nil => simp [blockScan] at hb
  | cons c rest ih =>
    cases c with
    | none => simp [blockScan] at hb
    | some b =>
      cases hq : h.deref b with
      | none => simp [blockScan, hq] at hb
      | some n =>
        simp only [blockScan, hq, bne_iff_ne] at hb
        by_cases hm : n.id.get 0 ≠ '_' ∧ n.id = name
        · rw [if_pos hm] at hb
          obtain rfl : b = m := Option.some.inj (Option.some.inj hb)
          exact ⟨List.mem_cons_self _ _, n, hq, hm.2⟩
        · rw [if_neg hm] at hb
          obtain ⟨hmem, hn⟩ := ih hb
          exact ⟨List.mem_cons_of_mem _ hmem, hn⟩

theorem staticMatch_sound {h : Heap} {k : Int} {name : String} {cs : List (Option Ptr)}
    {m : Nat} (hs : staticMatch h k name cs = some (some m)) :
    (∃ n, h.deref m = some n ∧ n.id = name) ∧
    (some m ∈ cs ∨ ∃ b bn, some b ∈ cs ∧ h.deref b = some bn ∧ bn.kind = KIND_BLOCK ∧
      some m ∈ bn.children) := by
  induction cs with
  | nil => simp [staticMatch] at hs
  | cons c rest ih =>
    cases c with
    | none => simp [staticMatch] at hs
    | some b =>
      have hlift : staticMatch h k name rest = some (some m) →
          (∃ n, h.deref m = some n ∧ n.id = name) ∧
          (some m ∈ some b :: rest ∨ ∃ b1 bn, some b1 ∈ some b :: rest ∧
            h.deref b1 = some bn ∧ bn.kind = KIND_BLOCK ∧ some m ∈ bn.children) := by
        intro hr
        obtain ⟨hn, hor⟩ := ih hr
        refine ⟨hn, ?_⟩
        rcases hor with hmem | ⟨b1, bn, hb1, hbn, hk, hmem⟩
        · exact Or.inl (List.mem_cons_of_mem _ hmem)
        · exact Or.inr ⟨b1, bn, List.mem_cons_of_mem _ hb1, hbn, hk, hmem⟩
      cases hq : h.deref b with
      | none => simp [staticMatch, hq] at hs
      | some n =>
        rw [staticMatch] at hs
        simp only [hq] at hs
        by_cases hid : n.id = name
        · rw [if_pos hid] at hs
          obtain rfl : b = m := Option.some.inj (Option.some.inj hs)
          exact ⟨⟨n, hq, hid⟩, Or.inl (List.mem_cons_self _ _)⟩
        · rw [if_neg hid] at hs
          by_cases hblk : k ≠ KIND_BLOCK ∧ n.kind = KIND_BLOCK
          · rw [if_pos hblk] at hs
            cases hbs : blockScan h name n.children with
            | none => simp [hbs] at hs
            | some o =>
              cases o with
              | none =>
                simp only [hbs] at hs
                exact hlift hs
              | some x =>
                simp only [hbs] at hs
                obtain rfl : x = m := Option.some.inj (Option.some.inj hs)
                obtain ⟨hmem, hn⟩ := blockScan_sound hbs
                exact ⟨hn, Or.inr ⟨b, n, List.mem_cons_self _ _, hq, hblk.2, hmem⟩⟩
          · rw [if_neg hblk] at hs
            exact hlift hs

theorem chainFrom_last {h : Heap} : ∀ (ms : List Nat) (cs : List String) (m r : Nat)
    (c0 : String) (n0 : SymbolTable), h.deref m = some n0 → n0.id = c0 →
    ChainFrom h m ms cs → (m :: ms).getLast? = some r →
    ∃ rn, h.deref r = some rn ∧ (c0 :: cs).getLast? = some rn.id := by
  intro ms
  induction ms with
  | nil =>
    intro cs m r c0 n0 hm hid hch hlast
    cases cs with
    | nil =>
      simp only [List.getLast?_singleton, Option.some.injEq] at hlast
      subst hlast
      exact ⟨n0, hm, by simp [hid]⟩
    | cons c cs => exact hch.elim
  | cons m1 ms ih =>
    intro cs m r c0 n0 hm hid hch hlast
    cases cs with
    | nil => exact hch.elim
    | cons c cs =>
      obtain ⟨-, ⟨n1, hn1, hid1⟩, hrest⟩ := hch
      rw [List.getLast?_cons_cons] at hlast
      obtain ⟨rn, hr, hl⟩ := ih cs m1 r c n1 hn1 hid1 hrest hlast
      exact ⟨rn, hr, by rw [List.getLast?_cons_cons]; exact hl⟩

theorem verify_sound {h : Heap} : ∀ (cs : List String) (m i cur j : Nat),
    verify h m i cs = some (cur, j) →
    j ≤ i + cs.length ∧
    (j = i + cs.length → ∃ ms, ChainFrom h m ms cs ∧ (m :: ms).getLast? = some cur) := by
  intro cs
  induction cs with
  | nil =>
    intro m i cur j hv
    rw [verify] at hv
    obtain ⟨rfl, rfl⟩ := Prod.mk.inj (Option.some.inj hv)
    exact ⟨Nat.le_refl _, fun _ => ⟨[], trivial, rfl⟩⟩
  | cons c cs ih =>
    intro m i cur j hv
    rw [verify] at hv
    simp only [Option.bind_eq_bind] at hv
    cases hn : h.deref m with
    | none => rw [hn] at hv; cases hv
    | some n =>
      rw [hn, Option.some_bind] at hv
      cases hs : staticMatch h n.kind c n.children with
      | none => rw [hs] at hv; cases hv
      | some o =>
        rw [hs, Option.some_bind] at hv
        cases o with
        | none =>
          simp only at hv
          obtain ⟨rfl, rfl⟩ := Prod.mk.inj (Option.some.inj hv)
          refine ⟨by omega, fun hj => ?_⟩
          simp only [List.length_cons] at hj
          omega
        | some m1 =>
          simp only at hv
          obtain ⟨hle, hfull⟩ := ih m1 (i + 1) cur j hv
          obtain ⟨⟨n1, hn1, hid1⟩, hor⟩ := staticMatch_sound hs
          have hstep : StepTo h m m1 := by
            rcases hor with hmem | ⟨b, bn, hb, hbn, hk, hmem⟩
            · exact Or.inl ⟨n, hn, hmem⟩
            · exact Or.inr ⟨b, bn, ⟨n, hn, hb⟩, hbn, hk, ⟨bn, hbn, hmem⟩⟩
          simp only [List.length_cons]
          refine ⟨by omega, fun hj => ?_⟩
          obtain ⟨ms, hch, hlast⟩ := hfull (by omega)
          exact ⟨m1 :: ms, ⟨hstep, ⟨n1, hn1, hid1⟩, hch⟩,
            by rw [List.getLast?_cons_cons]; exact hlast⟩

theorem latchScan_sound {h : Heap} {qi tip : String} {cs : List (Option Ptr)} {r : Nat}
    (hl : latchScan h qi tip cs = some (some r)) :
    ∃ l ln ms, some l ∈ cs ∧ h.deref l = some ln ∧ ln.id = tip ∧
      ChainFrom h l ms ((qiChop qi).drop 1) ∧ (l :: ms).getLast? = some r := by
  induction cs with
  | nil => simp [latchScan] at hl
  | cons c rest ih =>
    cases c with
    | none => simp [latchScan] at hl
    | some l =>
      cases hq : h.deref l with
      | none => simp [latchScan, hq] at hl
      | some ln =>
        rw [latchScan] at hl
        simp only [hq] at hl
        by_cases hid : ln.id = tip
        · rw [if_pos hid] at hl
          cases hv : verify h l 1 ((qiChop qi).drop 1) with
          | none => rw [hv] at hl; cases hl
          | some res =>
            obtain ⟨cur, i⟩ := res
            rw [hv] at hl
            simp only at hl
            by_cases hi : i = (qiChop qi).length
            · rw [if_pos hi] at hl
              obtain rfl : cur = r := Option.some.inj (Option.some.inj hl)
              have hlen : (qiChop qi).length = 1 + ((qiChop qi).drop 1).length := by
                conv_lhs => rw [qiChop_cons qi]
                simp only [List.length_cons]
                omega
              obtain ⟨ms, hch, hlast⟩ := (verify_sound _ l 1 cur i hv).2 (hi.trans hlen)
              exact ⟨l, ln, ms, List.mem_cons_self _ _, hq, hid, hch, hlast⟩
            · rw [if_neg hi] at hl
              cases hl
        · rw [if_neg hid] at hl
          obtain ⟨l1, ln1, ms, hmem, hrest⟩ := ih hl
          exact ⟨l1, ln1, ms, List.mem_cons_of_mem _ hmem, hrest⟩

theorem strictAncestor_trans {h : Heap} {p q a : Nat} (h1 : StrictAncestor h p q)
    (h2 : StrictAncestor h q a) : StrictAncestor h p a := by
  induction h1 with
  | parent p q n hp hpar => exact .step p q a n hp hpar h2
  | step p q1 q n hp hpar _ ih => exact .step p q1 a n hp hpar (ih h2)

theorem firstBlock_ancestor {h : Heap} {p : Option Ptr} {a : Nat}
    (hf : FirstBlockFrom h p (some a)) :
    (∃ an, h.deref a = some an ∧ an.kind = KIND_BLOCK) ∧
    (p = some a ∨ ∃ q, p = some q ∧ StrictAncestor h q a) := by
  generalize hr : some a = r at hf
  induction hf with
  | null => cases hr
  | here q n hq hk =>
    obtain rfl : a = q := Option.some.inj hr
    exact ⟨⟨n, hq, hk⟩, Or.inl rfl⟩
  | up q n r hq hk _ ih =>
    subst hr
    obtain ⟨hblk, hor⟩ := ih rfl
    refine ⟨hblk, Or.inr ⟨q, rfl, ?_⟩⟩
    rcases hor with hpar | ⟨q1, hpar, hanc⟩
    · exact .parent q a n hq hpar
    · exact .step q q1 a n hq hpar hanc

theorem bindIdFuel_sound {h : Heap} {qi : String} : ∀ (f : Nat) (env : Option Ptr) (r : Nat),
    bindIdFuel h qi f env = some (some r) →
    ∃ e, env = some e ∧ ResolvedBy h e (qiChop qi) r := by
  intro f
  induction f with
  | zero =>
    intro env r hb
    cases env with
    | none => rw [bindIdFuel] at hb; cases hb
    | some e => rw [bindIdFuel] at hb; cases hb
  | succ f ih =>
    intro env r hb
    cases env with
    | none => rw [bindIdFuel] at hb; cases hb
    | some e =>
      rw [bindIdFuel] at hb
      simp only [Option.bind_eq_bind] at hb
      cases he : h.deref e with
      | none => rw [he] at hb; cases hb
      | some en =>
        rw [he, Option.some_bind] at hb
        cases hl : latchScan h qi (idTip qi) en.children with
        | none => rw [hl] at hb; cases hb
        | some o =>
          rw [hl, Option.some_bind] at hb
          cases o with
          | some r1 =>
            simp only at hb
            obtain rfl : r1 = r := Option.some.inj (Option.some.inj hb)
            obtain ⟨l, ln, ms, hmem, hln, hid, hch, hlast⟩ := latchScan_sound hl
            exact ⟨e, rfl, l, ms, idTip qi, (qiChop qi).drop 1, e, ln, qiChop_cons qi,
              Or.inl rfl, ⟨en, he, hmem⟩, hln, hid, hch, hlast⟩
          | none =>
            simp only at hb
            cases hc : climb h f en.parent with
            | none => rw [hc] at hb; cases hb
            | some up =>
              rw [hc, Option.some_bind] at hb
              obtain ⟨u, rfl, m0, ms, c0, cs, scope, n0, hcomps, hscope, hrest⟩ := ih up r hb
              obtain ⟨hblk, hor⟩ := firstBlock_ancestor (firstBlock_of_climb hc)
              have hanc : StrictAncestor h e u := by
                rcases hor with hpar | ⟨q, hpar, hq⟩
                · exact .parent e u en he hpar
                · exact .step e q u en he hpar hq
              refine ⟨e, rfl, m0, ms, c0, cs, scope, n0, hcomps, Or.inr ?_, hrest⟩
              rcases hscope with rfl | ⟨hanc2, hblk2⟩
              · exact ⟨hanc, hblk⟩
              · exact ⟨strictAncestor_trans hanc hanc2, hblk2⟩

/-! ## Termination of the resolver on well-formed trees -/

theorem blockScan_total {h : Heap} (name : String) {cs : List (Option Ptr)}
    (hcs : AllLive h cs) : ∃ r, blockScan h name cs = some r := by
  rcases blockScan_spec name hcs with ⟨h0, -⟩ | ⟨x, xn, hx, -⟩
  · exact ⟨_, h0⟩
  · exact ⟨_, hx⟩

theorem staticMatch_total {h : Heap} (hlive : LiveChildren h) (k : Int) (name : String) :
    ∀ cs : List (Option Ptr), AllLive h cs → ∃ r, staticMatch h k name cs = some r := by
  intro cs
  induction cs with
  | nil => intro _; exact ⟨none, rfl⟩
  | cons c rest ih =>
    intro hcs
    obtain ⟨q, n, rfl, hq⟩ := hcs _ (List.mem_cons_self _ _)
    obtain ⟨r, hr⟩ := ih (fun d hd => hcs d (List.mem_cons_of_mem _ hd))
    rw [staticMatch]
    simp only [hq]
    by_cases hid : n.id = name
    · rw [if_pos hid]; exact ⟨_, rfl⟩
    · rw [if_neg hid]
      by_cases hblk : k ≠ KIND_BLOCK ∧ n.kind = KIND_BLOCK
      · rw [if_pos hblk]
        obtain ⟨o, ho⟩ := blockScan_total name (hlive q n hq)
        rw [ho]
        cases o with
        | none => exact ⟨r, hr⟩
        | some m => exact ⟨_, rfl⟩
      · rw [if_neg hblk]; exact ⟨r, hr⟩

theorem verify_total {h : Heap} (hlive : LiveChildren h) : ∀ (cs : List String) (m i : Nat)
    (n : SymbolTable), h.deref m = some n → ∃ res, verify h m i cs = some res := by
  intro cs
  induction cs with
  | nil => intro m i n _; exact ⟨_, rfl⟩
  | cons c cs ih =>
    intro m i n hn
    rw [verify]
    simp only [Option.bind_eq_bind, hn, Option.some_bind]
    obtain ⟨o, ho⟩ := staticMatch_total hlive n.kind c n.children (hlive m n hn)
    rw [ho, Option.some_bind]
    cases o with
    | none => exact ⟨_, rfl⟩
    | some m1 =>
      obtain ⟨⟨n1, hn1, -⟩, -⟩ := staticMatch_sound ho
      exact ih m1 (i + 1) n1 hn1

theorem latchScan_total {h : Heap} (hlive : LiveChildren h) (qi tip : String) :
    ∀ cs : List (Option Ptr), AllLive h cs → ∃ r, latchScan h qi tip cs = some r := by
  intro cs
  induction cs with
  | nil => intro _; exact ⟨none, rfl⟩
  | cons c rest ih =>
    intro hcs
    obtain ⟨q, n, rfl, hq⟩ := hcs _ (List.mem_cons_self _ _)
    obtain ⟨r, hr⟩ := ih (fun d hd => hcs d (List.mem_cons_of_mem _ hd))
    rw [latchScan]
    simp only [hq]
    by_cases hid : n.id = tip
    · rw [if_pos hid]
      obtain ⟨res, hres⟩ := verify_total hlive ((qiChop qi).drop 1) q 1 n hq
      obtain ⟨cur, i⟩ := res
      rw [hres]
      simp only
      split_ifs
      · exact ⟨_, rfl⟩
      · exact ⟨_, rfl⟩
    · rw [if_neg hid]; exact ⟨r, hr⟩

theorem parentChain_succ {h : Heap} : ∀ (d : Nat) (p : Option Ptr),
    ParentChain h d p → ParentChain h (d + 1) p := by
  intro d
  induction d with
  | zero =>
    intro p hp
    cases p with
    | none => trivial
    | some q => exact hp.elim
  | succ d ih =>
    intro p hp
    cases p with
    | none => trivial
    | some q =>
      obtain ⟨n, hn, hpar⟩ := hp
      exact ⟨n, hn, ih _ hpar⟩

theorem climb_total {h : Heap} : ∀ (d : Nat) (p : Option Ptr), ParentChain h d p →
    ∃ up, climb h d p = some up ∧ ParentChain h d up := by
  intro d
  induction d with
  | zero =>
    intro p hp
    cases p with
    | none => exact ⟨none, rfl, trivial⟩
    | some q => exact hp.elim
  | succ d ih =>
    intro p hp
    cases p with
    | none => exact ⟨none, rfl, trivial⟩
    | some q =>
      obtain ⟨n, hn, hpar⟩ := hp
      rw [climb]
      simp only [hn]
      by_cases hk : n.kind ≠ KIND_BLOCK
      · rw [if_pos hk]
        obtain ⟨up, hup, hch⟩ := ih _ hpar
        exact ⟨up, hup, parentChain_succ d up hch⟩
      · rw [if_neg hk]
        exact ⟨some q, rfl, n, hn, hpar⟩

theorem bindIdFuel_total {h : Heap} (hlive : LiveChildren h) (qi : String) :
    ∀ (d : Nat) (env : Option Ptr), ParentChain h d env →
    ∃ r, bindIdFuel h qi d env = some r := by
  intro d
  induction d with
  | zero =>
    intro env hp
    cases env with
    | none => exact ⟨none, rfl⟩
    | some q => exact hp.elim
  | succ d ih =>
    intro env hp
    cases env with
    | none => exact ⟨none, rfl⟩
    | some e =>
      obtain ⟨en, he, hpar⟩ := hp
      rw [bindIdFuel]
      simp only [Option.bind_eq_bind, he, Option.some_bind]
      obtain ⟨o, ho⟩ := latchScan_total hlive qi (idTip qi) en.children (hlive e en he)
      rw [ho, Option.some_bind]
      cases o with
      | some r => exact ⟨_, rfl⟩
      | none =>
        simp only
        obtain ⟨up, hup, hch⟩ := climb_total d en.parent hpar
        rw [hup, Option.some_bind]
        exact ih up hch

/-- C22 (resolver soundness): (1) with an absent start scope the result is unresolved,
whatever the budget; (2) in a heap where no live node has a null or dangling child, from a
start scope whose parent links end after at most `d` live nodes, the resolver returns with
budget `d`; (3) whenever the resolver returns a node, the start scope is present, the node
is the end of a chain `m0, ..., mn` for the components `c0, ..., cn` of the path (each node
has the id of its component, `m0` is a child of the start scope or of a strict ancestor of it
of kind block, and each later node is a child of the node before it or a child of a child of
kind block of the node before it), and the id of the node is the last component. -/
theorem C22_resolver_soundness (h : Heap) (qi : String) :
    (∀ fuel, bindIdFuel h qi fuel none = some none) ∧
    (∀ (d : Nat) (env : Option Ptr), LiveChildren h → ParentChain h d env →
      ∃ r, bindIdFuel h qi d env = some r) ∧
    (∀ (fuel : Nat) (env : Option Ptr) (r : Nat),
      bindIdFuel h qi fuel env = some (some r) →
      ∃ e rn, env = some e ∧ ResolvedBy h e (qiChop qi) r ∧ h.deref r = some rn ∧
        (qiChop qi).getLast? = some rn.id) := by
  refine ⟨?_, fun d env hlive hp => bindIdFuel_total hlive qi d env hp, ?_⟩
  · intro fuel
    cases fuel <;> rfl
  · intro fuel env r hb
    obtain ⟨e, he, hres⟩ := bindIdFuel_sound fuel env r hb
    have hres0 := hres
    obtain ⟨m0, ms, c0, cs, scope, n0, hcomps, -, -, hn0, hid, hch, hlast⟩ := hres
    obtain ⟨rn, hrn, hl⟩ := chainFrom_last ms cs m0 r c0 n0 hn0 hid hch hlast
    exact ⟨e, rn, he, hres0, hrn, by rw [hcomps]; exact hl⟩

/-- Witness of C22 on `heapC5`, for the path `d.c` from the scope 7: the heap has no null or
dangling child, the parent links from 7 end after four nodes, the resolver returns the
node 3 with budget 4, and 3 has the id `c` and ends a chain for the components `d`, `c`. -/
theorem C22_resolver_soundness_witness :
    LiveChildren heapC5 ∧ ParentChain heapC5 4 (some 7) ∧
    bindIdFuel heapC5 "d.c" 4 (some 7) = some (some 3) ∧
    ResolvedBy heapC5 7 ["d", "c"] 3 ∧
    heapC5.deref 3 = cell KIND_STATIC_DECL "c" (some 2) [] := by
  have hlive : LiveChildren heapC5 := by
    intro q n hq
    have hlt : q < 8 := deref_lt hq
    intro c hc
    interval_cases q <;>
      (obtain rfl := Option.some.inj hq
       simp only [List.mem_cons, List.mem_singleton, List.not_mem_nil, or_false] at hc) <;>
      first
        | exact hc.elim
        | (rcases hc with rfl | rfl <;> exact ⟨_, _, rfl, rfl⟩)
  have hchain : ParentChain heapC5 4 (some 7) :=
    ⟨_, rfl, _, rfl, _, rfl, _, rfl, trivial⟩
  have hval : bindIdFuel heapC5 "d.c" 4 (some 7) = some (some 3) := by decide
  obtain ⟨_, _⟩ := (C22_resolver_soundness heapC5 "d.c").2.1 4 (some 7) hlive hchain
  obtain ⟨e, rn, he, hres, -, -⟩ := (C22_resolver_soundness heapC5 "d.c").2.2 4 (some 7) 3 hval
  obtain rfl : 7 = e := Option.some.inj he
  have hq : qiChop "d.c" = ["d", "c"] := by decide
  rw [hq] at hres
  exact ⟨hlive, hchain, hval, hres, rfl⟩

/-! ## Released cells -/

theorem freedFrom_refl (h : Heap) : FreedFrom h h := ⟨rfl, fun _ _ hq => hq⟩

theorem freedFrom_trans {h h1 h2 : Heap} (h01 : FreedFrom h h1) (h12 : FreedFrom h1 h2) :
    FreedFrom h h2 :=
  ⟨h12.1.trans h01.1, fun q n hq => h01.2 q n (h12.2 q n hq)⟩

theorem freedFrom_free (h : Heap) (p : Nat) : FreedFrom h (h.free p) := by
  refine ⟨length_free h p, fun q n hq => ?_⟩
  by_cases hpq : p = q
  · subst hpq
    rw [deref_free_same] at hq
    cases hq
  · rw [deref_free_ne hpq] at hq
    exact hq

theorem deleteFuel_freed : ∀ (f : Nat) (h : Heap) (x : Nat) (h1 : Heap),
    deleteFuel f h x = some h1 → FreedFrom h h1 := by
  intro f
  induction f with
  | zero => intro h x h1 hd; rw [deleteFuel] at hd; cases hd
  | succ f ih =>
    intro h x h1 hd
    rw [deleteFuel] at hd
    simp only [Option.bind_eq_bind] at hd
    cases hn : h.deref x with
    | none => rw [hn] at hd; cases hd
    | some n =>
      rw [hn, Option.some_bind] at hd
      have hfold : ∀ (g : Heap → Option Ptr → Option Heap),
          (∀ hh, g hh none = some hh) → (∀ hh q, g hh (some q) = deleteFuel f hh q) →
          ∀ (cs : List (Option Ptr)) (hh hh1 : Heap),
          cs.foldlM g hh = some hh1 → FreedFrom hh hh1 := by
        intro g hg0 hg1 cs
        induction cs with
        | nil =>
          intro hh hh1 hf
          simp only [List.foldlM, pure] at hf
          obtain rfl := Option.some.inj hf
          exact freedFrom_refl _
        | cons c rest ihc =>
          intro hh hh1 hf
          rw [List.foldlM_cons] at hf
          simp only [Option.bind_eq_bind] at hf
          cases c with
          | none =>
            rw [hg0, Option.some_bind] at hf
            exact ihc hh hh1 hf
          | some q =>
            rw [hg1] at hf
            cases hq : deleteFuel f hh q with
            | none => rw [hq] at hf; cases hf
            | some hh2 =>
              rw [hq, Option.some_bind] at hf
              exact freedFrom_trans (ih hh q hh2 hq) (ihc hh2 hh1 hf)
      simp only [Option.bind_eq_some] at hd
      obtain ⟨h2, hfl, hd⟩ := hd
      obtain rfl := Option.some.inj hd
      exact freedFrom_trans (hfold _ (fun _ => rfl) (fun _ _ => rfl) n.children h h2 hfl)
        (freedFrom_free h2 x)

theorem uniqueNames_freed {h h1 : Heap} (hf : FreedFrom h h1) (hu : UniqueNames h) :
    UniqueNames h1 :=
  fun q a b n x y hq ha hb hab hx hy hid =>
    hu q a b n x y (hf.2 q n hq) ha hb hab (hf.2 a x hx) (hf.2 b y hy) hid

theorem treeInv_freed {h h1 : Heap} (hf : FreedFrom h h1) (hi : TreeInv h) : TreeInv h1 := by
  obtain ⟨hc, hn, hu⟩ := hi
  refine ⟨fun q n hq y hy => ?_, fun q n hq => hn q n (hf.2 q n hq), uniqueNames_freed hf hu⟩
  rw [hf.1]
  exact hc q n (hf.2 q n hq) y hy

theorem unref_freed {h h1 : Heap} {z : Nat} (hf : FreedFrom h h1) (hz : Unref h z) :
    Unref h1 z :=
  fun q n hq => hz q n (hf.2 q n hq)

theorem soleParent_freed {h h1 : Heap} {p : Nat} (hf : FreedFrom h h1)
    (hp : SoleParent h p) : SoleParent h1 p :=
  fun q n pn hq hmem hpn => hp q n pn (hf.2 q n hq) hmem (hf.2 p pn hpn)

theorem importsOk_freed {h h1 : Heap} {l : List Ptr} (hf : FreedFrom h h1)
    (hl : ImportsOk h l) : ImportsOk h1 l :=
  ⟨hl.1, fun p hp => ⟨by rw [hf.1]; exact (hl.2 p hp).1, soleParent_freed hf (hl.2 p hp).2⟩⟩

/-! ## The shape of a concatenation -/

theorem findConflict_none_inv {h : Heap} {id : String} {cs : List (Option Ptr)}
    (hf : findConflict h id cs = some none) :
    ∀ (c : Nat) (cn : SymbolTable), some c ∈ cs → h.deref c = some cn → cn.id ≠ id := by
  induction cs with
  | nil => intro c cn hc; cases hc
  | cons d rest ih =>
    cases d with
    | none => simp [findConflict] at hf
    | some q =>
      cases hq : h.deref q with
      | none => simp [findConflict, hq] at hf
      | some n =>
        simp only [findConflict, hq] at hf
        by_cases hid : n.id = id
        · rw [if_pos hid] at hf; cases hf
        · rw [if_neg hid] at hf
          intro c cn hc hcn
          rcases List.mem_cons.mp hc with hce | hcr
          · obtain rfl : c = q := Option.some.inj hce
            rw [hq] at hcn
            obtain rfl := Option.some.inj hcn
            exact hid
          · exact ih hf c cn hcr hcn

/-- What a concatenation `*self *= p` that returns has done: it has released cells (the
collision), or it has appended `p` to the children of `self` and set the parent of `p`, all
ids staying as they were, and then `p` is system-level or no child of `self` had its id. -/
theorem concat_shape (K : Ext) (tr : TreeHeap) {h : Heap} {log : Log} {self p : Nat}
    {r : Heap × Log × Ptr} (hrun : concat K tr h log self (some p) = some r) :
    ∃ t s, h.deref self = some t ∧ h.deref p = some s ∧
      (FreedFrom h r.1 ∨
        (r.1.length = h.length ∧
          (s.id.get 0 = '_' ∨ ∀ (c : Nat) (cn : SymbolTable), some c ∈ t.children →
            h.deref c = some cn → cn.id ≠ s.id) ∧
          ∀ q, r.1.deref q = (h.deref q).map (fun n0 =>
            { n0 with
              children := if q = self then n0.children ++ [some p] else n0.children,
              parent := if q = p then some self else n0.parent }))) := by
  unfold concat at hrun
  simp only [Option.bind_eq_bind] at hrun
  cases ht : h.deref self with
  | none => rw [ht] at hrun; cases hrun
  | some t =>
    rw [ht, Option.some_bind] at hrun
    cases hs : h.deref p with
    | none => simp [hs] at hrun
    | some s =>
      have hlt := deref_lt ht
      have hlp := deref_lt hs
      have hsucc : ∀ (s1 : SymbolTable),
          (h.write self { t with children := t.children ++ [some p] }).deref p = some s1 →
          ∀ q, ((h.write self { t with children := t.children ++ [some p] }).write p
            { s1 with parent := some self }).deref q = (h.deref q).map (fun n0 =>
            { n0 with
              children := if q = self then n0.children ++ [some p] else n0.children,
              parent := if q = p then some self else n0.parent }) := by
        intro s1 hs1 q
        by_cases hqp : q = p
        · subst hqp
          rw [deref_write_same _ (by rw [length_write]; exact hlp), hs]
          by_cases hqs : q = self
          · subst hqs
            rw [deref_write_same _ hlt] at hs1
            obtain rfl := Option.some.inj hs1
            obtain rfl : t = s := Option.some.inj (ht.symm.trans hs)
            simp
          · rw [deref_write_ne _ (Ne.symm hqs), hs] at hs1
            obtain rfl := Option.some.inj hs1
            simp [hqs]
        · rw [deref_write_ne _ (Ne.symm hqp)]
          by_cases hqs : q = self
          · subst hqs
            rw [deref_write_same _ hlt, ht]
            simp [hqp]
          · rw [deref_write_ne _ (Ne.symm hqs)]
            cases h.deref q with
            | none => rfl
            | some n0 => simp [hqp, hqs]
      refine ⟨t, s, rfl, rfl, ?_⟩
      simp only [hs, Option.some_bind] at hrun
      by_cases hsys : (s.id.get 0 != '_') = true
      · simp only [hsys, if_true] at hrun
        cases hf : findConflict h s.id t.children with
        | none => simp [hf] at hrun
        | some o =>
          cases o with
          | none =>
            simp only [hf, Option.map_some', Option.map_none', Option.some_bind] at hrun
            cases hs1 : (h.write self { t with children := t.children ++ [some p] }).deref p with
            | none => simp [hs1] at hrun
            | some s1 =>
              simp only [hs1, Option.some_bind] at hrun
              obtain rfl := Option.some.inj hrun
              exact Or.inr ⟨by simp only [length_write], Or.inr (findConflict_none_inv hf),
                hsucc s1 hs1⟩
          | some prev =>
            simp only [hf, Option.map_some', Option.some_bind, Option.bind_eq_some] at hrun
            obtain ⟨cur, -, prv, -, h1, hdel, hr⟩ := hrun
            obtain rfl := Option.some.inj hr
            exact Or.inl (deleteFuel_freed _ h p h1 hdel)
      · simp only [hsys, if_false, Option.some_bind] at hrun
        cases hs1 : (h.write self { t with children := t.children ++ [some p] }).deref p with
        | none => simp [hs1] at hrun
        | some s1 =>
          simp only [hs1, Option.some_bind] at hrun
          obtain rfl := Option.some.inj hrun
          refine Or.inr ⟨by simp only [length_write], Or.inl ?_, hsucc s1 hs1⟩
          simpa using hsys

/-! ## Concatenation keeps the sibling names unique -/

theorem concat_uniqueNames (K : Ext) (tr : TreeHeap) {h : Heap} {log : Log} {self : Nat}
    {x : Option Ptr} {r : Heap × Log × Ptr} (hu : UniqueNames h)
    (hrun : concat K tr h log self x = some r) : UniqueNames r.1 := by
  cases x with
  | none =>
    unfold concat at hrun
    simp only [Option.bind_eq_bind] at hrun
    cases ht : h.deref self with
    | none => rw [ht] at hrun; cases hrun
    | some t =>
      rw [ht, Option.some_bind] at hrun
      simp only [Option.some_bind] at hrun
      obtain rfl := Option.some.inj hrun
      have hlt := deref_lt ht
      have hid : ∀ (q : Nat) (n : SymbolTable),
          (h.write self { t with children := t.children ++ [none] }).deref q = some n →
          ∃ n0, h.deref q = some n0 ∧ n.id = n0.id ∧
            ∀ y : Nat, some y ∈ n.children → some y ∈ n0.children := by
        intro q n hq
        rcases deref_write_cases hq with ⟨rfl, rfl⟩ | hq0
        · refine ⟨t, ht, rfl, fun y hy => ?_⟩
          simp only [List.mem_append, List.mem_singleton] at hy
          rcases hy with hy | hy
          · exact hy
          · cases hy
        · exact ⟨n, hq0, rfl, fun y hy => hy⟩
      intro q a b n xn yn hq ha hb hab hx hy hxy
      obtain ⟨n0, hn0, -, hch⟩ := hid q n hq
      obtain ⟨x0, hx0, hxi, -⟩ := hid a xn hx
      obtain ⟨y0, hy0, hyi, -⟩ := hid b yn hy
      rw [hxi]
      exact hu q a b n0 x0 y0 hn0 (hch a ha) (hch b hb) hab hx0 hy0
        (hxi.symm.trans (hxy.trans hyi))
  | some p =>
    obtain ⟨t, s, ht, hs, hor⟩ := concat_shape K tr hrun
    rcases hor with hfreed | ⟨-, hok, hall⟩
    · exact uniqueNames_freed hfreed hu
    · have hget : ∀ (q : Nat) (n : SymbolTable), r.1.deref q = some n →
          ∃ n0, h.deref q = some n0 ∧ n.id = n0.id ∧
            n.children = if q = self then n0.children ++ [some p] else n0.children := by
        intro q n hq
        rw [hall q] at hq
        cases hq0 : h.deref q with
        | none => rw [hq0] at hq; cases hq
        | some n0 =>
          rw [hq0] at hq
          obtain rfl := Option.some.inj hq
          exact ⟨n0, rfl, rfl, rfl⟩
      intro q a b n xn yn hq ha hb hab hx hy hxy
      obtain ⟨n0, hn0, -, hch⟩ := hget q n hq
      obtain ⟨x0, hx0, hxi, -⟩ := hget a xn hx
      obtain ⟨y0, hy0, hyi, -⟩ := hget b yn hy
      have hxy0 : x0.id = y0.id := hxi.symm.trans (hxy.trans hyi)
      rw [hxi]
      by_cases hqs : q = self
      · subst hqs
        obtain rfl : t = n0 := Option.some.inj (ht.symm.trans hn0)
        rw [hch, if_pos rfl] at ha hb
        simp only [List.mem_append, List.mem_singleton, Option.some.injEq] at ha hb
        rcases ha with ha | rfl
        · rcases hb with hb | rfl
          · exact hu q a b t x0 y0 hn0 ha hb hab hx0 hy0 hxy0
          · obtain rfl : s = y0 := Option.some.inj (hs.symm.trans hy0)
            rcases hok with hsys | hno
            · rw [hxy0]; exact hsys
            · exact absurd hxy0 (hno a x0 ha hx0)
        · rcases hb with hb | rfl
          · obtain rfl : s = x0 := Option.some.inj (hs.symm.trans hx0)
            rcases hok with hsys | hno
            · exact hsys
            · exact absurd hxy0.symm (hno b y0 hb hy0)
          · exact absurd rfl hab
      · rw [hch, if_neg hqs] at ha hb
        exact hu q a b n0 x0 y0 hn0 ha hb hab hx0 hy0 hxy0

/-- A concatenation of a live node `p` that is no child yet keeps the shape; any other node
without container stays without one, and the sole-parent property of the other nodes stays
and holds for `p`. -/
theorem concat_treeInv (K : Ext) (tr : TreeHeap) {h : Heap} {log : Log} {self p : Nat}
    {r : Heap × Log × Ptr} (hi : TreeInv h) (hp : Unref h p)
    (hrun : concat K tr h log self (some p) = some r) :
    TreeInv r.1 ∧ r.1.length = h.length ∧
    (∀ z, z ≠ p → Unref h z → Unref r.1 z) ∧
    (∀ z, z ≠ p → SoleParent h z → SoleParent r.1 z) ∧ SoleParent r.1 p := by
  have hu := concat_uniqueNames K tr hi.2.2 hrun
  obtain ⟨t, s, ht, hs, hor⟩ := concat_shape K tr hrun
  rcases hor with hfreed | ⟨hlen, -, hall⟩
  · refine ⟨treeInv_freed hfreed hi, hfreed.1, fun z _ hz => unref_freed hfreed hz,
      fun z _ hz => soleParent_freed hfreed hz, ?_⟩
    intro q n pn hq hmem _
    exact absurd hmem (hp q n (hfreed.2 q n hq))
  · have hget : ∀ (q : Nat) (n : SymbolTable), r.1.deref q = some n →
        ∃ n0, h.deref q = some n0 ∧
          n.children = (if q = self then n0.children ++ [some p] else n0.children) ∧
          n.parent = (if q = p then some self else n0.parent) := by
      intro q n hq
      rw [hall q] at hq
      cases hq0 : h.deref q with
      | none => rw [hq0] at hq; cases hq
      | some n0 =>
        rw [hq0] at hq
        obtain rfl := Option.some.inj hq
        exact ⟨n0, rfl, rfl, rfl⟩
    have hmem : ∀ (q z : Nat) (n : SymbolTable), r.1.deref q = some n → z ≠ p →
        some z ∈ n.children → ∃ n0, h.deref q = some n0 ∧ some z ∈ n0.children := by
      intro q z n hq hz hm
      obtain ⟨n0, hn0, hch, -⟩ := hget q n hq
      refine ⟨n0, hn0, ?_⟩
      rw [hch] at hm
      split_ifs at hm
      · simp only [List.mem_append, List.mem_singleton, Option.some.injEq] at hm
        rcases hm with hm | hm
        · exact hm
        · exact absurd hm hz
      · exact hm
    have hplt := deref_lt hs
    refine ⟨⟨?_, ?_, hu⟩, hlen, ?_, ?_, ?_⟩
    · intro q n hq y hy
      rw [hlen]
      by_cases hyp : y = p
      · rw [hyp]; exact hplt
      · obtain ⟨n0, hn0, hm⟩ := hmem q y n hq hyp hy
        exact hi.1 q n0 hn0 y hm
    · intro q n hq
      obtain ⟨n0, hn0, hch, -⟩ := hget q n hq
      rw [hch]
      split_ifs
      · exact List.Nodup.append (hi.2.1 q n0 hn0) (List.nodup_singleton _)
          (by
            intro c hc1 hc2
            simp only [List.mem_singleton] at hc2
            subst hc2
            exact hp q n0 hn0 hc1)
      · exact hi.2.1 q n0 hn0
    · intro z hz hun q n hq hm
      obtain ⟨n0, hn0, hm0⟩ := hmem q z n hq hz hm
      exact hun q n0 hn0 hm0
    · intro z hz hsp q n pn hq hm hpn
      obtain ⟨n0, hn0, hm0⟩ := hmem q z n hq hz hm
      obtain ⟨pn0, hpn0, -, hpar⟩ := hget z pn hpn
      rw [hpar, if_neg hz]
      exact hsp q n0 pn0 hn0 hm0 hpn0
    · intro q n pn hq hm hpn
      obtain ⟨n0, hn0, hch, -⟩ := hget q n hq
      obtain ⟨pn0, -, -, hpar⟩ := hget p pn hpn
      rw [hpar, if_pos rfl]
      by_cases hqs : q = self
      · rw [hqs]
      · rw [hch, if_neg hqs] at hm
        exact absurd hm (hp q n0 hn0)

/-! ## Allocation and declaration keep the shape -/

theorem deref_append_cases {h : Heap} {m n : SymbolTable} {q : Nat}
    (hq : (h ++ [some m]).deref q = some n) :
    (q < h.length ∧ h.deref q = some n) ∨ (q = h.length ∧ n = m) := by
  rcases Nat.lt_or_ge q h.length with hlt | hge
  · rw [deref_append_lt _ hlt] at hq
    exact Or.inl ⟨hlt, hq⟩
  · have hlen := deref_lt hq
    simp only [List.length_append, List.length_singleton] at hlen
    obtain rfl : q = h.length := by omega
    rw [deref_append_length] at hq
    exact Or.inr ⟨rfl, (Option.some.inj hq).symm⟩

theorem treeInv_alloc {h : Heap} {m : SymbolTable} (hi : TreeInv h) (hm : m.children = []) :
    TreeInv (h ++ [some m]) ∧ Unref (h ++ [some m]) h.length ∧
    (∀ z, Unref h z → Unref (h ++ [some m]) z) ∧
    (∀ z, z < h.length → SoleParent h z → SoleParent (h ++ [some m]) z) := by
  obtain ⟨hc, hn, hu⟩ := hi
  have hkids : ∀ (q y : Nat) (n : SymbolTable), (h ++ [some m]).deref q = some n →
      some y ∈ n.children → q < h.length ∧ h.deref q = some n ∧ y < h.length := by
    intro q y n hq hy
    rcases deref_append_cases hq with ⟨hlt, hq0⟩ | ⟨-, rfl⟩
    · exact ⟨hlt, hq0, hc q n hq0 y hy⟩
    · rw [hm] at hy; cases hy
  refine ⟨⟨?_, ?_, ?_⟩, ?_, ?_, ?_⟩
  · intro q n hq y hy
    simp only [List.length_append, List.length_singleton]
    have := (hkids q y n hq hy).2.2
    omega
  · intro q n hq
    rcases deref_append_cases hq with ⟨-, hq0⟩ | ⟨-, rfl⟩
    · exact hn q n hq0
    · rw [hm]; exact List.nodup_nil
  · intro q a b n x y hq ha hb hab hx hy hxy
    obtain ⟨-, hq0, halt⟩ := hkids q a n hq ha
    obtain ⟨-, -, hblt⟩ := hkids q b n hq hb
    rw [deref_append_lt _ halt] at hx
    rw [deref_append_lt _ hblt] at hy
    exact hu q a b n x y hq0 ha hb hab hx hy hxy
  · intro q n hq hy
    have := (hkids q h.length n hq hy).2.2
    omega
  · intro z hz q n hq hy
    exact hz q n (hkids q z n hq hy).2.1 hy
  · intro z hz hsp q n pn hq hy hpn
    rw [deref_append_lt _ hz] at hpn
    exact hsp q n pn (hkids q z n hq hy).2.1 hy hpn

/-- The statement `*self *= new SymbolTable(kind, id, defSite)` keeps the shape and
the import worklist in order, also when the new symbol is put at the end of the worklist;
a node without container other than the new one stays without container. -/
theorem declare_inv (K : Ext) (tr : TreeHeap) {h : Heap} {log : Log} {self : Nat}
    {l : List Ptr} (kind : Int) (id : String) (ds : Option TreePtr) {r : Heap × Log × Ptr}
    (hi : TreeInv h) (hl : ImportsOk h l)
    (hrun : concat K tr (h ++ [some (SymbolTable.mk3 kind id ds)]) log self (some h.length) =
      some r) :
    TreeInv r.1 ∧ r.1.length = h.length + 1 ∧ ImportsOk r.1 l ∧
    ImportsOk r.1 (l ++ [h.length]) ∧ (∀ z, z < h.length → Unref h z → Unref r.1 z) := by
  obtain ⟨hi1, hun, hunz, hsp⟩ := treeInv_alloc (m := SymbolTable.mk3 kind id ds) hi rfl
  obtain ⟨hi2, hlen, hunz2, hsp2, hspn⟩ := concat_treeInv K tr hi1 hun hrun
  simp only [List.length_append, List.length_singleton] at hlen
  have hold : ∀ p : Nat, p ∈ l → p < r.1.length ∧ SoleParent r.1 p := by
    intro p hp
    obtain ⟨hplt, hps⟩ := hl.2 p hp
    refine ⟨by omega, hsp2 p (by omega) (hsp p hplt hps)⟩
  refine ⟨hi2, hlen, ⟨hl.1, hold⟩, ⟨?_, ?_⟩, ?_⟩
  · refine List.Nodup.append hl.1 (List.nodup_singleton _) ?_
    intro c hc1 hc2
    simp only [List.mem_singleton] at hc2
    subst hc2
    have := (hl.2 _ hc1).1
    omega
  · intro p hp
    simp only [List.mem_append, List.mem_singleton] at hp
    rcases hp with hp | rfl
    · exact hold p hp
    · exact ⟨by omega, hspn⟩
  · intro z hz huz
    exact hunz2 z (by omega) (hunz z huz)

theorem paramLoop_inv (K : Ext) (tr : TreeHeap) (b : Nat) (l : List Ptr) :
    ∀ (f : Nat) (param : Option TreePtr) (h : Heap) (log : Log) (r : Heap × Log),
    TreeInv h → ImportsOk h l → b < h.length → Unref h b →
    paramLoop K tr b f param h log = some r →
    TreeInv r.1 ∧ ImportsOk r.1 l ∧ h.length ≤ r.1.length ∧ Unref r.1 b := by
  intro f
  induction f with
  | zero => intro param h log r _ _ _ _ hrun; rw [paramLoop] at hrun; cases hrun
  | succ f ih =>
    intro param h log r hi hl hb hub hrun
    rw [paramLoop] at hrun
    simp only [Option.bind_eq_bind, Option.bind_eq_some] at hrun
    obtain ⟨pp, -, pn, -, c, -, cn, -, c2, -, c2n, -, r1, hcat, hrest⟩ := hrun
    obtain ⟨hi1, hlen1, hl1, -, hun1⟩ := declare_inv K tr KIND_PARAM c2n.t.s (some pp) hi hl hcat
    have hstep : TreeInv r1.1 ∧ ImportsOk r1.1 l ∧ h.length ≤ r1.1.length ∧ Unref r1.1 b :=
      ⟨hi1, hl1, by omega, hun1 b hb hub⟩
    cases hnx : pn.next with
    | none =>
      rw [hnx] at hrest
      simp only at hrest
      obtain rfl := Option.some.inj hrest
      exact hstep
    | some nx =>
      rw [hnx] at hrest
      simp only [Option.bind_eq_bind, Option.bind_eq_some] at hrest
      obtain ⟨nxn, -, nn, -, nnn, -, hrec⟩ := hrest
      obtain ⟨hi2, hl2, hlen2, hun2⟩ := ih _ _ _ _ hi1 hl1 (by omega) (hun1 b hb hub) hrec
      exact ⟨hi2, hl2, by omega, hun2⟩

theorem injectHeader_inv (K : Ext) (tr : TreeHeap) (f b : Nat) (l : List Ptr)
    (back : Option TreePtr) (h : Heap) (log : Log) (r : Heap × Log)
    (hi : TreeInv h) (hl : ImportsOk h l) (hb : b < h.length) (hub : Unref h b)
    (hrun : injectHeader K tr f b back h log = some r) :
    TreeInv r.1 ∧ ImportsOk r.1 l ∧ h.length ≤ r.1.length ∧ Unref r.1 b := by
  have hsame : TreeInv h ∧ ImportsOk h l ∧ h.length ≤ h.length ∧ Unref h b :=
    ⟨hi, hl, Nat.le_refl _, hub⟩
  unfold injectHeader at hrun
  cases back with
  | none =>
    simp only at hrun
    obtain rfl := Option.some.inj hrun
    exact hsame
  | some nh =>
    simp only [Option.bind_eq_bind, Option.bind_eq_some] at hrun
    obtain ⟨nhn, -, hrun⟩ := hrun
    split_ifs at hrun
    · simp only [Option.bind_eq_some] at hrun
      obtain ⟨c, -, cn, -, c2, -, c2n, -, hrun⟩ := hrun
      cases hpl : c2n.child with
      | none =>
        rw [hpl] at hrun
        simp only at hrun
        obtain rfl := Option.some.inj hrun
        exact hsame
      | some pl =>
        rw [hpl] at hrun
        simp only [Option.bind_eq_bind, Option.bind_eq_some] at hrun
        obtain ⟨pln, -, hrun⟩ := hrun
        exact paramLoop_inv K tr b l f _ h log r hi hl hb hub hrun
    · obtain rfl := Option.some.inj hrun
      exact hsame

/-! ## Decoration keeps the shape -/

theorem extractNodes_inv (K : Ext) : ∀ (f : Nat) (pm : Option TreePtr) (st : Nat)
    (nh : Bool) (s0 s1 : Decor), extractNodes K f pm st nh s0 = some s1 →
    TreeInv s0.st → ImportsOk s0.st s0.importList →
    TreeInv s1.st ∧ ImportsOk s1.st s1.importList ∧ s0.st.length ≤ s1.st.length := by
  intro f
  induction f with
  | zero =>
    intro pm st nh s0 s1 hrun hi hl
    cases pm with
    | none =>
      rw [extractNodes] at hrun
      obtain rfl := Option.some.inj hrun
      exact ⟨hi, hl, Nat.le_refl _⟩
    | some p => rw [extractNodes] at hrun; cases hrun
  | succ f ih =>
    intro pm st nh s0 s1 hrun hi hl
    cases pm with
    | none =>
      rw [extractNodes] at hrun
      obtain rfl := Option.some.inj hrun
      exact ⟨hi, hl, Nat.le_refl _⟩
    | some pm =>
      obtain ⟨tr0, st0, log0, il, inst, nets⟩ := s0
      simp only at hi hl
      rw [extractNodes] at hrun
      simp only [Option.bind_eq_bind] at hrun
      cases hn : tr0[pm]? with
      | none => rw [hn] at hrun; cases hrun
      | some n =>
        rw [hn, Option.some_bind] at hrun
        by_cases h1 : n.t.tokenType = TokenType.Identifier
        · rw [if_pos h1] at hrun
          simp only [Option.bind_eq_some] at hrun
          obtain ⟨isImport, -, hrun⟩ := hrun
          split_ifs at hrun
          · obtain rfl := Option.some.inj hrun
            exact ⟨hi, hl, Nat.le_refl _⟩
          · obtain ⟨hi1, hl1, hlen1⟩ := ih _ _ _ _ _ hrun hi hl
            exact ⟨hi1, hl1, hlen1⟩
        rw [if_neg h1] at hrun
        by_cases h2 : n.t.tokenType = TokenType.NonEmptyTerms ∧ nh = false
        · rw [if_pos h2] at hrun
          obtain ⟨hi1, hl1, hlen1⟩ := ih _ _ _ _ _ hrun hi hl
          exact ⟨hi1, hl1, hlen1⟩
        rw [if_neg h2] at hrun
        by_cases h3 : n.t.tokenType = TokenType.Block
        · rw [if_pos h3] at hrun
          simp only [Option.bind_eq_some, Heap.alloc] at hrun
          obtain ⟨r, hinj, r2, hcat, hrec⟩ := hrun
          obtain ⟨hi1, hun1, -, hsp1⟩ :=
            treeInv_alloc (m := SymbolTable.mk3 KIND_BLOCK K.BLOCK_NODE_STRING (some pm)) hi rfl
          have hl1 : ImportsOk (st0 ++ [some (SymbolTable.mk3 KIND_BLOCK K.BLOCK_NODE_STRING
              (some pm))]) il := by
            refine ⟨hl.1, fun p hp => ?_⟩
            obtain ⟨hplt, hps⟩ := hl.2 p hp
            refine ⟨?_, hsp1 p hplt hps⟩
            simp only [List.length_append, List.length_singleton]
            omega
          obtain ⟨hi2, hl2, hlen2, hun2⟩ := injectHeader_inv K _ f st0.length il n.back _ log0 r
            hi1 hl1 (by simp only [List.length_append, List.length_singleton]; omega) hun1 hinj
          simp only [List.length_append, List.length_singleton] at hlen2
          obtain ⟨hi3, hlen3, -, hsp3, -⟩ := concat_treeInv K _ hi2 hun2 hcat
          have hl3 : ImportsOk r2.1 il := by
            refine ⟨hl.1, fun p hp => ?_⟩
            obtain ⟨hplt, hps⟩ := hl2.2 p hp
            have hp0 := (hl.2 p hp).1
            exact ⟨by omega, hsp3 p (by omega) hps⟩
          obtain ⟨hi4, hl4, hlen4⟩ := ih _ _ _ _ _ hrec hi3 hl3
          simp only at hlen4
          exact ⟨hi4, hl4, by simp only; omega⟩
        rw [if_neg h3] at hrun
        by_cases h4 : n.t.tokenType = TokenType.Declaration
        · rw [if_pos h4] at hrun
          simp only [Option.bind_eq_some] at hrun
          obtain ⟨c, -, cn, -, c2, -, c2n, -, hrun⟩ := hrun
          by_cases h5 : c2n.t.tokenType = TokenType.EQUALS
          · rw [if_pos h5] at hrun
            simp only [Option.bind_eq_bind, Option.bind_eq_some, Heap.alloc] at hrun
            obtain ⟨r, hcat, hrec⟩ := hrun
            obtain ⟨hi1, hlen1, hl1, -, -⟩ := declare_inv K _ _ _ _ hi hl hcat
            obtain ⟨hi2, hl2, hlen2⟩ := ih _ _ _ _ _ hrec hi1 hl1
            simp only at hlen2
            exact ⟨hi2, hl2, by simp only; omega⟩
          rw [if_neg h5] at hrun
          by_cases h6 : c2n.t.tokenType = TokenType.ERARROW
          · rw [if_pos h6] at hrun
            simp only [Option.bind_eq_bind, Option.bind_eq_some, Heap.alloc] at hrun
            obtain ⟨r, hcat, hrec⟩ := hrun
            obtain ⟨hi1, hlen1, hl1, -, -⟩ := declare_inv K _ _ _ _ hi hl hcat
            obtain ⟨hi2, hl2, hlen2⟩ := ih _ _ _ _ _ hrec hi1 hl1
            simp only at hlen2
            exact ⟨hi2, hl2, by simp only; omega⟩
          rw [if_neg h6] at hrun
          by_cases h7 : c2n.t.tokenType = TokenType.Identifier
          · rw [if_pos h7] at hrun
            simp only [Option.bind_eq_bind, Option.bind_eq_some, Heap.alloc] at hrun
            obtain ⟨r, hcat, hrec⟩ := hrun
            obtain ⟨hi1, hlen1, -, hl1, -⟩ := declare_inv K _ _ _ _ hi hl hcat
            obtain ⟨hi2, hl2, hlen2⟩ := ih _ _ _ _ _ hrec hi1 hl1
            simp only at hlen2
            exact ⟨hi2, hl2, by simp only; omega⟩
          rw [if_neg h7] at hrun
          obtain rfl := Option.some.inj hrun
          exact ⟨hi, hl, Nat.le_refl _⟩
        rw [if_neg h4] at hrun
        simp only [Option.bind_eq_some] at hrun
        obtain ⟨s2, hrec1, hrec2⟩ := hrun
        obtain ⟨hi1, hl1, hlen1⟩ := ih _ _ _ _ _ hrec1 hi hl
        obtain ⟨hi2, hl2, hlen2⟩ := ih _ _ _ _ _ hrec2 hi1 hl1
        simp only at hlen1
        exact ⟨hi2, hl2, by simp only; omega⟩

/-! ## The deep-copy assignment keeps the shape -/

theorem write_comm (h : Heap) {p q : Nat} (a b : SymbolTable) (hpq : p ≠ q) :
    (h.write p a).write q b = (h.write q b).write p a := by
  unfold Heap.write
  exact List.set_comm _ _ _ hpq

theorem assignFuel_live {f : Nat} {h h1 : Heap} {dst src : Nat}
    (hrun : assignFuel f h dst src = some h1) :
    ∃ sn dn, h.deref src = some sn ∧ h.deref dst = some dn := by
  cases f with
  | zero => rw [assignFuel] at hrun; cases hrun
  | succ f =>
    rw [assignFuel] at hrun
    simp only [Option.bind_eq_bind, Option.bind_eq_some] at hrun
    obtain ⟨s, hs, d, hd, -⟩ := hrun
    exact ⟨s, d, hs, hd⟩

/-- Overwriting the kind, id, definition site and parent of a node keeps the shape when the
new id makes no sibling name double. -/
theorem treeInv_rename {h : Heap} {dst : Nat} {dn m : SymbolTable} (hi : TreeInv h)
    (hd : h.deref dst = some dn) (hm : m.children = dn.children)
    (hr : Renamable h dst m.id) : TreeInv (h.write dst m) := by
  obtain ⟨hc, hn, hu⟩ := hi
  have hget : ∀ (q : Nat) (n : SymbolTable), (h.write dst m).deref q = some n →
      ∃ n0, h.deref q = some n0 ∧ n.children = n0.children ∧
        (q ≠ dst → n.id = n0.id) ∧ (q = dst → n.id = m.id) := by
    intro q n hq
    rcases deref_write_cases hq with ⟨rfl, rfl⟩ | hq0
    · exact ⟨dn, hd, hm, fun hne => absurd rfl hne, fun _ => rfl⟩
    · by_cases hqd : q = dst
      · subst hqd
        have hlt := deref_lt hd
        rw [deref_write_same _ hlt] at hq
        obtain rfl := Option.some.inj hq
        exact ⟨dn, hd, hm, fun hne => absurd rfl hne, fun _ => rfl⟩
      · exact ⟨n, hq0, rfl, fun _ => rfl, fun he => absurd he hqd⟩
  refine ⟨?_, ?_, ?_⟩
  · intro q n hq y hy
    obtain ⟨n0, hn0, hch, -⟩ := hget q n hq
    rw [length_write]
    exact hc q n0 hn0 y (hch ▸ hy)
  · intro q n hq
    obtain ⟨n0, hn0, hch, -⟩ := hget q n hq
    rw [hch]
    exact hn q n0 hn0
  · intro q a b n x y hq ha hb hab hx hy hxy
    obtain ⟨n0, hn0, hch, -⟩ := hget q n hq
    obtain ⟨x0, hx0, -, hxne, hxeq⟩ := hget a x hx
    obtain ⟨y0, hy0, -, hyne, hyeq⟩ := hget b y hy
    rw [hch] at ha hb
    by_cases had : a = dst
    · have hbd : b ≠ dst := fun hbd => hab (had.trans hbd.symm)
      rw [hxeq had]
      subst had
      exact hr q b n0 y0 hn0 ha hb hbd hy0
        ((hyne hbd).symm.trans (hxy.symm.trans (hxeq rfl)))
    · by_cases hbd : b = dst
      · rw [hxy, hyeq hbd]
        subst hbd
        exact hr q a n0 x0 hn0 hb ha had hx0
          ((hxne had).symm.trans (hxy.trans (hyeq rfl)))
      · rw [hxne had]
        exact hu q a b n0 x0 y0 hn0 ha hb hab hx0 hy0
          ((hxne had).symm.trans (hxy.trans (hyne hbd)))

/-! ## The copy loop -/

theorem copyChildren_inv (f : Nat)
    (hrec : ∀ (h : Heap) (dst src : Nat) (h1 : Heap) (dn sn : SymbolTable),
      assignFuel f h dst src = some h1 → TreeInv h → h.deref dst = some dn →
      dn.children = [] → h.deref src = some sn → Renamable h dst sn.id →
      AssignKeeps h dst sn h1)
    (h1 : Heap) (dst : Nat) (d1 : SymbolTable) (S : List (Option Ptr))
    (hdst : dst < h1.length) (hd1 : h1.deref dst = some d1)
    (hS : ∀ (a b : Nat) (xa xb : SymbolTable), some a ∈ S → some b ∈ S → a ≠ b →
      h1.deref a = some xa → h1.deref b = some xb → xa.id = xb.id → xa.id.get 0 = '_')
    (hSl : ∀ y : Nat, some y ∈ S → y < h1.length) (hSn : S.Nodup) :
    ∀ (cs pre : List (Option Ptr)) (hh : Heap) (news : List (Option Ptr)) (hfin : Heap),
      S = pre ++ cs → CopyLoopInv h1 dst d1 pre hh news →
      copyChildren (assignFuel f) dst cs hh = some hfin →
      ∃ newsfin, CopyLoopInv h1 dst d1 S hfin newsfin := by
  intro cs
  induction cs with
  | nil =>
    intro pre hh news hfin hSeq hJ hrun
    rw [copyChildren] at hrun
    obtain rfl := Option.some.inj hrun
    rw [List.append_nil] at hSeq
    subst hSeq
    exact ⟨news, hJ⟩
  | cons c rest ih =>
    intro pre hh news hfin hSeq hJ hrun
    cases c with
    | none => rw [copyChildren] at hrun; cases hrun
    | some q1 =>
      rw [copyChildren] at hrun
      simp only [Option.bind_eq_bind, Option.bind_eq_some] at hrun
      obtain ⟨hc, hcp, ch, hch, d, hd, hrest⟩ := hrun
      obtain ⟨hi, hlen, hframe, hfc, hdd, hnews⟩ := hJ
      have hq1S : some q1 ∈ S := by rw [hSeq]; simp
      have hq1lt : q1 < h1.length := hSl q1 hq1S
      have hlen' : (hh ++ [some blankNode]).length = hh.length + 1 := by
        simp only [List.length_append, List.length_singleton]
      obtain ⟨hi', hunp, -, -⟩ := treeInv_alloc (m := blankNode) hi rfl
      obtain ⟨sn1, dn1, hsn1, -⟩ := assignFuel_live hcp
      have hren : Renamable (hh ++ [some blankNode]) hh.length sn1.id :=
        fun q c n cn hq hmem _ _ _ _ => absurd hmem (hunp q n hq)
      obtain ⟨hic, hlenc, hframec, hfcc, news1, hpc, hnews1⟩ :=
        hrec (hh ++ [some blankNode]) hh.length q1 hc blankNode sn1 hcp hi'
          (deref_append_length _ _) rfl hsn1 hren
      simp only [List.length_append, List.length_singleton] at hlenc hframec hfcc hnews1
      -- the content of an older cell after the inner copy
      have hold : ∀ q, q < hh.length → hc.deref q = hh.deref q := by
        intro q hq
        rw [hframec q (by omega) (by omega), deref_append_lt _ hq]
      have hdne : dst ≠ hh.length := by omega
      -- the id of the source child is its id in the heap at the start of the loop
      have hq1hh : q1 < hh.length := Nat.lt_of_lt_of_le hq1lt hlen
      have hsn1' : hh.deref q1 = some sn1 := by
        rw [deref_append_lt _ hq1hh] at hsn1; exact hsn1
      obtain ⟨q1n, hq1n, hq1id⟩ : ∃ q1n, h1.deref q1 = some q1n ∧ q1n.id = sn1.id := by
        by_cases hqd : q1 = dst
        · subst hqd
          rw [hdd] at hsn1'
          obtain rfl := Option.some.inj hsn1'
          exact ⟨d1, hd1, rfl⟩
        · rw [hframe q1 hq1lt hqd] at hsn1'
          exact ⟨sn1, hsn1', rfl⟩
      -- the two writes are a concatenation without collision
      rw [hpc] at hch
      obtain rfl := Option.some.inj hch
      have hd0 : hc.deref dst = some { d1 with children := news } := by
        rw [hold dst (by omega)]; exact hdd
      rw [deref_write_ne _ (Ne.symm hdne), hd0] at hd
      obtain rfl := Option.some.inj hd
      have hnewlive : ∀ c ∈ news, ∃ (y q : Nat) (yn qn : SymbolTable), c = some y ∧
          h1.length ≤ y ∧ y < hh.length ∧ hc.deref y = some yn ∧ some q ∈ pre ∧
          h1.deref q = some qn ∧ yn.id = qn.id := by
        intro c hcm
        obtain ⟨y, q, yn, qn, rfl, hyl, hyd, hqp, hqd, hid⟩ := hnews c hcm
        have hylt := deref_lt hyd
        exact ⟨y, q, yn, qn, rfl, hyl, hylt, (hold y hylt).trans hyd, hqp, hqd, hid⟩
      have hpre_ne : ∀ q : Nat, some q ∈ pre → q ≠ q1 := by
        intro q hq hqq
        subst hqq
        rw [hSeq] at hSn
        have := (List.nodup_append.mp hSn).2.2
        exact this hq (List.mem_cons_self _ _)
      have hok : sn1.id.get 0 = '_' ∨ NoChildNamed hc sn1.id news := by
        by_cases hsys : sn1.id.get 0 = '_'
        · exact Or.inl hsys
        · refine Or.inr ?_
          intro c hcm
          obtain ⟨y, q, yn, qn, rfl, -, -, hyd, hqp, hqd, hid⟩ := hnewlive c hcm
          refine ⟨y, yn, rfl, hyd, fun heq => hsys ?_⟩
          have hqS : some q ∈ S := by rw [hSeq]; exact List.mem_append_left _ hqp
          have := hS q q1 qn q1n hqS hq1S (hpre_ne q hqp) hqd hq1n
            (hid.symm.trans (heq.trans hq1id.symm))
          rw [← heq, hid]
          exact this
      have hcat := @concat_success extNone [] hc [] dst hh.length _ _ hd0 hpc hok
      rw [if_neg hdne] at hcat
      have hunc : Unref hc hh.length := by
        intro q n hq hmem
        rcases Nat.lt_or_ge q hh.length with hlt | hge
        · rw [hold q hlt] at hq
          have := hi.1 q n hq _ hmem
          omega
        · rcases Nat.eq_or_lt_of_le hge with heq | hgt
          · rw [← heq, hpc] at hq
            obtain rfl := Option.some.inj hq
            have := hnews1 _ hmem
            omega
          · have := hfcc q n (by omega) hq _ hmem
            omega
      obtain ⟨hi3, hlen3, -, -, -⟩ := concat_treeInv extNone [] hic hunc hcat
      simp only at hi3 hlen3
      rw [← write_comm _ _ _ (Ne.symm hdne)] at hi3 hlen3
      -- the state after this turn
      have hJ3 : CopyLoopInv h1 dst d1 (pre ++ [some q1])
          ((hc.write hh.length
              { kind := sn1.kind, id := sn1.id, defSite := sn1.defSite, parent := some dst,
                children := news1 }).write dst
            { d1 with children := news ++ [some hh.length] }) (news ++ [some hh.length]) := by
        have hder : ∀ q, q ≠ dst → q ≠ hh.length →
            ((hc.write hh.length
              { kind := sn1.kind, id := sn1.id, defSite := sn1.defSite, parent := some dst,
                children := news1 }).write dst
              { d1 with children := news ++ [some hh.length] }).deref q = hc.deref q := by
          intro q hqd hqp
          rw [deref_write_ne _ (Ne.symm hqd), deref_write_ne _ (Ne.symm hqp)]
        have hderp : ((hc.write hh.length
              { kind := sn1.kind, id := sn1.id, defSite := sn1.defSite, parent := some dst,
                children := news1 }).write dst
              { d1 with children := news ++ [some hh.length] }).deref hh.length =
            some { kind := sn1.kind, id := sn1.id, defSite := sn1.defSite,
                   parent := some dst, children := news1 } := by
          rw [deref_write_ne _ hdne, deref_write_same _ (by omega)]
        refine ⟨hi3, by rw [hlen3]; omega, ?_, ?_, ?_, ?_⟩
        · intro q hq hqd
          rw [hder q hqd (by omega), hold q (by omega)]
          exact hframe q hq hqd
        · intro q n hL hq y hy
          have hqd : q ≠ dst := by omega
          by_cases hqp : q = hh.length
          · subst hqp
            rw [hderp] at hq
            obtain rfl := Option.some.inj hq
            have := hnews1 y hy
            omega
          · rw [hder q hqd hqp] at hq
            rcases Nat.lt_or_ge q hh.length with hlt | hge
            · rw [hold q hlt] at hq
              exact hfc q n hL hq y hy
            · have := hfcc q n (by omega) hq y hy
              omega
        · rw [deref_write_same _ (by rw [length_write]; omega)]
        · intro c hcm
          simp only [List.mem_append, List.mem_singleton] at hcm
          rcases hcm with hcm | rfl
          · obtain ⟨y, q, yn, qn, rfl, hyl, hylt, hyd, hqp, hqd, hid⟩ := hnewlive c hcm
            refine ⟨y, q, yn, qn, rfl, hyl, ?_, List.mem_append_left _ hqp, hqd, hid⟩
            rw [hder y (by omega) (by omega)]
            exact hyd
          · exact ⟨hh.length, q1, _, q1n, rfl, by omega, hderp, by simp, hq1n, hq1id.symm⟩
      exact ih (pre ++ [some q1]) _ _ hfin (by rw [hSeq]; simp) hJ3 hrest

/-! ## The deep-copy assignment into a childless node -/

theorem assign_inv : ∀ (f : Nat) (h : Heap) (dst src : Nat) (h1 : Heap) (dn sn : SymbolTable),
    assignFuel f h dst src = some h1 → TreeInv h → h.deref dst = some dn →
    dn.children = [] → h.deref src = some sn → Renamable h dst sn.id →
    AssignKeeps h dst sn h1 := by
  intro f
  induction f with
  | zero => intro h dst src h1 dn sn hrun; rw [assignFuel] at hrun; cases hrun
  | succ f ih =>
    intro h dst src h1 dn sn hrun hi hd hdn hs hren
    rw [assignFuel] at hrun
    simp only [Option.bind_eq_bind, Option.bind_eq_some] at hrun
    obtain ⟨s, hs', d, hd', hrun⟩ := hrun
    obtain rfl : sn = s := Option.some.inj (hs.symm.trans hs')
    obtain rfl : dn = d := Option.some.inj (hd.symm.trans hd')
    split_ifs at hrun
    have hdlt := deref_lt hd
    have hi1 : TreeInv (h.write dst
        { dn with kind := sn.kind, id := sn.id, defSite := sn.defSite, parent := sn.parent }) :=
      treeInv_rename hi hd rfl hren
    have hd1 : (h.write dst
        { dn with kind := sn.kind, id := sn.id, defSite := sn.defSite,
                  parent := sn.parent }).deref dst =
        some { dn with kind := sn.kind, id := sn.id, defSite := sn.defSite,
                       parent := sn.parent } := deref_write_same _ hdlt
    obtain ⟨sn1, hsn1, hsn1c⟩ : ∃ sn1, (h.write dst
        { dn with kind := sn.kind, id := sn.id, defSite := sn.defSite,
                  parent := sn.parent }).deref src = some sn1 ∧
        sn1.children = sn.children := by
      by_cases hsd : src = dst
      · subst hsd
        obtain rfl : sn = dn := Option.some.inj (hs.symm.trans hd)
        exact ⟨_, hd1, rfl⟩
      · exact ⟨sn, by rw [deref_write_ne _ (Ne.symm hsd)]; exact hs, rfl⟩
    have hJ0 : CopyLoopInv (h.write dst
        { dn with kind := sn.kind, id := sn.id, defSite := sn.defSite, parent := sn.parent })
        dst { dn with kind := sn.kind, id := sn.id, defSite := sn.defSite,
                      parent := sn.parent } []
        (h.write dst
          { dn with kind := sn.kind, id := sn.id, defSite := sn.defSite,
                    parent := sn.parent }) [] := by
      refine ⟨hi1, Nat.le_refl _, fun _ _ _ => rfl, freshClosed_start _, ?_,
        fun c hc => by cases hc⟩
      rw [hd1]
      simp only [hdn]
    obtain ⟨newsfin, hi2, hlen2, hframe2, hfc2, hdst2, hnews2⟩ :=
      copyChildren_inv f ih _ dst _ sn.children (by rw [length_write]; exact hdlt) hd1
        (fun a b xa xb ha hb hab hxa hxb hid =>
          hi1.2.2 src a b sn1 xa xb hsn1 (hsn1c ▸ ha) (hsn1c ▸ hb) hab hxa hxb hid)
        (fun y hy => hi1.1 src sn1 hsn1 y (hsn1c ▸ hy))
        (hsn1c ▸ hi1.2.1 src sn1 hsn1)
        sn.children [] _ [] h1 (by simp) hJ0 hrun
    rw [length_write] at hlen2 hframe2 hfc2 hnews2
    refine ⟨hi2, hlen2, ?_, hfc2, newsfin, hdst2, ?_⟩
    · intro q hq hqd
      rw [hframe2 q hq hqd, deref_write_ne _ (Ne.symm hqd)]
    · intro y hy
      obtain ⟨y1, -, -, -, hy1, hyl, -⟩ := hnews2 _ hy
      obtain rfl : y = y1 := Option.some.inj hy1
      exact hyl

/-! ## Import substitution keeps the shape -/

theorem importConflict_none_inv {h : Heap} {tip : String} {cs : List (Option Ptr)}
    (hf : importConflict h tip cs = some none) :
    ∀ (c : Nat) (cn : SymbolTable), some c ∈ cs → h.deref c = some cn →
      ¬ (cn.id.get 0 ≠ '_' ∧ cn.id = tip) := by
  induction cs with
  | nil => intro c cn hc; cases hc
  | cons d rest ih =>
    cases d with
    | none => simp [importConflict] at hf
    | some q =>
      cases hq : h.deref q with
      | none => simp [importConflict, hq] at hf
      | some n =>
        simp only [importConflict, hq, bne_iff_ne] at hf
        by_cases hid : n.id.get 0 ≠ '_' ∧ n.id = tip
        · rw [if_pos hid] at hf; cases hf
        · rw [if_neg hid] at hf
          intro c cn hc hcn
          rcases List.mem_cons.mp hc with hce | hcr
          · obtain rfl : c = q := Option.some.inj hce
            rw [hq] at hcn
            obtain rfl := Option.some.inj hcn
            exact hid
          · exact ih hf c cn hcr hcn

/-- One turn of the loop for an import handled by the ordinary path, when the placeholder
has no children and is a child of its parent only. -/
theorem substituteImport_inv (K : Ext) (tr : TreeHeap) (fuel : Nat) {h : Heap} {log : Log}
    {imp : Nat} {path : String} {r : Heap × Log}
    (hrun : substituteImport K tr fuel h log imp path = some r) (hi : TreeInv h)
    (hsp : SoleParent h imp)
    (hch : ∀ n : SymbolTable, h.deref imp = some n → n.children = []) :
    TreeInv r.1 ∧ h.length ≤ r.1.length ∧
    (∀ q, q < h.length → q ≠ imp → r.1.deref q = h.deref q) ∧
    FreshClosed r.1 h.length ∧
    (∀ n1 : SymbolTable, r.1.deref imp = some n1 →
      ∀ y : Nat, some y ∈ n1.children → h.length ≤ y) := by
  have hsame : TreeInv h ∧ h.length ≤ h.length ∧
      (∀ q, q < h.length → q ≠ imp → h.deref q = h.deref q) ∧
      FreshClosed h h.length ∧
      (∀ n1 : SymbolTable, h.deref imp = some n1 →
        ∀ y : Nat, some y ∈ n1.children → h.length ≤ y) := by
    refine ⟨hi, Nat.le_refl _, fun _ _ _ => rfl, freshClosed_start h, ?_⟩
    intro n1 hn1 y hy
    rw [hch n1 hn1] at hy
    cases hy
  unfold substituteImport at hrun
  simp only [Option.bind_eq_bind, Option.bind_eq_some] at hrun
  obtain ⟨n, hn, ds, -, dn, -, binding, -, hrun⟩ := hrun
  cases binding with
  | none =>
    simp only at hrun
    obtain rfl := Option.some.inj hrun
    exact hsame
  | some b =>
    simp only [Option.bind_eq_bind, Option.bind_eq_some] at hrun
    obtain ⟨bn, hbn, par, hpar, pn, hpn, conf, hconf, hrun⟩ := hrun
    cases conf with
    | some prev =>
      simp only [Option.bind_eq_bind, Option.bind_eq_some] at hrun
      obtain ⟨c, -, cn, -, idt, -, idn, -, ic, -, icn, -, prv, -, hrun⟩ := hrun
      obtain rfl := Option.some.inj hrun
      exact hsame
    | none =>
      simp only [Option.bind_eq_bind, Option.bind_eq_some] at hrun
      obtain ⟨h1, hassign, hrun⟩ := hrun
      obtain rfl := Option.some.inj hrun
      have hren : Renamable h imp bn.id := by
        intro q c qn cn hq himp hc hci hcn hid
        have hq' := hsp q qn n hq himp hn
        rw [hpar] at hq'
        obtain rfl : par = q := Option.some.inj hq'
        obtain rfl : pn = qn := Option.some.inj (hpn.symm.trans hq)
        by_contra hsys
        exact importConflict_none_inv hconf c cn hc hcn ⟨by rw [hid]; exact hsys, hid⟩
      obtain ⟨hi1, hlen1, hframe1, hfc1, news, hd1, hnews⟩ :=
        assign_inv fuel h imp b h1 n bn hassign hi hn (hch n hn) hbn hren
      refine ⟨hi1, hlen1, hframe1, hfc1, ?_⟩
      intro n1 hn1 y hy
      rw [hd1] at hn1
      obtain rfl := Option.some.inj hn1
      exact hnews y hy

/-- The rest of the worklist stays in order when the heap changes only at the import just
handled and above the old cells. -/
theorem importsOk_frame {h h1 : Heap} {imp : Nat} {rest : List Ptr}
    (hl : ImportsOk h (imp :: rest)) (hcl : ChildlessImports h (imp :: rest))
    (hlen : h.length ≤ h1.length)
    (hframe : ∀ q, q < h.length → q ≠ imp → h1.deref q = h.deref q)
    (hfc : FreshClosed h1 h.length)
    (himp : ∀ n1 : SymbolTable, h1.deref imp = some n1 →
      ∀ y : Nat, some y ∈ n1.children → h.length ≤ y) :
    ImportsOk h1 rest ∧ ChildlessImports h1 rest := by
  have hne : ∀ p : Nat, p ∈ rest → p ≠ imp := by
    intro p hp hpi
    subst hpi
    exact (List.nodup_cons.mp hl.1).1 hp
  refine ⟨⟨(List.nodup_cons.mp hl.1).2, ?_⟩, ?_⟩
  · intro p hp
    obtain ⟨hplt, hps⟩ := hl.2 p (List.mem_cons_of_mem _ hp)
    refine ⟨by omega, ?_⟩
    intro q n pn hq hmem hpn
    rw [hframe p hplt (hne p hp)] at hpn
    by_cases hqi : q = imp
    · subst hqi
      have := himp n hq p hmem
      omega
    · rcases Nat.lt_or_ge q h.length with hlt | hge
      · rw [hframe q hlt hqi] at hq
        exact hps q n pn hq hmem hpn
      · have := hfc q n hge hq p hmem
        omega
  · intro p hp n hn
    have hplt := (hl.2 p (List.mem_cons_of_mem _ hp)).1
    rw [hframe p hplt (hne p hp)] at hn
    exact hcl p (List.mem_cons_of_mem _ hp) n hn

theorem subImportLoop_inv (K : Ext) (tr : TreeHeap) (fuel : Nat)
    (hmark : K.STANDARD_IMPORT_DECL_STRING.get 0 = '_') :
    ∀ (l : List Ptr) (flag : Bool) (h : Heap) (log : Log) (r : Heap × Log),
    subImportLoop K tr fuel flag l h log = some r → TreeInv h → ImportsOk h l →
    ChildlessImports h l → TreeInv r.1 := by
  intro l
  induction l with
  | nil =>
    intro flag h log r hrun hi _ _
    rw [subImportLoop] at hrun
    obtain rfl := Option.some.inj hrun
    exact hi
  | cons imp rest ih =>
    intro flag h log r hrun hi hl hcl
    rw [subImportLoop] at hrun
    simp only [Option.bind_eq_bind, Option.bind_eq_some] at hrun
    obtain ⟨path, -, hrun⟩ := hrun
    have hsp : SoleParent h imp := (hl.2 imp (List.mem_cons_self _ _)).2
    have hch := hcl imp (List.mem_cons_self _ _)
    split_ifs at hrun
    · simp only [Option.bind_eq_some] at hrun
      obtain ⟨n, hn, hrun⟩ := hrun
      have hlt := deref_lt hn
      have hi1 : TreeInv (h.write imp { n with id := K.STANDARD_IMPORT_DECL_STRING }) :=
        treeInv_rename hi hn rfl (fun _ _ _ _ _ _ _ _ _ _ => hmark)
      obtain ⟨hl1, hcl1⟩ := @importsOk_frame h
        (h.write imp { n with id := K.STANDARD_IMPORT_DECL_STRING }) imp rest hl hcl
        (by rw [length_write])
        (fun q _ hq => deref_write_ne _ (Ne.symm hq))
        (by
          intro q n1 hq hn1 y hy
          have := deref_lt hn1
          rw [length_write] at this
          omega)
        (by
          intro n1 hn1 y hy
          rw [deref_write_same _ hlt] at hn1
          obtain rfl := Option.some.inj hn1
          simp only [hch n hn] at hy
          cases hy)
      exact ih _ _ _ _ hrun hi1 hl1 hcl1
    · simp only [Option.bind_eq_some] at hrun
      obtain ⟨r1, hsub, hrun⟩ := hrun
      obtain ⟨hi1, hlen1, hframe1, hfc1, himp1⟩ :=
        substituteImport_inv K tr fuel hsub hi hsp hch
      obtain ⟨hl1, hcl1⟩ := importsOk_frame hl hcl hlen1 hframe1 hfc1 himp1
      exact ih _ _ _ _ hrun hi1 hl1 hcl1

/-! ## The default definitions have the shape -/

theorem importsOk_nil (h : Heap) : ImportsOk h [] :=
  ⟨List.nodup_nil, fun _ hp => by cases hp⟩

theorem treeInv_nil : TreeInv ([] : Heap) := by
  have hnone : ∀ (q : Nat) (n : SymbolTable), Heap.deref ([] : Heap) q = some n → False := by
    intro q n hq
    have := deref_lt hq
    simp at this
  exact ⟨fun q n hq => (hnone q n hq).elim, fun q n hq => (hnone q n hq).elim,
    fun q _ _ n _ _ hq => (hnone q n hq).elim⟩

theorem concatNew_inv (K : Ext) (tr : TreeHeap) {h : Heap} {log : Log} {self : Nat}
    {kind : Int} {id : String} {ds : Option TreePtr} {r : Heap × Log × Ptr}
    (hrun : concatNew K tr h log self kind id ds = some r) (hi : TreeInv h) :
    TreeInv r.1 ∧ r.1.length = h.length + 1 ∧
    (∀ z, z < h.length → Unref h z → Unref r.1 z) := by
  obtain ⟨hi1, hlen1, -, -, hun1⟩ := declare_inv K tr kind id ds hi (importsOk_nil h) hrun
  exact ⟨hi1, hlen1, hun1⟩

theorem catStdNodes_inv (K : Ext) (tr : TreeHeap) {h : Heap} {log : Log} {root : Nat}
    {r : Heap × Log} (hrun : catStdNodes K tr h log root = some r) (hi : TreeInv h) :
    TreeInv r.1 := by
  simp only [catStdNodes, Option.bind_eq_bind, Option.bind_eq_some] at hrun
  obtain ⟨r1, h1, r2, h2, r3, h3, r4, h4, r5, h5, r6, h6, hfin⟩ := hrun
  obtain rfl := Option.some.inj hfin
  have i1 := (concatNew_inv K tr h1 hi).1
  have i2 := (concatNew_inv K tr h2 i1).1
  have i3 := (concatNew_inv K tr h3 i2).1
  have i4 := (concatNew_inv K tr h4 i3).1
  have i5 := (concatNew_inv K tr h5 i4).1
  exact (concatNew_inv K tr h6 i5).1

theorem catStdLib_inv (K : Ext) (tr : TreeHeap) {h : Heap} {log : Log} {root : Nat}
    {r : Heap × Log} (hrun : catStdLib K tr h log root = some r) (hi : TreeInv h) :
    TreeInv r.1 := by
  simp only [catStdLib, Option.bind_eq_bind, Option.bind_eq_some, Heap.alloc] at hrun
  obtain ⟨r1, h1, r2, h2, r3, h3, r4, h4, r5, h5, r6, h6, r7, h7, r8, h8, r9, h9, r10, h10,
    r11, h11, hfin⟩ := hrun
  obtain rfl := Option.some.inj hfin
  obtain ⟨i0, u0, -, -⟩ :=
    treeInv_alloc (m := SymbolTable.mk3 KIND_STD K.STANDARD_LIBRARY_STRING none) hi rfl
  have l0 : (h ++ [some (SymbolTable.mk3 KIND_STD K.STANDARD_LIBRARY_STRING none)]).length =
      h.length + 1 := by simp only [List.length_append, List.length_singleton]
  obtain ⟨i1, l1, u1⟩ := concatNew_inv K tr h1 i0
  obtain ⟨i2, l2, u2⟩ := concatNew_inv K tr h2 i1
  obtain ⟨i3, l3, u3⟩ := concatNew_inv K tr h3 i2
  obtain ⟨i4, l4, u4⟩ := concatNew_inv K tr h4 i3
  obtain ⟨i5, l5, u5⟩ := concatNew_inv K tr h5 i4
  obtain ⟨i6, l6, u6⟩ := concatNew_inv K tr h6 i5
  obtain ⟨i7, l7, u7⟩ := concatNew_inv K tr h7 i6
  obtain ⟨i8, l8, u8⟩ := concatNew_inv K tr h8 i7
  obtain ⟨i9, l9, u9⟩ := concatNew_inv K tr h9 i8
  obtain ⟨i10, l10, u10⟩ := concatNew_inv K tr h10 i9
  have v1 := u1 h.length (by omega) u0
  have v2 := u2 h.length (by omega) v1
  have v3 := u3 h.length (by omega) v2
  have v4 := u4 h.length (by omega) v3
  have v5 := u5 h.length (by omega) v4
  have v6 := u6 h.length (by omega) v5
  have v7 := u7 h.length (by omega) v6
  have v8 := u8 h.length (by omega) v7
  have v9 := u9 h.length (by omega) v8
  have v10 := u10 h.length (by omega) v9
  exact (concat_treeInv K tr i10 v10 h11).1

theorem genDefaultDefs_inv (K : Ext) (tr : TreeHeap) {log : Log} {g : Heap × Log × Ptr}
    (hrun : genDefaultDefs K tr [] log = some g) : TreeInv g.1 := by
  simp only [genDefaultDefs, Option.bind_eq_bind, Option.bind_eq_some, Heap.alloc] at hrun
  obtain ⟨r1, h1, r2, h2, hfin⟩ := hrun
  obtain rfl := Option.some.inj hfin
  obtain ⟨i0, -, -, -⟩ :=
    treeInv_alloc (m := SymbolTable.mk3 KIND_BLOCK K.BLOCK_NODE_STRING none) treeInv_nil rfl
  exact catStdLib_inv K tr h2 (catStdNodes_inv K tr h1 i0)

theorem semDecorate_inv (K : Ext) (fuel : Nat) (tr : TreeHeap) (root : Option TreePtr)
    {d : Decor × Ptr} (hrun : semDecorate K fuel tr root = some d) :
    TreeInv d.1.st ∧ ImportsOk d.1.st d.1.importList := by
  simp only [semDecorate, Option.bind_eq_bind, Option.bind_eq_some] at hrun
  obtain ⟨g, hg, s, hs, hfin⟩ := hrun
  obtain rfl := Option.some.inj hfin
  obtain ⟨hi, hl, -⟩ := extractNodes_inv K fuel root g.2.2 false _ s hs
    (genDefaultDefs_inv K tr hg) (importsOk_nil _)
  exact ⟨hi, hl⟩

/-! ## Sibling-name uniqueness (C21) -/

/-- C21 as amended (sibling-name uniqueness): (1) every concatenation that returns keeps
the property that no node has two distinct children with the same id unless that id begins
with an underscore; (2) for every parse tree, the symbol tree that decoration builds from
the default definitions has this property; (3) when the id of the standard-import marker
begins with an underscore and the import symbols have no children when decoration ends,
the symbol tree after import substitution over the worklist has the property as well. -/
theorem C21_sibling_names (K : Ext) (tr : TreeHeap) (fuel : Nat) (root : Option TreePtr) :
    (∀ (h : Heap) (log : Log) (self : Nat) (x : Option Ptr) (r : Heap × Log × Ptr),
      UniqueNames h → concat K tr h log self x = some r → UniqueNames r.1) ∧
    (∀ d : Decor × Ptr, semDecorate K fuel tr root = some d → UniqueNames d.1.st) ∧
    (∀ d s : Decor × Ptr, semDecorate K fuel tr root = some d →
      semSymbols K fuel tr root = some s →
      K.STANDARD_IMPORT_DECL_STRING.get 0 = '_' →
      ChildlessImports d.1.st d.1.importList → UniqueNames s.1.st) := by
  refine ⟨fun h log self x r hu hrun => concat_uniqueNames K tr hu hrun,
    fun d hd => (semDecorate_inv K fuel tr root hd).1.2.2, ?_⟩
  intro d s hd hs hmark hcl
  obtain ⟨hi, hl⟩ := semDecorate_inv K fuel tr root hd
  simp only [semSymbols, hd, Option.bind_eq_bind, Option.some_bind,
    Option.bind_eq_some] at hs
  obtain ⟨r, hsub, hfin⟩ := hs
  obtain rfl := Option.some.inj hfin
  exact (subImportLoop_inv K d.1.tr fuel hmark d.1.importList false d.1.st d.1.log r hsub
    hi hl hcl).2.2

/-- Witness of C21 as amended, on the program `a = (x = 1); { @a }` (`trImpNested`):
the import symbol 21 has no children when decoration ends; after substitution it is a copy
of `a` with the copy 22 of `x` as its child, and the sibling names are unique. -/
theorem C21_sibling_names_witness :
    extW.STANDARD_IMPORT_DECL_STRING.get 0 = '_' ∧
    ∃ d s : Decor × Ptr, semDecorate extW 30 trImpNested (some 0) = some d ∧
      ChildlessImports d.1.st d.1.importList ∧
      semSymbols extW 30 trImpNested (some 0) = some s ∧
      UniqueNames d.1.st ∧ UniqueNames s.1.st ∧
      s.1.st.deref 21 = cellAt KIND_STATIC_DECL "a" 3 (some 0) [some 22] ∧
      s.1.st.deref 22 = cellAt KIND_STATIC_DECL "x" 6 (some 21) [] := by
  have hmark : extW.STANDARD_IMPORT_DECL_STRING.get 0 = '_' := by decide
  have hdv : (semDecorate extW 30 trImpNested (some 0)).map
      (fun d => (d.1.importList, d.1.st.deref 21)) =
      some ([21], cellAt KIND_IMPORT "_import" 11 (some 20) []) := by decide
  have hsv : (semSymbols extW 30 trImpNested (some 0)).map
      (fun s => (s.1.st.deref 21, s.1.st.deref 22)) =
      some (cellAt KIND_STATIC_DECL "a" 3 (some 0) [some 22],
        cellAt KIND_STATIC_DECL "x" 6 (some 21) []) := by decide
  cases hd : semDecorate extW 30 trImpNested (some 0) with
  | none => rw [hd] at hdv; cases hdv
  | some d =>
    rw [hd] at hdv
    obtain ⟨hil, h21⟩ := Prod.mk.inj (Option.some.inj hdv)
    cases hs : semSymbols extW 30 trImpNested (some 0) with
    | none => rw [hs] at hsv; cases hsv
    | some s =>
      rw [hs] at hsv
      obtain ⟨hs21, hs22⟩ := Prod.mk.inj (Option.some.inj hsv)
      have hcl : ChildlessImports d.1.st d.1.importList := by
        intro p hp n hn
        rw [hil] at hp
        simp only [List.mem_singleton] at hp
        subst hp
        rw [h21] at hn
        obtain rfl := Option.some.inj hn
        rfl
      have hthm := C21_sibling_names extW trImpNested 30 (some 0)
      exact ⟨hmark, d, s, rfl, hcl, rfl, hthm.2.1 d hd, hthm.2.2 d s hd hs hmark hcl,
        hs21, hs22⟩

/-- C21, counterexample to the claim as stated, on the parse tree `trImpKid`, in which the
declaration of an `x` stands below the import declaration `@a` and the imported `a` has a
child `x`: decoration reports nothing and gives the import symbol 21 the child 22 (`x`);
substitution reports nothing and appends the copy 23 of the `x` of `a`, so the node 21 has
the two distinct children 22 and 23 with the same id `x`, which does not begin with an
underscore. -/
theorem C21_counterexample :
    (semDecorate extW 30 trImpKid (some 0)).map
        (fun d => (d.1.importList, d.1.log, d.1.st.deref 21)) =
      some ([21], [], cellAt KIND_IMPORT "_import" 11 (some 20) [some 22]) ∧
    (semSymbols extW 30 trImpKid (some 0)).map
        (fun s => (s.1.log, s.1.st.deref 21, s.1.st.deref 22, s.1.st.deref 23)) =
      some ([], cellAt KIND_STATIC_DECL "a" 3 (some 0) [some 22, some 23],
        cellAt KIND_STATIC_DECL "x" 15 (some 21) [],
        cellAt KIND_STATIC_DECL "x" 6 (some 21) []) ∧
    ∀ s : Decor × Ptr, semSymbols extW 30 trImpKid (some 0) = some s →
      ¬ UniqueNames s.1.st := by
  have hsv : (semSymbols extW 30 trImpKid (some 0)).map
      (fun s => (s.1.log, s.1.st.deref 21, s.1.st.deref 22, s.1.st.deref 23)) =
      some ([], cellAt KIND_STATIC_DECL "a" 3 (some 0) [some 22, some 23],
        cellAt KIND_STATIC_DECL "x" 15 (some 21) [],
        cellAt KIND_STATIC_DECL "x" 6 (some 21) []) := by decide
  refine ⟨by decide, hsv, ?_⟩
  intro s hs hu
  rw [hs] at hsv
  have hsv1 := Option.some.inj hsv
  simp only [Prod.mk.injEq] at hsv1
  obtain ⟨-, h21, h22, h23⟩ := hsv1
  have := hu 21 22 23 _ _ _ h21 (by simp) (by simp) (by decide) h22 h23 rfl
  revert this
  decide

/-! ## The passes append to the error stream and do not read it -/

end Anic
